import Mathlib

/-!
# Smart warehouse management system: route resolver, order queues, undo ledger

A shallow embedding of `WarehouseGraph.h`, `Order.h`, `OrderManager.h`,
`InventoryManager.h`, `ActionHistory.h` and the command layer of `main.cpp`.

* C++ `int` is modelled by `Int`; the single place where the program adds two
  `int`s that can leave the 32-bit range (`dist[u] + weight`) wraps explicitly.
* `unordered_map<int, T>` is an association list searched from the front.
* The two `while` loops of `getShortestPath` carry a fuel argument and return
  `none` when the fuel runs out; so does every function that calls it.
* `std::push_heap`, `std::pop_heap`, `std::make_heap`, `std::sort_heap` follow the
  libstdc++ algorithms (`__push_heap`, `__adjust_heap`); their loops run on the
  fuel that bounds them.
-/

namespace Warehouse

/-! ## Machine integers and maps -/

/-- The value of `numeric_limits<int>::max()`. -/
def INT_MAX : Int := 2147483647

/-- Two's complement wrap of an exact integer into the 32-bit `int` range. -/
def wrapInt (x : Int) : Int := (x + 2147483648) % 4294967296 - 2147483648

/-- Lookup in an `unordered_map<int, T>`: `m.find(key)`. -/
def mapFind {α : Type} : List (Int × α) → Int → Option α
  | [], _ => none
  | (k, v) :: rest, key => if k = key then some v else mapFind rest key

/-- Assignment `m[key] = v`: overwrite the entry of `key`, or create it. -/
def mapSet {α : Type} : List (Int × α) → Int → α → List (Int × α)
  | [], key, v => [(key, v)]
  | (k, x) :: rest, key, v =>
    if k = key then (k, v) :: rest else (k, x) :: mapSet rest key v

/-- Read `m[key]` of an `unordered_map<int, int>`: the stored value, and the
value-initialised `0` for a key that is absent. -/
def mapGet (m : List (Int × Int)) (key : Int) : Int := (mapFind m key).getD 0

/-! ## WarehouseGraph.h -/

/-- The class `WarehouseGraph`: the adjacency map, node to list of (neighbour, weight). -/
structure WarehouseGraph where
  adj : List (Int × List (Int × Int))
deriving Repr, DecidableEq

/-- `adj[u].push_back(e)`: `adj[u]` creates an empty vector for a new key. -/
def adjPush (adj : List (Int × List (Int × Int))) (u : Int) (e : Int × Int) :
    List (Int × List (Int × Int)) :=
  mapSet adj u ((mapFind adj u).getD [] ++ [e])

/-- `WarehouseGraph::addEdge`: the edge is stored in both directions. -/
def addEdge (g : WarehouseGraph) (u v weight : Int) : WarehouseGraph :=
  ⟨adjPush (adjPush g.adj u (v, weight)) v (u, weight)⟩

/-- The local state of `getShortestPath`: the maps `dist` and `parent`, and the
contents of the min-priority queue `pq` of pairs (distance, node). -/
structure DState where
  dist : List (Int × Int)
  parent : List (Int × Int)
  pq : List (Int × Int)
deriving Repr, DecidableEq

/-- The order `greater<pair<int,int>>` inverts: lexicographic `<` on pairs. -/
def pairLt (a b : Int × Int) : Bool :=
  decide (a.1 < b.1) || (decide (a.1 = b.1) && decide (a.2 < b.2))

/-- `pq.top()` of the min-priority queue: the lexicographically least pair. -/
def pqTop : List (Int × Int) → Option (Int × Int)
  | [] => none
  | x :: xs =>
    match pqTop xs with
    | none => some x
    | some m => if pairLt m x then some m else some x

/-- `dist.find(v) == dist.end()` then `dist[v] = INT_MAX`. -/
def distTouch (dist : List (Int × Int)) (v : Int) : List (Int × Int) :=
  if (mapFind dist v).isNone then mapSet dist v INT_MAX else dist

/-- The body of `for (auto& edge : adj[u])` in `getShortestPath`. -/
def relaxEdge (u : Int) (st : DState) (edge : Int × Int) : DState :=
  let v := edge.1
  let weight := edge.2
  let dist1 := distTouch st.dist v
  if mapGet dist1 u ≠ INT_MAX ∧ wrapInt (mapGet dist1 u + weight) < mapGet dist1 v then
    let nd := wrapInt (mapGet dist1 u + weight)
    { dist := mapSet dist1 v nd
      parent := mapSet st.parent v u
      pq := (nd, v) :: st.pq }
  else { st with dist := dist1 }

/-- The loop `while (!pq.empty())` of `getShortestPath`; `none` when the fuel
does not cover the iterations. -/
def dijkstraLoop (g : WarehouseGraph) (endNode : Int) : Nat → DState → Option DState
  | 0, _ => none
  | fuel + 1, st =>
    match pqTop st.pq with
    | none => some st
    | some (d, u) =>
      let st1 := { st with pq := st.pq.erase (d, u) }
      if d > mapGet st1.dist u then dijkstraLoop g endNode fuel st1
      else if u = endNode then some st1
      else
        match mapFind g.adj u with
        | none => dijkstraLoop g endNode fuel st1
        | some edges => dijkstraLoop g endNode fuel (edges.foldl (relaxEdge u) st1)

/-- The loop `while (curr != start)` of the path reconstruction; `path` grows by
`push_back`. -/
def walkParents (parent : List (Int × Int)) (start : Int) :
    Nat → Int → List Int → Option (List Int)
  | 0, _, _ => none
  | fuel + 1, curr, path =>
    if curr = start then some path
    else
      match mapFind parent curr with
      | none => some (path ++ [curr])
      | some p => walkParents parent start fuel p (path ++ [curr])

/-- The initial `dist` map: `INT_MAX` for every key of `adj`, for `start` and
for `end`, then `dist[start] = 0`. -/
def initDist (g : WarehouseGraph) (start endNode : Int) : List (Int × Int) :=
  let dist0 := g.adj.foldl (fun d node => mapSet d node.1 INT_MAX) []
  mapSet (distTouch (distTouch dist0 start) endNode) start 0

/-- `WarehouseGraph::getShortestPath`: the pair (total distance, path), with
distance `-1` and an empty path for an unreachable end. -/
def getShortestPath (g : WarehouseGraph) (fuel : Nat) (start endNode : Int) :
    Option (Int × List Int) :=
  match dijkstraLoop g endNode fuel ⟨initDist g start endNode, [], [(0, start)]⟩ with
  | none => none
  | some st =>
    if mapGet st.dist endNode = INT_MAX then some (-1, [])
    else
      match walkParents st.parent start fuel endNode [] with
      | none => none
      | some path => some (mapGet st.dist endNode, (path ++ [start]).reverse)

/-- `setupWarehouse` of `main.cpp`. -/
def setupWarehouse (g : WarehouseGraph) : WarehouseGraph :=
  let g := addEdge g 0 1 5
  let g := addEdge g 0 2 7
  let g := addEdge g 1 3 4
  let g := addEdge g 1 4 3
  let g := addEdge g 2 5 2
  let g := addEdge g 2 6 5
  let g := addEdge g 4 7 6
  let g := addEdge g 5 8 4
  let g := addEdge g 6 9 3
  let g := addEdge g 3 7 2
  addEdge g 8 9 1

/-! ## Order.h -/

/-- The struct `Order`. -/
structure Order where
  id : Int
  priority : Int
  itemName : String
  quantity : Int
  itemLocationNode : Int
deriving Repr, DecidableEq, Inhabited

/-- `Order::operator<`: orders compare by priority alone. -/
def Order.lt (a b : Order) : Bool := decide (a.priority < b.priority)

/-! ## The heap algorithms of `<algorithm>` (libstdc++) on a `vector<Order>` -/

/-- The element `first[i]` of the vector. -/
def nth (l : List Order) (i : Nat) : Order := l.getD i default

/-- The loop of `std::__push_heap(first, holeIndex, topIndex, value)`: the hole
climbs while its parent compares less than `value`, then `value` fills the hole.
The hole index at least halves in every round, so fuel `holeIndex` covers the loop. -/
def pushHeapLoop (value : Order) (topIndex : Nat) : Nat → List Order → Nat → List Order
  | 0, l, holeIndex => l.set holeIndex value
  | fuel + 1, l, holeIndex =>
    let parent := (holeIndex - 1) / 2
    if holeIndex > topIndex ∧ (nth l parent).lt value = true then
      pushHeapLoop value topIndex fuel (l.set holeIndex (nth l parent)) parent
    else l.set holeIndex value

/-- `std::__push_heap(first, holeIndex, topIndex, value)`. -/
def push_heap_aux (l : List Order) (holeIndex topIndex : Nat) (value : Order) : List Order :=
  pushHeapLoop value topIndex holeIndex l holeIndex

/-- `std::push_heap(first, last)` on the whole vector: the last element is pushed
onto the heap formed by the elements before it. -/
def push_heap (l : List Order) : List Order :=
  push_heap_aux l (l.length - 1) 0 (nth l (l.length - 1))

/-- The `while (secondChild < (len - 1) / 2)` loop of `std::__adjust_heap`: the
hole sinks to the larger child; at the head of the loop `secondChild` equals
`holeIndex`. The result is the vector and the final hole index. The hole index
grows in every round and stays below `len`, so fuel `len` covers the loop. -/
def adjustHeapLoop (len : Nat) : Nat → List Order → Nat → List Order × Nat
  | 0, l, holeIndex => (l, holeIndex)
  | fuel + 1, l, holeIndex =>
    if holeIndex < (len - 1) / 2 then
      let secondChild := 2 * (holeIndex + 1)
      let secondChild :=
        if (nth l secondChild).lt (nth l (secondChild - 1)) = true then secondChild - 1
        else secondChild
      adjustHeapLoop len fuel (l.set holeIndex (nth l secondChild)) secondChild
    else (l, holeIndex)

/-- `std::__adjust_heap(first, holeIndex, len, value)`: sink the hole to the
bottom, take the single child of the last inner node when `len` is even, then
push `value` up from the hole, not above the original hole index. -/
def adjust_heap (l : List Order) (holeIndex len : Nat) (value : Order) : List Order :=
  let topIndex := holeIndex
  let r := adjustHeapLoop len len l holeIndex
  let r2 :=
    if len % 2 = 0 ∧ 2 ≤ len ∧ r.2 = (len - 2) / 2 then
      (r.1.set r.2 (nth r.1 (2 * (r.2 + 1) - 1)), 2 * (r.2 + 1) - 1)
    else r
  push_heap_aux r2.1 r2.2 topIndex value

/-- `std::pop_heap(first, first + n)`: for `n > 1`, `std::__pop_heap` saves the
last element, moves the first element to the last place and re-heapifies the
first `n - 1` places around the saved value. -/
def popHeapN (l : List Order) (n : Nat) : List Order :=
  if n > 1 then
    let value := nth l (n - 1)
    adjust_heap (l.set (n - 1) (nth l 0)) 0 (n - 1) value
  else l

/-- `std::pop_heap(first, last)` on the whole vector. -/
def pop_heap (l : List Order) : List Order := popHeapN l l.length

/-- The loop of `std::__make_heap`, running `parent` down to 0. -/
def makeHeapLoop (len : Nat) : Nat → List Order → List Order
  | 0, l => adjust_heap l 0 len (nth l 0)
  | parent + 1, l =>
    makeHeapLoop len parent (adjust_heap l (parent + 1) len (nth l (parent + 1)))

/-- `std::make_heap(first, last)` on the whole vector. -/
def make_heap (l : List Order) : List Order :=
  if l.length < 2 then l else makeHeapLoop l.length ((l.length - 2) / 2) l

/-- The loop of `std::__sort_heap`, with `last - first = n`. -/
def sortHeapLoop : Nat → List Order → List Order
  | 0, l => l
  | n + 1, l => if n + 1 > 1 then sortHeapLoop n (popHeapN l (n + 1)) else l

/-- `std::sort_heap(first, last)` on the whole vector. -/
def sort_heap (l : List Order) : List Order := sortHeapLoop l.length l

/-! ## ActionHistory.h -/

/-- The enum `ActionType`. -/
inductive ActionType where
  | ADD_ORDER
  | PROCESS_ORDER
  | DISPATCH_ORDER
deriving Repr, DecidableEq

/-- The struct `ActionRecord`. -/
structure ActionRecord where
  type : ActionType
  orderId : Int
  itemId : Int
  quantity : Int
  priority : Int
deriving Repr, DecidableEq

/-- The class `ActionHistory`: the stack `history`, its top at the head of the list. -/
structure ActionHistory where
  history : List ActionRecord
deriving Repr, DecidableEq

/-- `ActionHistory::logAction`. -/
def logAction (h : ActionHistory) (record : ActionRecord) : ActionHistory :=
  ⟨record :: h.history⟩

/-- `ActionHistory::hasActions`. -/
def hasActions (h : ActionHistory) : Bool := !h.history.isEmpty

/-- `ActionHistory::popLastAction`: the top record and the stack without it; on
an empty stack the dummy record and the unchanged stack. -/
def popLastAction (h : ActionHistory) : ActionRecord × ActionHistory :=
  match h.history with
  | last :: rest => (last, ⟨rest⟩)
  | [] => (⟨ActionType.ADD_ORDER, -1, -1, 0, 0⟩, h)

/-! ## InventoryManager.h -/

/-- The struct `Item`. -/
structure Item where
  id : Int
  name : String
  quantity : Int
  locationNode : Int
deriving Repr, DecidableEq

/-- The class `InventoryManager`: the map `inventory` from item id to item. -/
structure InventoryManager where
  inventory : List (Int × Item)
deriving Repr, DecidableEq

/-- `InventoryManager::addItem`. -/
def addItem (inv : InventoryManager) (id : Int) (name : String) (qty loc : Int) :
    InventoryManager :=
  ⟨mapSet inv.inventory id ⟨id, name, qty, loc⟩⟩

/-- `InventoryManager::getItem`: `none` stands for `nullptr`. -/
def getItem (inv : InventoryManager) (id : Int) : Option Item := mapFind inv.inventory id

/-- `InventoryManager::hasStock`. -/
def hasStock (inv : InventoryManager) (id qty : Int) : Bool :=
  match mapFind inv.inventory id with
  | some item => decide (item.quantity ≥ qty)
  | none => false

/-- `InventoryManager::updateStock`: `quantity += change` in 32-bit arithmetic;
returns whether the item exists. -/
def updateStock (inv : InventoryManager) (id change : Int) : Bool × InventoryManager :=
  match mapFind inv.inventory id with
  | some item =>
    (true, ⟨mapSet inv.inventory id { item with quantity := wrapInt (item.quantity + change) }⟩)
  | none => (false, inv)

/-- `setupInventory` of `main.cpp`. -/
def setupInventory (inv : InventoryManager) : InventoryManager :=
  let inv := addItem inv 101 "Laptop" 50 7
  let inv := addItem inv 102 "Mouse" 100 3
  let inv := addItem inv 103 "Keyboard" 80 4
  let inv := addItem inv 104 "Monitor" 30 8
  addItem inv 105 "Headphones" 60 9

/-! ## OrderManager.h -/

/-- The class `OrderManager`: the vector `orderHeap` and the deque `dispatchQueue`,
front at the head of the list. The `ActionHistory` behind `historyLogger` is the
one object `main` owns; the methods that log take it and return it. -/
structure OrderManager where
  orderHeap : List Order
  dispatchQueue : List Order
deriving Repr, DecidableEq

/-- `OrderManager::addOrder`: push the order onto the heap, and log an `ADD_ORDER`
record with item id 0. -/
def addOrder (om : OrderManager) (hist : ActionHistory) (order : Order) :
    OrderManager × ActionHistory :=
  ({ om with orderHeap := push_heap (om.orderHeap ++ [order]) },
   logAction hist ⟨ActionType.ADD_ORDER, order.id, 0, order.quantity, order.priority⟩)

/-- `find_if` over the vector for the first order with the given id: its index. -/
def findOrderIdx : List Order → Int → Option Nat
  | [], _ => none
  | o :: rest, orderId =>
    if o.id = orderId then some 0 else (findOrderIdx rest orderId).map (· + 1)

/-- `OrderManager::removeOrder`: erase the first order with the id and rebuild the
heap; returns whether an order was found. -/
def removeOrder (om : OrderManager) (orderId : Int) : Bool × OrderManager :=
  match findOrderIdx om.orderHeap orderId with
  | some i => (true, { om with orderHeap := make_heap (om.orderHeap.eraseIdx i) })
  | none => (false, om)

/-- The local `currentOrder` of `processNextOrder`: the back of the vector after
`pop_heap`. -/
def currentOrder (om : OrderManager) : Order :=
  nth (pop_heap om.orderHeap) ((pop_heap om.orderHeap).length - 1)

/-- `OrderManager::processNextOrder`: pop the top order, route it from node 0,
and either append it to the dispatch queue or push it back onto the heap.
`none` when the route search runs out of fuel. -/
def processNextOrder (om : OrderManager) (graph : WarehouseGraph) (fuel : Nat) :
    Option OrderManager :=
  if om.orderHeap.isEmpty then some om
  else
    let heap2 := (pop_heap om.orderHeap).dropLast
    match getShortestPath graph fuel 0 (currentOrder om).itemLocationNode with
    | none => none
    | some result =>
      if result.1 ≠ -1 then
        some { orderHeap := heap2, dispatchQueue := om.dispatchQueue ++ [currentOrder om] }
      else
        some { orderHeap := push_heap (heap2 ++ [currentOrder om]),
               dispatchQueue := om.dispatchQueue }

/-- `OrderManager::dispatchNextOrder`. -/
def dispatchNextOrder (om : OrderManager) : OrderManager :=
  match om.dispatchQueue with
  | [] => om
  | _ :: rest => { om with dispatchQueue := rest }

/-- `OrderManager::revertProcess`. -/
def revertProcess (om : OrderManager) : Bool × OrderManager :=
  if om.dispatchQueue.isEmpty then (false, om)
  else
    let last := nth om.dispatchQueue (om.dispatchQueue.length - 1)
    (true, { orderHeap := push_heap (om.orderHeap ++ [last]),
             dispatchQueue := om.dispatchQueue.dropLast })

/-- `OrderManager::getPendingOrders`: the returned vector, a sorted copy of the
heap with the highest priority first, and the object after the call. -/
def getPendingOrders (om : OrderManager) : List Order × OrderManager :=
  let temp := om.orderHeap
  ((sort_heap temp).reverse, om)

/-- `OrderManager::getDispatchedOrders`. -/
def getDispatchedOrders (om : OrderManager) : List Order := om.dispatchQueue

/-- `OrderManager::hasDispatched`. -/
def hasDispatched (om : OrderManager) : Bool := !om.dispatchQueue.isEmpty

/-! ## main.cpp: the command layer -/

/-- The objects `main` creates and the counter of `runApiMode`, an `int`. -/
structure AppState where
  inv : InventoryManager
  om : OrderManager
  graph : WarehouseGraph
  hist : ActionHistory
  orderCounter : Int
deriving Repr, DecidableEq

/-- The line a command prints: its `status` and its `msg`, the latter without the
order id that the message of a successful undo of an admission appends. -/
structure Reply where
  status : String
  msg : String
deriving Repr, DecidableEq

/-- The state `main` hands to `runApiMode`. -/
def initialState : AppState :=
  { inv := setupInventory ⟨[]⟩, om := ⟨[], []⟩, graph := setupWarehouse ⟨[]⟩,
    hist := ⟨[]⟩, orderCounter := 1 }

/-- `performUndo`. -/
def performUndo (st : AppState) : AppState × Reply :=
  if !hasActions st.hist then (st, ⟨"error", "Nothing to undo"⟩)
  else
    let popped := popLastAction st.hist
    let last := popped.1
    let st1 := { st with hist := popped.2 }
    match last.type with
    | ActionType.ADD_ORDER =>
      let removed := removeOrder st1.om last.orderId
      if removed.1 then
        ({ st1 with om := removed.2, inv := (updateStock st1.inv last.itemId last.quantity).2 },
         ⟨"success", "Undid ADD Order"⟩)
      else ({ st1 with om := removed.2 }, ⟨"error", "Order not found (already processed?)"⟩)
    | ActionType.PROCESS_ORDER =>
      let reverted := revertProcess st1.om
      if reverted.1 then
        ({ st1 with om := reverted.2 }, ⟨"success", "Undid PROCESS (Returned to Queue)"⟩)
      else ({ st1 with om := reverted.2 }, ⟨"error", "Cannot undo process (Queue empty?)"⟩)
    | ActionType.DISPATCH_ORDER =>
      (st1, ⟨"warning", "Cannot undo FINAL dispatch in this version"⟩)

/-- The `ADD_ORDER id qty prio` branch of `runApiMode`. -/
def apiAddOrder (st : AppState) (id qty prio : Int) : AppState × Reply :=
  match getItem st.inv id with
  | some item =>
    if hasStock st.inv id qty then
      let newOrder : Order :=
        { id := st.orderCounter, priority := prio, itemName := item.name, quantity := qty,
          itemLocationNode := item.locationNode }
      let hist1 := logAction st.hist ⟨ActionType.ADD_ORDER, newOrder.id, id, qty, prio⟩
      let added := addOrder st.om hist1 newOrder
      let inv1 := (updateStock st.inv id (wrapInt (-qty))).2
      ({ st with inv := inv1, om := added.1, hist := added.2,
                 orderCounter := wrapInt (st.orderCounter + 1) },
       ⟨"success", "Order placed"⟩)
    else (st, ⟨"error", "Invalid item or stock"⟩)
  | none => (st, ⟨"error", "Invalid item or stock"⟩)

/-- The `PROCESS` branch of `runApiMode`; `none` when the route search runs out
of fuel. -/
def apiProcess (st : AppState) (fuel : Nat) : Option (AppState × Reply) :=
  match (getPendingOrders st.om).1 with
  | [] => some (st, ⟨"error", "No orders to process"⟩)
  | top :: _ =>
    let hist1 := logAction st.hist ⟨ActionType.PROCESS_ORDER, top.id, 0, 0, 0⟩
    match processNextOrder st.om st.graph fuel with
    | none => none
    | some om1 => some ({ st with om := om1, hist := hist1 }, ⟨"success", "Processed"⟩)

/-- The `DISPATCH` branch of `runApiMode`. -/
def apiDispatch (st : AppState) : AppState × Reply :=
  ({ st with om := dispatchNextOrder st.om }, ⟨"success", "Dispatched"⟩)

/-- The `UNDO` branch of `runApiMode`. -/
def apiUndo (st : AppState) : AppState × Reply := performUndo st

/-! ## Specification vocabulary for the route resolver -/

/-- The edge list `adj[u]` of a node, empty for a node that is no key of `adj`. -/
def edgesOf (g : WarehouseGraph) (u : Int) : List (Int × Int) := (mapFind g.adj u).getD []

/-- `IsPath g s x p c`: the node sequence `p` leads from `s` to `x`, every two
consecutive nodes of it are joined by an edge of `g`, and the weights of these
edges add up to `c`. -/
inductive IsPath (g : WarehouseGraph) (s : Int) : Int → List Int → Int → Prop
  | nil : IsPath g s s [s] 0
  | snoc {v x w : Int} {p : List Int} {c : Int} :
      IsPath g s v p c → (x, w) ∈ edgesOf g v → IsPath g s x (p ++ [x]) (c + w)

/-- Every edge weight stored in the graph is non-negative. -/
def NonNegWeights (g : WarehouseGraph) : Prop :=
  ∀ u e, e ∈ edgesOf g u → 0 ≤ e.2

/-- No sum the search can form reaches `INT_MAX`: a cheapest path from `s` to a
node, extended by one edge leaving that node, costs less than `INT_MAX`. -/
def NoOverflow (g : WarehouseGraph) (s : Int) : Prop :=
  ∀ u p c e, IsPath g s u p c → (∀ p1 c1, IsPath g s u p1 c1 → c ≤ c1) →
    e ∈ edgesOf g u → c + e.2 < INT_MAX

/-- The adjacency lists are symmetric: an edge is stored in both directions. -/
def SymmetricAdj (g : WarehouseGraph) : Prop :=
  ∀ u v w, (v, w) ∈ edgesOf g u → (u, w) ∈ edgesOf g v

/-- The graph obtained from the empty graph by a sequence of `addEdge` calls. -/
def buildGraph (es : List (Int × Int × Int)) : WarehouseGraph :=
  es.foldl (fun g e => addEdge g e.1 e.2.1 e.2.2) ⟨[]⟩

/-- The sum of the weights along a node sequence, taking between two consecutive
nodes the first stored edge that joins them; `none` when two consecutive nodes
are not joined, or the sequence is empty. -/
def pathCost (g : WarehouseGraph) : List Int → Option Int
  | [] => none
  | [_] => some 0
  | u :: v :: rest =>
    match (edgesOf g u).find? (fun e => e.1 == v), pathCost g (v :: rest) with
    | some e, some c => some (e.2 + c)
    | _, _ => none

/-- The node sequence `p` leads from `s` to `k` along edges of `g` at a cost of
at most `B`. -/
def pathOk (g : WarehouseGraph) (s k B : Int) (p : List Int) : Bool :=
  p.head? == some s && p.getLast? == some k &&
    (match pathCost g p with
     | some c => decide (c ≤ B)
     | none => false)

/-- Paths from node 0 to every node of the seeded warehouse. -/
def pathsFromDepot : List (List Int) :=
  [[0], [0, 1], [0, 2], [0, 1, 3], [0, 1, 4], [0, 2, 5], [0, 2, 6], [0, 1, 3, 7],
   [0, 2, 5, 8], [0, 2, 6, 9]]

/-- Paths from node 7 to every node of the seeded warehouse. -/
def pathsFromNode7 : List (List Int) :=
  [[7], [7, 3], [7, 4], [7, 3, 1], [7, 3, 1, 0], [7, 3, 1, 0, 2], [7, 3, 1, 0, 2, 5],
   [7, 3, 1, 0, 2, 6], [7, 3, 1, 0, 2, 5, 8], [7, 3, 1, 0, 2, 6, 9]]

/-- The distance the search holds for a node; a node without entry counts as
`INT_MAX`, the value the code gives it on first touch. -/
def dOf (m : List (Int × Int)) (v : Int) : Int := (mapFind m v).getD INT_MAX

/-- `Chain parent s v lst`: following `parent` from `v` reaches `s`, and `lst` is
the list of nodes visited before `s`. -/
inductive Chain (parent : List (Int × Int)) (s : Int) : Int → List Int → Prop
  | base : Chain parent s s []
  | step {v p : Int} {rest : List Int} :
      v ≠ s → mapFind parent v = some p → Chain parent s p rest →
      Chain parent s v (v :: rest)

/-- The invariant of the search: `S` lists the settled nodes and `R` the edges
that have been relaxed. -/
structure InvR (g : WarehouseGraph) (s : Int) (S : List Int)
    (R : Int → Int × Int → Prop) (st : DState) : Prop where
  d_start : dOf st.dist s = 0
  d_le : ∀ v, dOf st.dist v ≤ INT_MAX
  path : ∀ v, dOf st.dist v < INT_MAX →
    ∃ lst, Chain st.parent s v lst ∧ (∀ x ∈ lst, x = v ∨ x ∈ S) ∧
      IsPath g s v (lst ++ [s]).reverse (dOf st.dist v)
  rel_settled : ∀ x e, R x e → x ∈ S
  relaxed : ∀ x e, R x e → dOf st.dist e.1 ≤ dOf st.dist x + e.2
  queued : ∀ v, dOf st.dist v < INT_MAX → v ∉ S → (dOf st.dist v, v) ∈ st.pq
  settled_le : ∀ x ∈ S, ∀ e ∈ st.pq, dOf st.dist x ≤ e.1
  settled_stale : ∀ x ∈ S, ∀ e ∈ st.pq, e.2 = x → dOf st.dist x < e.1
  pq_ge : ∀ e ∈ st.pq,
    dOf st.dist e.2 ≤ e.1 ∧ e.1 < INT_MAX ∧ (mapFind st.dist e.2).isSome = true
  pq_nodup : st.pq.Nodup

/-- The edges the loop invariant asks to be relaxed: all edges of settled nodes. -/
def settledEdges (g : WarehouseGraph) (S : List Int) : Int → Int × Int → Prop :=
  fun x e => x ∈ S ∧ e ∈ edgesOf g x

/-- The edges still to be relaxed: the adjacency lists of the unsettled keys. -/
def pendingWork (g : WarehouseGraph) (S : List Int) : Nat :=
  (g.adj.map (fun node => if node.1 ∈ S then 0 else (edgesOf g node.1).length)).sum

/-- What the search guarantees about `dist[end]` and the parents of `end`. -/
def SearchPost (g : WarehouseGraph) (s e : Int) (st : DState) : Prop :=
  dOf st.dist e ≤ INT_MAX ∧
  (∀ p c, IsPath g s e p c → dOf st.dist e ≤ c ∧ dOf st.dist e < INT_MAX) ∧
  (dOf st.dist e < INT_MAX →
    ∃ lst, Chain st.parent s e lst ∧ IsPath g s e (lst ++ [s]).reverse (dOf st.dist e))

/-! ## Specification vocabulary for the order queues -/

/-- The priority stored at index `i` of the vector. -/
def prioAt (l : List Order) (i : Nat) : Int := (nth l i).priority

/-- The heap property among the first `len` places, asked of the nodes whose
parent index is at least `k`. -/
def HeapFrom (k len : Nat) (l : List Order) : Prop :=
  ∀ i, 0 < i → i < len → k ≤ (i - 1) / 2 → prioAt l i ≤ prioAt l ((i - 1) / 2)

/-- The binary max-heap property on priority: every element's priority is at
most the priority of its parent, at index `(i - 1) / 2`. -/
def IsMaxHeap (l : List Order) : Prop :=
  ∀ i, 0 < i → i < l.length → (nth l i).priority ≤ (nth l ((i - 1) / 2)).priority

/-- `Desc k h`: node `h` lies in the subtree rooted at node `k`. -/
inductive Desc (k : Nat) : Nat → Prop
  | refl : Desc k k
  | left {h : Nat} : Desc k h → Desc k (2 * h + 1)
  | right {h : Nat} : Desc k h → Desc k (2 * h + 2)

/-- The state of a sift with the hole at index `h`: the heap property holds
among the places other than the hole, and the children of the hole are at most
the parent of the hole. -/
structure HoleInv (k len h : Nat) (l : List Order) : Prop where
  desc : Desc k h
  lt_len : h < len
  others : ∀ i, 0 < i → i < len → k ≤ (i - 1) / 2 → i ≠ h → (i - 1) / 2 ≠ h →
    prioAt l i ≤ prioAt l ((i - 1) / 2)
  below : k < h → ∀ c, 0 < c → c < len → (c - 1) / 2 = h →
    prioAt l c ≤ prioAt l ((h - 1) / 2)

/-- How a sift relates the vector `l` with hole `h` to the vector `l2` with hole
`h2`: same length, nothing touched from index `len` on, the same elements up to
the content of the holes, and every element among the first `len` of `l2` is one
of the first `len` of `l`. -/
structure Moved (len : Nat) (l : List Order) (h : Nat) (l2 : List Order) (h2 : Nat) :
    Prop where
  len_eq : l2.length = l.length
  frame : ∀ j, len ≤ j → nth l2 j = nth l j
  perm : ∀ x, (l2.set h2 x).Perm (l.set h x)
  elems : ∀ Q : Order → Prop, (∀ j, j < len → Q (nth l j)) → ∀ j, j < len → Q (nth l2 j)

/-- An order of priority 3, for the concrete scenarios. -/
def orderPrio3 : Order := ⟨1, 3, "Laptop", 1, 7⟩

/-- An order of priority 9, for the concrete scenarios. -/
def orderPrio9 : Order := ⟨2, 9, "Mouse", 1, 3⟩

/-- An order of priority 5, for the concrete scenarios. -/
def orderPrio5 : Order := ⟨3, 5, "Monitor", 2, 8⟩

/-- The manager after admitting the priority-3 and then the priority-9 order. -/
def pendingPrio3Then9 : OrderManager :=
  (addOrder (addOrder ⟨[], []⟩ ⟨[]⟩ orderPrio3).1 ⟨[]⟩ orderPrio9).1

/-- The manager after admitting the priority-9 and then the priority-3 order. -/
def pendingPrio9Then3 : OrderManager :=
  (addOrder (addOrder ⟨[], []⟩ ⟨[]⟩ orderPrio9).1 ⟨[]⟩ orderPrio3).1

/-- The manager after admitting priorities 3, 9, 5 and removing order 2. -/
def pendingAfterRemoval : OrderManager :=
  (removeOrder (addOrder pendingPrio3Then9 ⟨[]⟩ orderPrio5).1 2).2

/-- The states an `OrderManager` reaches from the empty one through `addOrder`,
`removeOrder`, `processNextOrder` (both branches), `revertProcess` and
`dispatchNextOrder`. -/
inductive OmReachable (graph : WarehouseGraph) : OrderManager → Prop
  | init : OmReachable graph ⟨[], []⟩
  | add {om : OrderManager} (hist : ActionHistory) (order : Order) :
      OmReachable graph om → OmReachable graph (addOrder om hist order).1
  | remove {om : OrderManager} (orderId : Int) :
      OmReachable graph om → OmReachable graph (removeOrder om orderId).2
  | process {om om2 : OrderManager} (fuel : Nat) :
      OmReachable graph om → processNextOrder om graph fuel = some om2 →
      OmReachable graph om2
  | revert {om : OrderManager} :
      OmReachable graph om → OmReachable graph (revertProcess om).2
  | dispatch {om : OrderManager} :
      OmReachable graph om → OmReachable graph (dispatchNextOrder om)

/-! ## Specification vocabulary for the search on an arbitrary graph -/

/-- The nodes the edges of the graph lead to. -/
def allTargets (g : WarehouseGraph) : List Int :=
  (g.adj.map (fun node => node.2.map Prod.fst)).flatten

/-- The room the distances of the nodes of `V` have left to decrease: the sum of
their heights above the least `int`. -/
def slack (m : List (Int × Int)) (V : List Int) : Int :=
  (V.map (fun v => dOf m v + 2147483648)).sum

/-- What the search keeps true on every graph: a node with a distance below
`INT_MAX` is joined to the start by a path, no distance exceeds `INT_MAX`, and
the queued nodes have an entry in `dist`. -/
structure ReachInv (g : WarehouseGraph) (s : Int) (st : DState) : Prop where
  reach : ∀ x, dOf st.dist x ≠ INT_MAX → ∃ p c, IsPath g s x p c
  le : ∀ x, dOf st.dist x ≤ INT_MAX
  queued : ∀ e ∈ st.pq, (mapFind st.dist e.2).isSome = true

/-! ## Specification vocabulary for the command layer -/

/-- The test `item && inv.hasStock(id, qty)` of the `ADD_ORDER` branch. -/
def admits (st : AppState) (id qty : Int) : Bool :=
  (getItem st.inv id).isSome && hasStock st.inv id qty

/-- The orders the manager holds: the pending queue followed by the dispatch queue. -/
def heldOrders (om : OrderManager) : List Order := om.orderHeap ++ om.dispatchQueue

/-- The ids of the orders of `l` are pairwise distinct and below the counter `c`. -/
def FreshIds (l : List Order) (c : Int) : Prop :=
  (l.map (fun o => o.id)).Nodup ∧ ∀ o ∈ l, o.id < c

/-- `ApiReach st ids`: the state `st` is reached by API commands (`ADD_ORDER`,
`PROCESS`, `DISPATCH`, `UNDO`) from a start state with empty queues, an empty
ledger and counter 1, whatever its inventory and graph; `ids` lists the ids of
the orders admitted on the way, the latest first. -/
inductive ApiReach : AppState → List Int → Prop
  | init (inv : InventoryManager) (graph : WarehouseGraph) :
      ApiReach ⟨inv, ⟨[], []⟩, graph, ⟨[]⟩, 1⟩ []
  | add {st : AppState} {ids : List Int} (id qty prio : Int) :
      ApiReach st ids →
      ApiReach (apiAddOrder st id qty prio).1
        (if admits st id qty = true then st.orderCounter :: ids else ids)
  | process {st st2 : AppState} {ids : List Int} {r : Reply} (fuel : Nat) :
      ApiReach st ids → apiProcess st fuel = some (st2, r) → ApiReach st2 ids
  | dispatch {st : AppState} {ids : List Int} :
      ApiReach st ids → ApiReach (apiDispatch st).1 ids
  | undo {st : AppState} {ids : List Int} :
      ApiReach st ids → ApiReach (apiUndo st).1 ids

/-- A warehouse with the single aisle 0 - 1: node 7 is joined to nothing. -/
def singleAisle : WarehouseGraph := addEdge ⟨[]⟩ 0 1 5

/-- The seeded inventory in the single-aisle warehouse, after `ADD_ORDER 101 10 5`:
one pending order, for the laptop stored at node 7. -/
def strandedState : AppState :=
  (apiAddOrder { initialState with graph := singleAisle } 101 10 5).1

/-- The seeded state after `ADD_ORDER 101 10 5`. -/
def oneOrderState : AppState := (apiAddOrder initialState 101 10 5).1

/-- The seeded state after `ADD_ORDER 101 10 5` and `ADD_ORDER 102 1 9`. -/
def twoOrdersState : AppState := (apiAddOrder oneOrderState 102 1 9).1

/-- The state `PROCESS` leaves after these two admissions. -/
def processedState : AppState :=
  match apiProcess twoOrdersState 50 with
  | some r => r.1
  | none => twoOrdersState

/-! ## Specification vocabulary for the ledger and the last claims -/

/-- `logAction` called with the records of `rs`, the first record first. -/
def logAll (h : ActionHistory) (rs : List ActionRecord) : ActionHistory :=
  rs.foldl logAction h

/-- `popLastAction` called `n` times: the records returned, the first call
first, and the ledger after the calls. -/
def popN : Nat → ActionHistory → List ActionRecord × ActionHistory
  | 0, h => ([], h)
  | n + 1, h =>
    ((popLastAction h).1 :: (popN n (popLastAction h).2).1, (popN n (popLastAction h).2).2)

/-- The seeded state after `ADD_ORDER 101 10 5` and `UNDO`: the order is gone
and the record of the `ADD_ORDER` branch is on top of the ledger. -/
def undoneState : AppState := (apiUndo oneOrderState).1

/-- The seeded state after `ADD_ORDER 101 10 5` and `ADD_ORDER 102 1 5`: two
pending orders of the same priority. -/
def tiedState : AppState := (apiAddOrder oneOrderState 102 1 5).1

/-! ## WarehouseGraph.h: `getShortestPath` with the member `adj` as state -/

/-- `adj[u]`, the `operator[]` of `unordered_map`: the edge list of `u` and the
map after the access, which holds an empty list for a key that was missing. -/
def adjAt (adj : List (Int × List (Int × Int))) (u : Int) :
    List (Int × Int) × List (Int × List (Int × Int)) :=
  match mapFind adj u with
  | some edges => (edges, adj)
  | none => ([], mapSet adj u [])

/-- The loop `while (!pq.empty())` of `getShortestPath` with the member `adj`
carried along: `adj.find(u)` reads the map, `adj[u]` goes through `operator[]`. -/
def dijkstraLoopAdj (endNode : Int) :
    Nat → List (Int × List (Int × Int)) → DState →
      Option (List (Int × List (Int × Int)) × DState)
  | 0, _, _ => none
  | fuel + 1, adj, st =>
    match pqTop st.pq with
    | none => some (adj, st)
    | some (d, u) =>
      let st1 := { st with pq := st.pq.erase (d, u) }
      if d > mapGet st1.dist u then dijkstraLoopAdj endNode fuel adj st1
      else if u = endNode then some (adj, st1)
      else if (mapFind adj u).isSome then
        dijkstraLoopAdj endNode fuel (adjAt adj u).2 ((adjAt adj u).1.foldl (relaxEdge u) st1)
      else dijkstraLoopAdj endNode fuel adj st1

/-- `WarehouseGraph::getShortestPath` as a member function: the pair it returns
and the graph object after the call. -/
def getShortestPathAdj (g : WarehouseGraph) (fuel : Nat) (start endNode : Int) :
    Option ((Int × List Int) × WarehouseGraph) :=
  match dijkstraLoopAdj endNode fuel g.adj ⟨initDist g start endNode, [], [(0, start)]⟩ with
  | none => none
  | some r =>
    if mapGet r.2.dist endNode = INT_MAX then some ((-1, []), ⟨r.1⟩)
    else
      match walkParents r.2.parent start fuel endNode [] with
      | none => none
      | some path => some ((mapGet r.2.dist endNode, (path ++ [start]).reverse), ⟨r.1⟩)

/-- A graph with two edges of weight -1: `addEdge(0, 2, 1)`, `addEdge(2, 3, -1)`,
`addEdge(3, 1, -1)`. -/
def negLoopGraph : WarehouseGraph :=
  addEdge (addEdge (addEdge ⟨[]⟩ 0 2 1) 2 3 (-1)) 3 1 (-1)

/-! ## Specification vocabulary for admissions of positive quantities -/

/-- Every stock quantity of the inventory is an `int` value. -/
def StockInRange (inv : InventoryManager) : Prop :=
  ∀ i item, getItem inv i = some item →
    -2147483648 ≤ item.quantity ∧ item.quantity ≤ 2147483647

/-- The states reached by API commands in which every `ADD_ORDER` asks for a
quantity of at least 1, from a start state with empty queues, an empty ledger,
counter 1 and `int` stock quantities, whatever its graph. -/
inductive ApiReachPos : AppState → Prop
  | init (inv : InventoryManager) (graph : WarehouseGraph) :
      StockInRange inv → ApiReachPos ⟨inv, ⟨[], []⟩, graph, ⟨[]⟩, 1⟩
  | add {st : AppState} (id qty prio : Int) :
      1 ≤ qty → ApiReachPos st → ApiReachPos (apiAddOrder st id qty prio).1
  | process {st st2 : AppState} {r : Reply} (fuel : Nat) :
      ApiReachPos st → apiProcess st fuel = some (st2, r) → ApiReachPos st2
  | dispatch {st : AppState} :
      ApiReachPos st → ApiReachPos (apiDispatch st).1
  | undo {st : AppState} :
      ApiReachPos st → ApiReachPos (apiUndo st).1

/-- The seeded state with the counter at `c`: empty queues and ledger. -/
def counterState (c : Int) : AppState := { initialState with orderCounter := c }

/-! ## Facts about maps and the priority queue -/

theorem wrapInt_eq (x : Int) (h0 : -2147483648 ≤ x) (h1 : x < 2147483648) : wrapInt x = x := by
  unfold wrapInt
  omega

theorem mapFind_mapSet {α : Type} (m : List (Int × α)) (k : Int) (v : α) (k2 : Int) :
    mapFind (mapSet m k v) k2 = if k = k2 then some v else mapFind m k2 := by
  induction m with
  | nil => simp [mapSet, mapFind]
  | cons hd tl ih =>
    obtain ⟨a, b⟩ := hd
    by_cases hak : a = k
    · subst hak
      by_cases h2 : a = k2 <;> simp [mapSet, mapFind, h2]
    · by_cases h2 : a = k2
      · subst h2
        have : ¬ k = a := fun h => hak h.symm
        simp [mapSet, mapFind, hak, this]
      · simp [mapSet, mapFind, hak, h2, ih]

theorem dOf_mapSet (m : List (Int × Int)) (k v k2 : Int) :
    dOf (mapSet m k v) k2 = if k = k2 then v else dOf m k2 := by
  unfold dOf
  rw [mapFind_mapSet]
  split <;> rfl

theorem dOf_distTouch (m : List (Int × Int)) (v x : Int) : dOf (distTouch m v) x = dOf m x := by
  unfold distTouch
  split
  · rename_i h
    rw [dOf_mapSet]
    split
    · rename_i hvx
      subst hvx
      unfold dOf
      cases hf : mapFind m v with
      | none => rfl
      | some y => simp [hf] at h
    · rfl
  · rfl

theorem present_distTouch_self (m : List (Int × Int)) (v : Int) :
    (mapFind (distTouch m v) v).isSome = true := by
  unfold distTouch
  split
  · rw [mapFind_mapSet]; simp
  · rename_i h
    cases hf : mapFind m v with
    | none => simp [hf] at h
    | some y => rfl

theorem present_distTouch (m : List (Int × Int)) (v x : Int)
    (h : (mapFind m x).isSome = true) : (mapFind (distTouch m v) x).isSome = true := by
  unfold distTouch
  split
  · rw [mapFind_mapSet]
    split <;> simp [h]
  · exact h

theorem present_mapSet (m : List (Int × Int)) (k v x : Int)
    (h : (mapFind m x).isSome = true) : (mapFind (mapSet m k v) x).isSome = true := by
  rw [mapFind_mapSet]
  split <;> simp [h]

theorem mapGet_eq_dOf (m : List (Int × Int)) (k : Int) (h : (mapFind m k).isSome = true) :
    mapGet m k = dOf m k := by
  unfold mapGet dOf
  cases hf : mapFind m k with
  | none => simp [hf] at h
  | some y => rfl

theorem pqTop_none (l : List (Int × Int)) (h : pqTop l = none) : l = [] := by
  cases l with
  | nil => rfl
  | cons x xs =>
    simp only [pqTop] at h
    split at h
    · cases h
    · split at h <;> cases h

theorem pqTop_spec (l : List (Int × Int)) (m : Int × Int) (h : pqTop l = some m) :
    m ∈ l ∧ ∀ e ∈ l, m.1 ≤ e.1 := by
  induction l generalizing m with
  | nil => simp [pqTop] at h
  | cons x xs ih =>
    simp only [pqTop] at h
    cases hx : pqTop xs with
    | none =>
      rw [hx] at h
      have hnil := pqTop_none xs hx
      subst hnil
      simp only [Option.some.injEq] at h
      subst h
      simp
    | some m2 =>
      rw [hx] at h
      obtain ⟨hm2, hmin⟩ := ih m2 hx
      by_cases hlt : pairLt m2 x = true
      · simp only [if_pos hlt, Option.some.injEq] at h
        subst h
        refine ⟨List.mem_cons_of_mem _ hm2, ?_⟩
        intro e he
        rcases List.mem_cons.mp he with rfl | he
        · unfold pairLt at hlt
          simp only [Bool.or_eq_true, Bool.and_eq_true, decide_eq_true_eq] at hlt
          omega
        · exact hmin e he
      · simp only [if_neg hlt, Option.some.injEq] at h
        subst h
        refine ⟨List.mem_cons_self _ _, ?_⟩
        intro e he
        rcases List.mem_cons.mp he with rfl | he
        · exact le_refl _
        · have := hmin e he
          unfold pairLt at hlt
          simp only [Bool.or_eq_true, Bool.and_eq_true, decide_eq_true_eq, not_or, not_and,
            not_lt] at hlt
          omega

/-! ## One relaxation step -/

theorem relaxEdge_cases (u : Int) (st : DState) (e : Int × Int)
    (hpres : (mapFind st.dist u).isSome = true)
    (h0 : 0 ≤ dOf st.dist u) (hw : 0 ≤ e.2) (hov : dOf st.dist u + e.2 < INT_MAX) :
    ((dOf st.dist u + e.2 < dOf st.dist e.1 ∧
        (relaxEdge u st e).parent = mapSet st.parent e.1 u ∧
        (relaxEdge u st e).pq = (dOf st.dist u + e.2, e.1) :: st.pq ∧
        (∀ x, dOf (relaxEdge u st e).dist x
          = if e.1 = x then dOf st.dist u + e.2 else dOf st.dist x)) ∨
      (¬ dOf st.dist u + e.2 < dOf st.dist e.1 ∧
        (relaxEdge u st e).parent = st.parent ∧
        (relaxEdge u st e).pq = st.pq ∧
        (∀ x, dOf (relaxEdge u st e).dist x = dOf st.dist x))) ∧
    (∀ x, (mapFind st.dist x).isSome = true →
      (mapFind (relaxEdge u st e).dist x).isSome = true) ∧
    (mapFind (relaxEdge u st e).dist e.1).isSome = true := by
  have hu1 : mapGet (distTouch st.dist e.1) u = dOf st.dist u := by
    rw [mapGet_eq_dOf _ _ (present_distTouch _ _ _ hpres), dOf_distTouch]
  have hv1 : mapGet (distTouch st.dist e.1) e.1 = dOf st.dist e.1 := by
    rw [mapGet_eq_dOf _ _ (present_distTouch_self _ _), dOf_distTouch]
  have hwrap : wrapInt (dOf st.dist u + e.2) = dOf st.dist u + e.2 := by
    apply wrapInt_eq
    · omega
    · unfold INT_MAX at hov; omega
  have hne : dOf st.dist u ≠ INT_MAX := by omega
  by_cases hfire : dOf st.dist u + e.2 < dOf st.dist e.1
  · have hdef : relaxEdge u st e =
        { dist := mapSet (distTouch st.dist e.1) e.1 (dOf st.dist u + e.2)
          parent := mapSet st.parent e.1 u
          pq := (dOf st.dist u + e.2, e.1) :: st.pq } := by
      unfold relaxEdge
      simp only [hu1, hv1, hwrap]
      rw [if_pos ⟨hne, hfire⟩]
    rw [hdef]
    refine ⟨Or.inl ⟨hfire, rfl, rfl, ?_⟩, ?_, ?_⟩
    · intro x
      simp only [dOf_mapSet, dOf_distTouch]
    · intro x hx
      exact present_mapSet _ _ _ _ (present_distTouch _ _ _ hx)
    · exact present_mapSet _ _ _ _ (present_distTouch_self _ _)
  · have hdef : relaxEdge u st e = { st with dist := distTouch st.dist e.1 } := by
      unfold relaxEdge
      simp only [hu1, hv1, hwrap]
      rw [if_neg (fun h => hfire h.2)]
    rw [hdef]
    refine ⟨Or.inr ⟨hfire, rfl, rfl, ?_⟩, ?_, ?_⟩
    · intro x
      simp only [dOf_distTouch]
    · intro x hx
      exact present_distTouch _ _ _ hx
    · exact present_distTouch_self _ _

theorem chain_frame (parent parent2 : List (Int × Int)) (s v : Int) (lst : List Int)
    (h : Chain parent s v lst) (hag : ∀ x ∈ lst, mapFind parent2 x = mapFind parent x) :
    Chain parent2 s v lst := by
  induction h with
  | base => exact Chain.base
  | step hne hp _ ih =>
    refine Chain.step hne ?_ (ih ?_)
    · rw [hag _ (List.mem_cons_self _ _)]; exact hp
    · intro x hx
      exact hag x (List.mem_cons_of_mem _ hx)

theorem isPath_nonneg (g : WarehouseGraph) (hg : NonNegWeights g) (s x : Int) (p : List Int)
    (c : Int) (h : IsPath g s x p c) : 0 ≤ c := by
  induction h with
  | nil => exact le_refl _
  | snoc _ he ih =>
    have := hg _ _ he
    simp only at this
    omega

theorem relaxEdge_inv (g : WarehouseGraph) (s : Int) (S : List Int)
    (R : Int → Int × Int → Prop) (st : DState) (u : Int) (e : Int × Int)
    (hg : NonNegWeights g) (h : InvR g s S R st) (hu : u ∈ S)
    (hpres : (mapFind st.dist u).isSome = true)
    (hmax : ∀ x ∈ S, dOf st.dist x ≤ dOf st.dist u)
    (he : e ∈ edgesOf g u) (hov : dOf st.dist u + e.2 < INT_MAX) :
    InvR g s S (fun x e2 => R x e2 ∨ (x = u ∧ e2 = e)) (relaxEdge u st e) ∧
    (∀ x ∈ S, dOf (relaxEdge u st e).dist x = dOf st.dist x) ∧
    (mapFind (relaxEdge u st e).dist u).isSome = true ∧
    (relaxEdge u st e).pq.length ≤ st.pq.length + 1 := by
  have hw : 0 ≤ e.2 := hg u e he
  have hfin : dOf st.dist u < INT_MAX := by omega
  obtain ⟨lu, hchu, hnodes, hpathu⟩ := h.path u hfin
  have h0 : 0 ≤ dOf st.dist u := isPath_nonneg g hg _ _ _ _ hpathu
  obtain ⟨hcase, hpr, hprv⟩ := relaxEdge_cases u st e hpres h0 hw hov
  rcases hcase with ⟨hfire, hpar, hpq, hD⟩ | ⟨hfire, hpar, hpq, hD⟩
  · -- the edge improves `dist[v]`
    have hvS : e.1 ∉ S := fun hv => by
      have := hmax _ hv
      omega
    have hvs : e.1 ≠ s := fun hv => by
      have := h.d_start
      rw [← hv] at this
      omega
    have hDS : ∀ x ∈ S, dOf (relaxEdge u st e).dist x = dOf st.dist x := by
      intro x hx
      rw [hD, if_neg]
      rintro rfl
      exact hvS hx
    have hle : ∀ x, dOf (relaxEdge u st e).dist x ≤ dOf st.dist x := by
      intro x
      rw [hD]
      split
      · rename_i hx
        subst hx
        omega
      · exact le_refl _
    refine ⟨?_, hDS, hpr u hpres, by rw [hpq]; simp⟩
    refine
      { d_start := ?_, d_le := ?_, path := ?_, rel_settled := ?_, relaxed := ?_,
        queued := ?_, settled_le := ?_, settled_stale := ?_, pq_ge := ?_, pq_nodup := ?_ }
    · rw [hD, if_neg hvs]
      exact h.d_start
    · intro x
      have := h.d_le x
      have := hle x
      omega
    · intro x hx
      by_cases hvx : e.1 = x
      · subst hvx
        refine ⟨e.1 :: lu, ?_, ?_, ?_⟩
        · refine Chain.step hvs ?_ (chain_frame _ _ _ _ _ hchu ?_)
          · rw [hpar, mapFind_mapSet, if_pos rfl]
          · intro y hy
            rw [hpar, mapFind_mapSet, if_neg]
            rintro rfl
            rcases hnodes _ hy with h1 | h1
            · exact hvS (h1 ▸ hu)
            · exact hvS h1
        · intro y hy
          rcases List.mem_cons.mp hy with h1 | h1
          · exact Or.inl h1
          · rcases hnodes _ h1 with h2 | h2
            · exact Or.inr (h2 ▸ hu)
            · exact Or.inr h2
        · rw [hD, if_pos rfl]
          have := IsPath.snoc hpathu (show (e.1, e.2) ∈ edgesOf g u from he)
          simpa using this
      · obtain ⟨lx, hchx, hnx, hpx⟩ := h.path x (by rw [hD, if_neg hvx] at hx; exact hx)
        refine ⟨lx, chain_frame _ _ _ _ _ hchx ?_, hnx, ?_⟩
        · intro y hy
          rw [hpar, mapFind_mapSet, if_neg]
          rintro rfl
          rcases hnx _ hy with h1 | h1
          · exact hvx h1
          · exact hvS h1
        · rw [hD, if_neg hvx]
          exact hpx
    · intro x e2 hr
      rcases hr with hr | ⟨rfl, _⟩
      · exact h.rel_settled x e2 hr
      · exact hu
    · intro x e2 hr
      rcases hr with hr | ⟨rfl, rfl⟩
      · have := h.relaxed x e2 hr
        have := hle e2.1
        rw [hDS x (h.rel_settled x e2 hr)]
        omega
      · rw [hDS x hu, hD, if_pos rfl]
    · intro x hx hxS
      rw [hpq]
      by_cases hvx : e.1 = x
      · subst hvx
        rw [hD, if_pos rfl]
        exact List.mem_cons_self _ _
      · rw [hD, if_neg hvx] at hx ⊢
        exact List.mem_cons_of_mem _ (h.queued x hx hxS)
    · intro x hx e2 he2
      rw [hpq] at he2
      rw [hDS x hx]
      rcases List.mem_cons.mp he2 with rfl | he2
      · have := hmax x hx
        simp only
        omega
      · exact h.settled_le x hx e2 he2
    · intro x hx e2 he2 h2
      rw [hpq] at he2
      rw [hDS x hx]
      rcases List.mem_cons.mp he2 with rfl | he2
      · simp only at h2
        exact absurd (h2 ▸ hx) hvS
      · exact h.settled_stale x hx e2 he2 h2
    · intro e2 he2
      rw [hpq] at he2
      rcases List.mem_cons.mp he2 with rfl | he2
      · refine ⟨?_, hov, hprv⟩
        rw [hD, if_pos rfl]
      · obtain ⟨h1, h2, h3⟩ := h.pq_ge e2 he2
        refine ⟨?_, h2, hpr _ h3⟩
        have := hle e2.2
        omega
    · rw [hpq]
      refine List.nodup_cons.mpr ⟨?_, h.pq_nodup⟩
      intro hin
      have := (h.pq_ge _ hin).1
      simp only at this
      omega
  · -- the edge does not improve `dist[v]`
    refine ⟨?_, fun x _ => hD x, hpr u hpres, by rw [hpq]; omega⟩
    refine
      { d_start := ?_, d_le := ?_, path := ?_, rel_settled := ?_, relaxed := ?_,
        queued := ?_, settled_le := ?_, settled_stale := ?_, pq_ge := ?_, pq_nodup := ?_ }
    · rw [hD]; exact h.d_start
    · intro x; rw [hD]; exact h.d_le x
    · intro x hx
      rw [hD] at hx ⊢
      rw [hpar]
      exact h.path x hx
    · intro x e2 hr
      rcases hr with hr | ⟨rfl, _⟩
      · exact h.rel_settled x e2 hr
      · exact hu
    · intro x e2 hr
      rw [hD, hD]
      rcases hr with hr | ⟨rfl, rfl⟩
      · exact h.relaxed x e2 hr
      · omega
    · intro x hx hxS
      rw [hD] at hx ⊢
      rw [hpq]
      exact h.queued x hx hxS
    · intro x hx e2 he2
      rw [hpq] at he2
      rw [hD]
      exact h.settled_le x hx e2 he2
    · intro x hx e2 he2 h2
      rw [hpq] at he2
      rw [hD]
      exact h.settled_stale x hx e2 he2 h2
    · intro e2 he2
      rw [hpq] at he2
      obtain ⟨h1, h2, h3⟩ := h.pq_ge e2 he2
      rw [hD]
      exact ⟨h1, h2, hpr _ h3⟩
    · rw [hpq]
      exact h.pq_nodup

theorem InvR.mono {g : WarehouseGraph} {s : Int} {S : List Int}
    {R R2 : Int → Int × Int → Prop} {st : DState}
    (h : InvR g s S R st) (hR : ∀ x e, R2 x e → R x e) : InvR g s S R2 st :=
  { d_start := h.d_start, d_le := h.d_le, path := h.path,
    rel_settled := fun x e hr => h.rel_settled x e (hR x e hr),
    relaxed := fun x e hr => h.relaxed x e (hR x e hr),
    queued := h.queued, settled_le := h.settled_le, settled_stale := h.settled_stale,
    pq_ge := h.pq_ge, pq_nodup := h.pq_nodup }

theorem relaxFold_inv (g : WarehouseGraph) (s : Int) (S : List Int) (u : Int)
    (hg : NonNegWeights g) (hu : u ∈ S) :
    ∀ (rest : List (Int × Int)) (R : Int → Int × Int → Prop) (st : DState),
      (∀ e ∈ rest, e ∈ edgesOf g u) → InvR g s S R st →
      (mapFind st.dist u).isSome = true →
      (∀ x ∈ S, dOf st.dist x ≤ dOf st.dist u) →
      (∀ e ∈ rest, dOf st.dist u + e.2 < INT_MAX) →
      InvR g s S (fun x e2 => R x e2 ∨ (x = u ∧ e2 ∈ rest)) (rest.foldl (relaxEdge u) st) ∧
      (rest.foldl (relaxEdge u) st).pq.length ≤ st.pq.length + rest.length := by
  intro rest
  induction rest with
  | nil =>
    intro R st _ h _ _ _
    refine ⟨h.mono ?_, by simp⟩
    intro x e hr
    rcases hr with hr | ⟨_, hr⟩
    · exact hr
    · simp at hr
  | cons e rest ih =>
    intro R st hsub h hpres hmax hov
    obtain ⟨h1, hD, hp1, hlen⟩ :=
      relaxEdge_inv g s S R st u e hg h hu hpres hmax (hsub e (List.mem_cons_self _ _))
        (hov e (List.mem_cons_self _ _))
    have hDu := hD u hu
    obtain ⟨h2, hlen2⟩ := ih _ (relaxEdge u st e)
      (fun e2 he2 => hsub e2 (List.mem_cons_of_mem _ he2)) h1 hp1
      (fun x hx => by rw [hD x hx, hDu]; exact hmax x hx)
      (fun e2 he2 => by rw [hDu]; exact hov e2 (List.mem_cons_of_mem _ he2))
    refine ⟨h2.mono ?_, ?_⟩
    · intro x e2 hr
      rcases hr with hr | ⟨hx, hr⟩
      · exact Or.inl (Or.inl hr)
      · rcases List.mem_cons.mp hr with h3 | h3
        · exact Or.inl (Or.inr ⟨hx, h3⟩)
        · exact Or.inr ⟨hx, h3⟩
    · simp only [List.foldl_cons, List.length_cons]
      omega

theorem inv_pop_stale (g : WarehouseGraph) (s : Int) (S : List Int)
    (R : Int → Int × Int → Prop) (st : DState) (d u : Int)
    (h : InvR g s S R st) (hst : dOf st.dist u < d) :
    InvR g s S R { st with pq := st.pq.erase (d, u) } :=
  { d_start := h.d_start, d_le := h.d_le, path := h.path, rel_settled := h.rel_settled,
    relaxed := h.relaxed,
    queued := fun v hv hvS => by
      refine (List.mem_erase_of_ne ?_).mpr (h.queued v hv hvS)
      intro heq
      simp only [Prod.mk.injEq] at heq
      obtain ⟨h1, h2⟩ := heq
      subst h2
      omega
    settled_le := fun x hx e he => h.settled_le x hx e (List.mem_of_mem_erase he),
    settled_stale := fun x hx e he => h.settled_stale x hx e (List.mem_of_mem_erase he),
    pq_ge := fun e he => h.pq_ge e (List.mem_of_mem_erase he),
    pq_nodup := h.pq_nodup.erase _ }

theorem inv_pop_settle (g : WarehouseGraph) (s : Int) (S : List Int)
    (R : Int → Int × Int → Prop) (st : DState) (d u : Int)
    (h : InvR g s S R st) (hmem : (d, u) ∈ st.pq) (hmin : ∀ e ∈ st.pq, d ≤ e.1)
    (hd : dOf st.dist u = d) :
    u ∉ S ∧ InvR g s (u :: S) R { st with pq := st.pq.erase (d, u) } ∧
    (∀ x ∈ u :: S, dOf st.dist x ≤ dOf st.dist u) := by
  have huS : u ∉ S := fun hu => by
    have := h.settled_stale u hu (d, u) hmem rfl
    simp only at this
    omega
  have hmax : ∀ x ∈ u :: S, dOf st.dist x ≤ dOf st.dist u := by
    intro x hx
    rcases List.mem_cons.mp hx with rfl | hx
    · exact le_refl _
    · have := h.settled_le x hx (d, u) hmem
      simp only at this
      omega
  refine ⟨huS, ?_, hmax⟩
  refine
    { d_start := h.d_start, d_le := h.d_le, path := ?_, rel_settled := ?_,
      relaxed := h.relaxed, queued := ?_, settled_le := ?_, settled_stale := ?_,
      pq_ge := fun e he => h.pq_ge e (List.mem_of_mem_erase he),
      pq_nodup := h.pq_nodup.erase _ }
  · intro v hv
    obtain ⟨lst, h1, h2, h3⟩ := h.path v hv
    refine ⟨lst, h1, ?_, h3⟩
    intro x hx
    rcases h2 x hx with h4 | h4
    · exact Or.inl h4
    · exact Or.inr (List.mem_cons_of_mem _ h4)
  · intro x e hr
    exact List.mem_cons_of_mem _ (h.rel_settled x e hr)
  · intro v hv hvS
    have hvu : v ≠ u := fun hvu => hvS (hvu ▸ List.mem_cons_self _ _)
    have hvS2 : v ∉ S := fun hv2 => hvS (List.mem_cons_of_mem _ hv2)
    refine (List.mem_erase_of_ne ?_).mpr (h.queued v hv hvS2)
    intro heq
    simp only [Prod.mk.injEq] at heq
    exact hvu heq.2
  · intro x hx e he
    have he2 := List.mem_of_mem_erase he
    rcases List.mem_cons.mp hx with rfl | hx
    · have := hmin e he2
      simp only
      omega
    · exact h.settled_le x hx e he2
  · intro x hx e he hex
    have he2 := List.mem_of_mem_erase he
    rcases List.mem_cons.mp hx with rfl | hx
    · have hge := (h.pq_ge e he2).1
      rw [hex] at hge
      have hne : e ≠ (d, x) := fun heq => by
        rw [heq] at he
        exact (h.pq_nodup.mem_erase_iff.mp he).1 rfl
      have : e.1 ≠ d := fun h1 => hne (Prod.ext h1 hex)
      simp only
      omega
    · exact h.settled_stale x hx e he2 hex

theorem mapFind_some_mem {α : Type} (m : List (Int × α)) (k : Int) (v : α)
    (h : mapFind m k = some v) : ∃ node ∈ m, node.1 = k := by
  induction m with
  | nil => simp [mapFind] at h
  | cons hd tl ih =>
    obtain ⟨a, b⟩ := hd
    by_cases hak : a = k
    · exact ⟨(a, b), List.mem_cons_self _ _, hak⟩
    · simp only [mapFind, if_neg hak] at h
      obtain ⟨node, hn, hk⟩ := ih h
      exact ⟨node, List.mem_cons_of_mem _ hn, hk⟩

theorem work_settle {α : Type} (len : Int → Nat) (u : Int) (S : List Int) (l : List (Int × α)) :
    (l.map (fun node => if node.1 ∈ u :: S then 0 else len node.1)).sum
      ≤ (l.map (fun node => if node.1 ∈ S then 0 else len node.1)).sum ∧
    (u ∉ S → (∃ node ∈ l, node.1 = u) →
      (l.map (fun node => if node.1 ∈ u :: S then 0 else len node.1)).sum + len u
        ≤ (l.map (fun node => if node.1 ∈ S then 0 else len node.1)).sum) := by
  induction l with
  | nil => simp
  | cons hd tl ih =>
    obtain ⟨ih1, ih2⟩ := ih
    have hstep : (if hd.1 ∈ u :: S then 0 else len hd.1)
        ≤ (if hd.1 ∈ S then 0 else len hd.1) := by
      by_cases h1 : hd.1 ∈ S
      · simp [h1]
      · by_cases h2 : hd.1 = u
        · simp [h2]
        · simp [h1, h2]
    refine ⟨?_, ?_⟩
    · simp only [List.map_cons, List.sum_cons]
      omega
    · intro huS hex
      simp only [List.map_cons, List.sum_cons]
      by_cases h2 : hd.1 = u
      · have e1 : (if hd.1 ∈ u :: S then 0 else len hd.1) = 0 := by simp [h2]
        have e2 : (if hd.1 ∈ S then 0 else len hd.1) = len u := by
          rw [h2]; simp [huS]
        omega
      · have hex2 : ∃ node ∈ tl, node.1 = u := by
          obtain ⟨node, hn, hk⟩ := hex
          rcases List.mem_cons.mp hn with rfl | hn
          · exact absurd hk h2
          · exact ⟨node, hn, hk⟩
        have := ih2 huS hex2
        omega

/-! ## The search loop -/

theorem frontier (g : WarehouseGraph) (s : Int) (S : List Int) (st : DState)
    (hg : NonNegWeights g) (h : InvR g s S (settledEdges g S) st) :
    ∀ x p c, IsPath g s x p c →
      dOf st.dist x ≤ c ∨ ∃ y, y ∉ S ∧ dOf st.dist y ≤ c := by
  intro x p c hp
  induction hp with
  | nil => exact Or.inl (le_of_eq h.d_start)
  | @snoc v x w p c _ he ih =>
    have hw : 0 ≤ w := hg v (x, w) he
    rcases ih with ih | ⟨y, hy, hyc⟩
    · by_cases hv : v ∈ S
      · have := h.relaxed v (x, w) ⟨hv, he⟩
        simp only at this
        exact Or.inl (by omega)
      · exact Or.inr ⟨v, hv, by omega⟩
    · exact Or.inr ⟨y, hy, by omega⟩

theorem pop_optimal (g : WarehouseGraph) (s : Int) (S : List Int) (st : DState) (u : Int)
    (hg : NonNegWeights g) (h : InvR g s S (settledEdges g S) st)
    (hmin : ∀ e ∈ st.pq, dOf st.dist u ≤ e.1) (hfin : dOf st.dist u < INT_MAX) :
    ∀ p c, IsPath g s u p c → dOf st.dist u ≤ c := by
  intro p c hp
  rcases frontier g s S st hg h u p c hp with h1 | ⟨y, hy, hyc⟩
  · exact h1
  · by_cases hyf : dOf st.dist y < INT_MAX
    · have := hmin _ (h.queued y hyf hy)
      simp only at this
      omega
    · omega

theorem empty_final (g : WarehouseGraph) (s : Int) (S : List Int) (st : DState)
    (hg : NonNegWeights g) (hno : NoOverflow g s)
    (h : InvR g s S (settledEdges g S) st) (hpq : st.pq = []) :
    ∀ x p c, IsPath g s x p c → dOf st.dist x ≤ c ∧ dOf st.dist x < INT_MAX := by
  have hopt : ∀ x p c, IsPath g s x p c → dOf st.dist x ≤ c := by
    intro x p c hp
    rcases frontier g s S st hg h x p c hp with h1 | ⟨y, hy, hyc⟩
    · exact h1
    · have hyf : ¬ dOf st.dist y < INT_MAX := fun hyf => by
        have := h.queued y hyf hy
        rw [hpq] at this
        simp at this
      have := h.d_le x
      omega
  intro x p c hp
  refine ⟨hopt x p c hp, ?_⟩
  induction hp with
  | nil => rw [h.d_start]; unfold INT_MAX; omega
  | @snoc v x w p c hpv he ih =>
    have hvS : v ∈ S := by
      by_contra hv
      have := h.queued v ih hv
      rw [hpq] at this
      simp at this
    obtain ⟨lv, _, _, hpath⟩ := h.path v ih
    have h1 := hno v _ _ (x, w) hpath (fun p1 c1 hp1 => hopt v p1 c1 hp1) he
    have h2 := h.relaxed v (x, w) ⟨hvS, he⟩
    simp only at h1 h2
    omega

theorem dijkstraLoop_spec (g : WarehouseGraph) (s e : Int)
    (hg : NonNegWeights g) (hno : NoOverflow g s) :
    ∀ (fuel : Nat) (S : List Int) (st : DState),
      InvR g s S (settledEdges g S) st → st.pq.length + pendingWork g S < fuel →
      ∃ st2, dijkstraLoop g e fuel st = some st2 ∧ SearchPost g s e st2 := by
  intro fuel
  induction fuel with
  | zero => intro S st _ hf; omega
  | succ fuel ih =>
    intro S st h hf
    cases hpq : pqTop st.pq with
    | none =>
      have hnil := pqTop_none _ hpq
      refine ⟨st, by simp [dijkstraLoop, hpq], h.d_le e, ?_, ?_⟩
      · exact empty_final g s S st hg hno h hnil e
      · intro hfin
        obtain ⟨lst, h1, _, h3⟩ := h.path e hfin
        exact ⟨lst, h1, h3⟩
    | some top =>
      obtain ⟨d, u⟩ := top
      obtain ⟨hmem, hmin⟩ := pqTop_spec _ _ hpq
      simp only at hmin
      obtain ⟨hge, hdfin, hpres⟩ := h.pq_ge _ hmem
      simp only at hge hdfin hpres
      have hlen : (st.pq.erase (d, u)).length = st.pq.length - 1 :=
        List.length_erase_of_mem hmem
      have hpos : 0 < st.pq.length := List.length_pos_of_mem hmem
      have hget : mapGet st.dist u = dOf st.dist u := mapGet_eq_dOf _ _ hpres
      by_cases hstale : d > dOf st.dist u
      · -- stale entry
        obtain ⟨st2, hrun, hpost⟩ := ih S _ (inv_pop_stale g s S _ st d u h hstale)
          (by simp only [hlen]; omega)
        refine ⟨st2, ?_, hpost⟩
        simp only [dijkstraLoop, hpq, hget, if_pos hstale]
        exact hrun
      · have hd : dOf st.dist u = d := by omega
        have hmin2 : ∀ e2 ∈ st.pq, dOf st.dist u ≤ e2.1 := by
          intro e2 he2
          have := hmin e2 he2
          omega
        have hopt := pop_optimal g s S st u hg h hmin2 (by omega)
        by_cases hue : u = e
        · -- destination popped
          subst hue
          refine ⟨{ st with pq := st.pq.erase (d, u) }, ?_, h.d_le u, ?_, ?_⟩
          · simp only [dijkstraLoop, hpq, hget, if_neg hstale, if_true]
          · intro p c hp
            exact ⟨hopt p c hp, by show dOf st.dist u < INT_MAX; omega⟩
          · intro hfin
            obtain ⟨lst, h1, _, h3⟩ := h.path u hfin
            exact ⟨lst, h1, h3⟩
        · obtain ⟨huS, hinv1, hmax⟩ := inv_pop_settle g s S _ st d u h hmem hmin hd
          cases hadj : mapFind g.adj u with
          | none =>
            have hE : edgesOf g u = [] := by unfold edgesOf; rw [hadj]; rfl
            have hinv2 : InvR g s (u :: S) (settledEdges g (u :: S))
                { st with pq := st.pq.erase (d, u) } := by
              refine hinv1.mono ?_
              intro x e2 hr
              obtain ⟨hx, he2⟩ := hr
              rcases List.mem_cons.mp hx with rfl | hx
              · rw [hE] at he2; simp at he2
              · exact ⟨hx, he2⟩
            have hwork := (work_settle (fun k => (edgesOf g k).length) u S g.adj).1
            obtain ⟨st2, hrun, hpost⟩ := ih (u :: S) _ hinv2
              (by simp only [hlen]; unfold pendingWork at hf ⊢; omega)
            refine ⟨st2, ?_, hpost⟩
            simp only [dijkstraLoop, hpq, hget, if_neg hstale, if_neg hue, hadj]
            exact hrun
          | some edges =>
            have hE : edgesOf g u = edges := by unfold edgesOf; rw [hadj]; rfl
            obtain ⟨lu, _, _, hpathu⟩ := h.path u (by omega)
            obtain ⟨hinv2, hlen2⟩ := relaxFold_inv g s (u :: S) u hg
              (List.mem_cons_self _ _) edges (settledEdges g S)
              { st with pq := st.pq.erase (d, u) }
              (fun e2 he2 => by rw [hE]; exact he2) hinv1 hpres hmax
              (fun e2 he2 => hno u _ _ e2 hpathu hopt (by rw [hE]; exact he2))
            have hinv3 : InvR g s (u :: S) (settledEdges g (u :: S))
                (edges.foldl (relaxEdge u) { st with pq := st.pq.erase (d, u) }) := by
              refine hinv2.mono ?_
              intro x e2 hr
              obtain ⟨hx, he2⟩ := hr
              rcases List.mem_cons.mp hx with rfl | hx
              · rw [hE] at he2
                exact Or.inr ⟨rfl, he2⟩
              · exact Or.inl ⟨hx, he2⟩
            have hwork := (work_settle (fun k => (edgesOf g k).length) u S g.adj).2 huS
              (mapFind_some_mem _ _ _ hadj)
            rw [hE] at hwork
            obtain ⟨st2, hrun, hpost⟩ := ih (u :: S) _ hinv3
              (by
                simp only [hlen] at hlen2
                unfold pendingWork at hf ⊢
                omega)
            refine ⟨st2, ?_, hpost⟩
            simp only [dijkstraLoop, hpq, hget, if_neg hstale, if_neg hue, hadj]
            exact hrun

theorem dijkstraLoop_mono (g : WarehouseGraph) (e : Int) :
    ∀ (fuel : Nat) (st st2 : DState), dijkstraLoop g e fuel st = some st2 →
      ∀ k, dijkstraLoop g e (fuel + k) st = some st2 := by
  intro fuel
  induction fuel with
  | zero => intro st st2 h; simp [dijkstraLoop] at h
  | succ fuel ih =>
    intro st st2 h k
    have hk : fuel + 1 + k = (fuel + k) + 1 := by omega
    rw [hk]
    simp only [dijkstraLoop] at h ⊢
    cases hpq : pqTop st.pq with
    | none => rw [hpq] at h; exact h
    | some top =>
      obtain ⟨d, u⟩ := top
      rw [hpq] at h
      simp only at h ⊢
      split
      · rename_i hc
        rw [if_pos hc] at h
        exact ih _ _ h k
      · rename_i hc
        rw [if_neg hc] at h
        split
        · rename_i hc2
          rw [if_pos hc2] at h
          exact h
        · rename_i hc2
          rw [if_neg hc2] at h
          cases hadj : mapFind g.adj u with
          | none => rw [hadj] at h; exact ih _ _ h k
          | some edges => rw [hadj] at h; exact ih _ _ h k

theorem relaxEdge_present (u : Int) (st : DState) (e : Int × Int) (x : Int)
    (h : (mapFind st.dist x).isSome = true) :
    (mapFind (relaxEdge u st e).dist x).isSome = true := by
  unfold relaxEdge
  simp only
  split
  · exact present_mapSet _ _ _ _ (present_distTouch _ _ _ h)
  · exact present_distTouch _ _ _ h

theorem relaxFold_present (u : Int) (x : Int) :
    ∀ (edges : List (Int × Int)) (st : DState), (mapFind st.dist x).isSome = true →
      (mapFind (edges.foldl (relaxEdge u) st).dist x).isSome = true := by
  intro edges
  induction edges with
  | nil => intro st h; exact h
  | cons e rest ih =>
    intro st h
    exact ih _ (relaxEdge_present u st e x h)

theorem dijkstraLoop_present (g : WarehouseGraph) (e x : Int) :
    ∀ (fuel : Nat) (st st2 : DState), dijkstraLoop g e fuel st = some st2 →
      (mapFind st.dist x).isSome = true → (mapFind st2.dist x).isSome = true := by
  intro fuel
  induction fuel with
  | zero => intro st st2 h; simp [dijkstraLoop] at h
  | succ fuel ih =>
    intro st st2 h hx
    simp only [dijkstraLoop] at h
    cases hpq : pqTop st.pq with
    | none =>
      rw [hpq] at h
      simp only [Option.some.injEq] at h
      subst h
      exact hx
    | some top =>
      obtain ⟨d, u⟩ := top
      rw [hpq] at h
      simp only at h
      split at h
      · exact ih _ _ h hx
      · split at h
        · simp only [Option.some.injEq] at h
          subst h
          exact hx
        · cases hadj : mapFind g.adj u with
          | none => rw [hadj] at h; exact ih _ _ h hx
          | some edges =>
            rw [hadj] at h
            exact ih _ _ h (relaxFold_present u x edges _ hx)

theorem walkParents_chain (parent : List (Int × Int)) (s : Int) (v : Int) (lst : List Int)
    (h : Chain parent s v lst) :
    ∀ (fuel : Nat) (acc : List Int), lst.length < fuel →
      walkParents parent s fuel v acc = some (acc ++ lst) := by
  induction h with
  | base =>
    intro fuel acc hf
    cases fuel with
    | zero => omega
    | succ fuel => simp [walkParents]
  | @step v p rest hne hp _ ih =>
    intro fuel acc hf
    cases fuel with
    | zero => omega
    | succ fuel =>
      simp only [List.length_cons] at hf
      simp only [walkParents, if_neg hne, hp]
      rw [ih fuel (acc ++ [v]) (by omega)]
      simp

theorem dOf_initFold (adj : List (Int × List (Int × Int))) :
    ∀ (d : List (Int × Int)), (∀ x, dOf d x = INT_MAX) →
      ∀ x, dOf (adj.foldl (fun d node => mapSet d node.1 INT_MAX) d) x = INT_MAX := by
  induction adj with
  | nil => intro d h x; exact h x
  | cons hd tl ih =>
    intro d h x
    refine ih _ ?_ x
    intro y
    rw [dOf_mapSet]
    split
    · rfl
    · exact h y

theorem dOf_initDist (g : WarehouseGraph) (s e x : Int) :
    dOf (initDist g s e) x = if s = x then 0 else INT_MAX := by
  unfold initDist
  simp only
  rw [dOf_mapSet, dOf_distTouch, dOf_distTouch]
  rw [dOf_initFold g.adj [] (fun y => rfl) x]

theorem present_initDist (g : WarehouseGraph) (s e : Int) :
    (mapFind (initDist g s e) s).isSome = true ∧
    (mapFind (initDist g s e) e).isSome = true := by
  unfold initDist
  simp only
  refine ⟨?_, ?_⟩
  · rw [mapFind_mapSet, if_pos rfl]; rfl
  · exact present_mapSet _ _ _ _ (present_distTouch_self _ _)

theorem inv_init (g : WarehouseGraph) (s e : Int) :
    InvR g s [] (settledEdges g []) ⟨initDist g s e, [], [(0, s)]⟩ := by
  have hD := dOf_initDist g s e
  refine
    { d_start := ?_, d_le := ?_, path := ?_, rel_settled := ?_, relaxed := ?_,
      queued := ?_, settled_le := ?_, settled_stale := ?_, pq_ge := ?_, pq_nodup := ?_ }
  · simp [hD]
  · intro v
    simp only [hD]
    split
    · unfold INT_MAX; omega
    · exact le_refl _
  · intro v hv
    simp only [hD] at hv ⊢
    by_cases hsv : s = v
    · subst hsv
      refine ⟨[], Chain.base, by simp, ?_⟩
      simp only [if_true, List.nil_append, List.reverse_cons, List.reverse_nil]
      exact IsPath.nil
    · rw [if_neg hsv] at hv
      omega
  · intro x e2 hr
    exact absurd hr.1 (List.not_mem_nil _)
  · intro x e2 hr
    exact absurd hr.1 (List.not_mem_nil _)
  · intro v hv _
    simp only [hD] at hv ⊢
    by_cases hsv : s = v
    · subst hsv
      simp
    · rw [if_neg hsv] at hv
      omega
  · intro x hx
    exact absurd hx (List.not_mem_nil _)
  · intro x hx
    exact absurd hx (List.not_mem_nil _)
  · intro e2 he2
    simp only [List.mem_singleton] at he2
    subst he2
    simp only [hD, if_true]
    refine ⟨le_refl _, by unfold INT_MAX; omega, (present_initDist g s e).1⟩
  · simp

/-- The specification of the route resolver under its preconditions: with enough
fuel the call returns, and it returns either the unreachable result, when no path
exists, or the cost of a cheapest path together with a path of that cost. -/
theorem getShortestPath_spec (g : WarehouseGraph) (s e : Int)
    (hg : NonNegWeights g) (hno : NoOverflow g s) :
    ∃ N, ∀ fuel, N ≤ fuel →
      ((¬ ∃ p c, IsPath g s e p c) ∧ getShortestPath g fuel s e = some (-1, [])) ∨
      (∃ cost path, getShortestPath g fuel s e = some (cost, path) ∧
        IsPath g s e path cost ∧ (∀ p c, IsPath g s e p c → cost ≤ c) ∧
        0 ≤ cost ∧ cost < INT_MAX) := by
  obtain ⟨st2, hrun, hle, hopt, hchain⟩ :=
    dijkstraLoop_spec g s e hg hno (1 + pendingWork g [] + 1) [] _ (inv_init g s e)
      (by simp only [List.length_singleton]; omega)
  have hpres : (mapFind st2.dist e).isSome = true :=
    dijkstraLoop_present g e e _ _ _ hrun (present_initDist g s e).2
  have hget : mapGet st2.dist e = dOf st2.dist e := mapGet_eq_dOf _ _ hpres
  by_cases hfin : dOf st2.dist e < INT_MAX
  · obtain ⟨lst, hch, hpath⟩ := hchain hfin
    refine ⟨(1 + pendingWork g [] + 1) + (lst.length + 1), ?_⟩
    intro fuel hfuel
    right
    have hrun2 : dijkstraLoop g e fuel ⟨initDist g s e, [], [(0, s)]⟩ = some st2 := by
      have := dijkstraLoop_mono g e _ _ _ hrun (fuel - (1 + pendingWork g [] + 1))
      rwa [show (1 + pendingWork g [] + 1) + (fuel - (1 + pendingWork g [] + 1)) = fuel
        by omega] at this
    have hwalk := walkParents_chain st2.parent s e lst hch fuel [] (by omega)
    refine ⟨dOf st2.dist e, (lst ++ [s]).reverse, ?_, hpath, ?_, ?_, hfin⟩
    · simp only [getShortestPath, hrun2, hget, hwalk, List.nil_append]
      rw [if_neg (by omega)]
    · intro p c hp
      exact (hopt p c hp).1
    · exact isPath_nonneg g hg _ _ _ _ hpath
  · refine ⟨1 + pendingWork g [] + 1, ?_⟩
    intro fuel hfuel
    left
    have hrun2 : dijkstraLoop g e fuel ⟨initDist g s e, [], [(0, s)]⟩ = some st2 := by
      have := dijkstraLoop_mono g e _ _ _ hrun (fuel - (1 + pendingWork g [] + 1))
      rwa [show (1 + pendingWork g [] + 1) + (fuel - (1 + pendingWork g [] + 1)) = fuel
        by omega] at this
    refine ⟨?_, ?_⟩
    · rintro ⟨p, c, hp⟩
      exact hfin (hopt p c hp).2
    · simp only [getShortestPath, hrun2, hget]
      rw [if_pos (by omega)]

theorem isPath_ends (g : WarehouseGraph) (s x : Int) (p : List Int) (c : Int)
    (h : IsPath g s x p c) : p.head? = some s ∧ p.getLast? = some x := by
  induction h with
  | nil => simp
  | @snoc v x w p c _ _ ih =>
    refine ⟨?_, by simp⟩
    cases p with
    | nil => simp at ih
    | cons a t => simpa using ih.1

theorem isPath_cons (g : WarehouseGraph) (u v y w : Int) (p : List Int) (c : Int)
    (he : (v, w) ∈ edgesOf g u) (h : IsPath g v y p c) :
    IsPath g u y (u :: p) (w + c) := by
  induction h with
  | nil =>
    have := IsPath.snoc (IsPath.nil (g := g) (s := u)) he
    simpa using this
  | @snoc v2 x w2 p c _ he2 ih =>
    have := IsPath.snoc ih he2
    rw [show w + (c + w2) = w + c + w2 by omega]
    simpa using this

theorem isPath_reverse (g : WarehouseGraph) (hs : SymmetricAdj g) (a b : Int) (p : List Int)
    (c : Int) (h : IsPath g a b p c) : IsPath g b a p.reverse c := by
  induction h with
  | nil => simpa using (IsPath.nil (g := g) (s := a))
  | @snoc v x w p c _ he ih =>
    have := isPath_cons g x v a w p.reverse c (hs v x w he) ih
    rw [show c + w = w + c by omega]
    simpa using this

theorem edgesOf_adjPush (adj : List (Int × List (Int × Int))) (u : Int) (e : Int × Int)
    (x : Int) :
    edgesOf ⟨adjPush adj u e⟩ x = if u = x then edgesOf ⟨adj⟩ x ++ [e] else edgesOf ⟨adj⟩ x := by
  unfold edgesOf adjPush
  simp only [mapFind_mapSet]
  split
  · rename_i h
    subst h
    rfl
  · rfl

theorem mem_edgesOf_addEdge (g : WarehouseGraph) (u v w x : Int) (e : Int × Int) :
    e ∈ edgesOf (addEdge g u v w) x ↔
      e ∈ edgesOf g x ∨ (u = x ∧ e = (v, w)) ∨ (v = x ∧ e = (u, w)) := by
  unfold addEdge
  rw [edgesOf_adjPush, edgesOf_adjPush]
  by_cases h1 : u = x <;> by_cases h2 : v = x <;> simp [h1, h2, or_assoc]

theorem symmetric_buildGraph_aux (es : List (Int × Int × Int)) :
    ∀ g, SymmetricAdj g → SymmetricAdj (es.foldl (fun g e => addEdge g e.1 e.2.1 e.2.2) g) := by
  induction es with
  | nil => intro g h; exact h
  | cons e rest ih =>
    intro g h
    refine ih _ ?_
    intro u v w hm
    rw [mem_edgesOf_addEdge] at hm ⊢
    rcases hm with hm | ⟨h1, h2⟩ | ⟨h1, h2⟩
    · exact Or.inl (h u v w hm)
    · simp only [Prod.mk.injEq] at h2
      exact Or.inr (Or.inr ⟨h2.1.symm, by rw [← h1, h2.2]⟩)
    · simp only [Prod.mk.injEq] at h2
      exact Or.inr (Or.inl ⟨h2.1.symm, by rw [← h1, h2.2]⟩)

theorem symmetric_buildGraph (es : List (Int × Int × Int)) : SymmetricAdj (buildGraph es) := by
  refine symmetric_buildGraph_aux es ⟨[]⟩ ?_
  intro u v w hm
  simp [edgesOf, mapFind] at hm

theorem isPath_leaves_start (g : WarehouseGraph) (s x : Int) (p : List Int) (c : Int)
    (h : IsPath g s x p c) : x = s ∨ edgesOf g s ≠ [] := by
  induction h with
  | nil => exact Or.inl rfl
  | @snoc v x w p c _ he ih =>
    rcases ih with ih | ih
    · subst ih
      exact Or.inr (List.ne_nil_of_mem he)
    · exact Or.inr ih

theorem isPath_enters_end (g : WarehouseGraph) (s x : Int) (p : List Int) (c : Int)
    (h : IsPath g s x p c) : x = s ∨ ∃ v w, (x, w) ∈ edgesOf g v := by
  cases h with
  | nil => exact Or.inl rfl
  | @snoc v x w p c _ he => exact Or.inr ⟨v, w, he⟩

/-! ## Concrete graphs -/

theorem mem_edges_oneEdge (a b w u : Int) (e : Int × Int) :
    e ∈ edgesOf (buildGraph [(a, b, w)]) u ↔ (a = u ∧ e = (b, w)) ∨ (b = u ∧ e = (a, w)) := by
  have hb : buildGraph [(a, b, w)] = addEdge ⟨[]⟩ a b w := rfl
  rw [hb, mem_edgesOf_addEdge]
  simp [edgesOf, mapFind]

theorem path_oneEdge (a b w : Int) : IsPath (buildGraph [(a, b, w)]) a b [a, b] w := by
  have := IsPath.snoc (IsPath.nil (g := buildGraph [(a, b, w)]) (s := a))
    (show (b, w) ∈ edgesOf (buildGraph [(a, b, w)]) a from
      (mem_edges_oneEdge a b w a (b, w)).mpr (Or.inl ⟨rfl, rfl⟩))
  simpa using this

theorem nonneg_buildGraph_aux (es : List (Int × Int × Int)) :
    ∀ g, NonNegWeights g → (∀ e ∈ es, 0 ≤ e.2.2) →
      NonNegWeights (es.foldl (fun g e => addEdge g e.1 e.2.1 e.2.2) g) := by
  induction es with
  | nil => intro g h _; exact h
  | cons e rest ih =>
    intro g h hes
    refine ih _ ?_ (fun e2 he2 => hes e2 (List.mem_cons_of_mem _ he2))
    intro u e2 hm
    rw [mem_edgesOf_addEdge] at hm
    have hw := hes e (List.mem_cons_self _ _)
    rcases hm with hm | ⟨_, rfl⟩ | ⟨_, rfl⟩
    · exact h u e2 hm
    · exact hw
    · exact hw

theorem nonneg_buildGraph (es : List (Int × Int × Int)) (h : ∀ e ∈ es, 0 ≤ e.2.2) :
    NonNegWeights (buildGraph es) := by
  refine nonneg_buildGraph_aux es ⟨[]⟩ ?_ h
  intro u e hm
  simp [edgesOf, mapFind] at hm

theorem oneEdge_costs (w : Int) (hw : 0 ≤ w) :
    ∀ x p c, IsPath (buildGraph [(0, 1, w)]) 0 x p c →
      (x = 0 ∧ 0 ≤ c) ∨ (x = 1 ∧ w ≤ c) := by
  intro x p c h
  induction h with
  | nil => exact Or.inl ⟨rfl, le_refl _⟩
  | @snoc v x w2 p c _ he ih =>
    rw [mem_edges_oneEdge] at he
    rcases he with ⟨hv, he⟩ | ⟨hv, he⟩
    · simp only [Prod.mk.injEq] at he
      obtain ⟨rfl, rfl⟩ := he
      rcases ih with ⟨_, h2⟩ | ⟨h1, _⟩
      · exact Or.inr ⟨rfl, by omega⟩
      · omega
    · simp only [Prod.mk.injEq] at he
      obtain ⟨rfl, rfl⟩ := he
      rcases ih with ⟨h1, _⟩ | ⟨_, h2⟩
      · omega
      · exact Or.inl ⟨rfl, by omega⟩

theorem mapFind_some_pair {α : Type} (m : List (Int × α)) (k : Int) (v : α)
    (h : mapFind m k = some v) : (k, v) ∈ m := by
  induction m with
  | nil => simp [mapFind] at h
  | cons hd tl ih =>
    obtain ⟨a, b⟩ := hd
    by_cases hak : a = k
    · simp only [mapFind, if_pos hak, Option.some.injEq] at h
      subst hak
      subst h
      exact List.mem_cons_self _ _
    · simp only [mapFind, if_neg hak] at h
      exact List.mem_cons_of_mem _ (ih h)

theorem isPath_of_pathCost (g : WarehouseGraph) :
    ∀ (rest : List Int) (u k c : Int), pathCost g (u :: rest) = some c →
      (u :: rest).getLast? = some k → IsPath g u k (u :: rest) c := by
  intro rest
  induction rest with
  | nil =>
    intro u k c hc hk
    simp only [pathCost, Option.some.injEq] at hc
    simp only [List.getLast?_singleton, Option.some.injEq] at hk
    subst hc
    subst hk
    exact IsPath.nil
  | cons v rest ih =>
    intro u k c hc hk
    simp only [pathCost] at hc
    cases hf : (edgesOf g u).find? (fun e => e.1 == v) with
    | none => rw [hf] at hc; simp at hc
    | some e =>
      cases hr : pathCost g (v :: rest) with
      | none => rw [hf, hr] at hc; simp at hc
      | some c2 =>
        rw [hf, hr] at hc
        simp only [Option.some.injEq] at hc
        subst hc
        have hev : e.1 = v := by
          have := List.find?_some hf
          simpa using this
        have hmem : (v, e.2) ∈ edgesOf g u := by
          have := List.mem_of_find?_eq_some hf
          rwa [← hev]
        have hk2 : (v :: rest).getLast? = some k := by
          rw [← hk]
          simp [List.getLast?_cons_cons]
        exact isPath_cons g u v k e.2 (v :: rest) c2 hmem (ih v k c2 hr hk2)

theorem noOverflow_of_paths (g : WarehouseGraph) (s B W : Int) (paths : List (List Int))
    (hW : ∀ node ∈ g.adj, ∀ e ∈ node.2, e.2 ≤ W)
    (hP : ∀ node ∈ g.adj, ∃ p ∈ paths, pathOk g s node.1 B p = true)
    (hBW : B + W < INT_MAX) : NoOverflow g s := by
  intro u p c e hp hmin he
  unfold edgesOf at he
  cases hf : mapFind g.adj u with
  | none => rw [hf] at he; simp at he
  | some es =>
    rw [hf] at he
    simp only [Option.getD_some] at he
    have hnode := mapFind_some_pair _ _ _ hf
    have h1 := hW _ hnode e he
    obtain ⟨p0, _, hok⟩ := hP _ hnode
    unfold pathOk at hok
    simp only [Bool.and_eq_true, beq_iff_eq] at hok
    obtain ⟨⟨hhead, hlast⟩, hcost⟩ := hok
    cases hc : pathCost g p0 with
    | none => rw [hc] at hcost; simp at hcost
    | some c0 =>
      rw [hc] at hcost
      simp only [decide_eq_true_eq] at hcost
      cases p0 with
      | nil => simp at hhead
      | cons a rest =>
        simp only [List.head?_cons, Option.some.injEq] at hhead
        subst hhead
        have := hmin _ _ (isPath_of_pathCost g rest a u c0 hc hlast)
        omega

theorem nonneg_seeded : NonNegWeights (setupWarehouse ⟨[]⟩) :=
  nonneg_buildGraph
    [(0, 1, 5), (0, 2, 7), (1, 3, 4), (1, 4, 3), (2, 5, 2), (2, 6, 5), (4, 7, 6), (5, 8, 4),
     (6, 9, 3), (3, 7, 2), (8, 9, 1)] (by decide)

theorem noOverflow_seeded_depot : NoOverflow (setupWarehouse ⟨[]⟩) 0 :=
  noOverflow_of_paths (setupWarehouse ⟨[]⟩) 0 15 7 pathsFromDepot (by decide) (by decide)
    (by decide)

theorem noOverflow_seeded_node7 : NoOverflow (setupWarehouse ⟨[]⟩) 7 :=
  noOverflow_of_paths (setupWarehouse ⟨[]⟩) 7 26 7 pathsFromNode7 (by decide) (by decide)
    (by decide)

theorem route_seeded_0_7 (fuel : Nat) :
    getShortestPath (setupWarehouse ⟨[]⟩) (fuel + 8) 0 7 = some (11, [0, 1, 3, 7]) := rfl

theorem path_seeded_0_7 : IsPath (setupWarehouse ⟨[]⟩) 0 7 [0, 1, 3, 7] 11 :=
  isPath_of_pathCost (setupWarehouse ⟨[]⟩) [1, 3, 7] 0 7 11 (by decide) (by decide)

/-! ## The route resolver: claims C1 to C5 -/

/-- C1 (as the code has it): in every graph with non-negative weights in which no
sum the search forms reaches `INT_MAX`, for every end reachable from start, with
enough fuel `getShortestPath` returns a cost that is the sum of the weights along
some path from start to end and is at most the sum along every such path; on the
seeded warehouse graph `getShortestPath(0, 7)` returns cost 11 with path
`[0, 1, 3, 7]`. -/
theorem shortest_cost_is_minimum :
    (∀ (g : WarehouseGraph) (s e : Int), NonNegWeights g → NoOverflow g s →
      (∃ p c, IsPath g s e p c) →
      ∃ N, ∀ fuel, N ≤ fuel → ∃ cost path, getShortestPath g fuel s e = some (cost, path) ∧
        (∃ p, IsPath g s e p cost) ∧ ∀ p c, IsPath g s e p c → cost ≤ c) ∧
    (∀ fuel, getShortestPath (setupWarehouse ⟨[]⟩) (fuel + 8) 0 7 = some (11, [0, 1, 3, 7])) := by
  refine ⟨?_, route_seeded_0_7⟩
  intro g s e hg hno hreach
  obtain ⟨N, hN⟩ := getShortestPath_spec g s e hg hno
  refine ⟨N, fun fuel hf => ?_⟩
  rcases hN fuel hf with ⟨hnone, _⟩ | ⟨cost, path, hrun, hpath, hmin, _, _⟩
  · exact absurd hreach hnone
  · exact ⟨cost, path, hrun, ⟨path, hpath⟩, hmin⟩

/-- Witness of C1 on the seeded warehouse graph, from node 0 to node 7: the
preconditions hold there, and no path from 0 to 7 costs less than 11. -/
theorem shortest_cost_is_minimum_witness :
    NonNegWeights (setupWarehouse ⟨[]⟩) ∧ NoOverflow (setupWarehouse ⟨[]⟩) 0 ∧
    IsPath (setupWarehouse ⟨[]⟩) 0 7 [0, 1, 3, 7] 11 ∧
    ∀ p c, IsPath (setupWarehouse ⟨[]⟩) 0 7 p c → 11 ≤ c := by
  refine ⟨nonneg_seeded, noOverflow_seeded_depot, path_seeded_0_7, ?_⟩
  obtain ⟨N, hN⟩ := shortest_cost_is_minimum.1 (setupWarehouse ⟨[]⟩) 0 7 nonneg_seeded
    noOverflow_seeded_depot ⟨_, _, path_seeded_0_7⟩
  obtain ⟨cost, path, hrun, _, hmin⟩ := hN (N + 8) (by omega)
  rw [route_seeded_0_7 N] at hrun
  simp only [Option.some.injEq, Prod.mk.injEq] at hrun
  rw [hrun.1]
  exact hmin

/-- C1 fails as stated: with the single edge 0-1 of weight 2147483647 the cheapest
path from 0 to 1 costs 2147483647, a value of type `int`, and `getShortestPath(0, 1)`
returns the unreachable result `(-1, [])`. -/
theorem shortest_cost_intmax_unreachable :
    NonNegWeights (buildGraph [(0, 1, 2147483647)]) ∧
    IsPath (buildGraph [(0, 1, 2147483647)]) 0 1 [0, 1] 2147483647 ∧
    (∀ p c, IsPath (buildGraph [(0, 1, 2147483647)]) 0 1 p c → 2147483647 ≤ c) ∧
    (2147483647 : Int) ≤ INT_MAX ∧
    (∀ fuel, getShortestPath (buildGraph [(0, 1, 2147483647)]) (fuel + 2) 0 1
      = some (-1, [])) := by
  refine ⟨nonneg_buildGraph _ (by decide), path_oneEdge 0 1 2147483647, ?_, by decide,
    fun fuel => rfl⟩
  intro p c hp
  rcases oneEdge_costs 2147483647 (by decide) 1 p c hp with ⟨h1, _⟩ | ⟨_, h2⟩
  · omega
  · exact h2

/-- C2 (as the code has it): in every graph with non-negative weights in which no
sum the search forms reaches `INT_MAX`, for every end reachable from start, with
enough fuel the node sequence `getShortestPath` returns begins with start, ends
with end, has every two consecutive nodes joined by an edge, and the weights along
it add up to the returned cost. -/
theorem returned_path_is_valid (g : WarehouseGraph) (s e : Int)
    (hg : NonNegWeights g) (hno : NoOverflow g s) (hreach : ∃ p c, IsPath g s e p c) :
    ∃ N, ∀ fuel, N ≤ fuel → ∃ cost path, getShortestPath g fuel s e = some (cost, path) ∧
      path.head? = some s ∧ path.getLast? = some e ∧ IsPath g s e path cost := by
  obtain ⟨N, hN⟩ := getShortestPath_spec g s e hg hno
  refine ⟨N, fun fuel hf => ?_⟩
  rcases hN fuel hf with ⟨hnone, _⟩ | ⟨cost, path, hrun, hpath, _, _, _⟩
  · exact absurd hreach hnone
  · obtain ⟨h1, h2⟩ := isPath_ends g s e path cost hpath
    exact ⟨cost, path, hrun, h1, h2, hpath⟩

/-- Witness of C2 on the seeded warehouse graph, from node 0 to node 7: the
preconditions hold there, and the returned sequence `[0, 1, 3, 7]` is a path from
0 to 7 whose weights add up to the returned cost 11. -/
theorem returned_path_is_valid_witness :
    NonNegWeights (setupWarehouse ⟨[]⟩) ∧ NoOverflow (setupWarehouse ⟨[]⟩) 0 ∧
    (∃ p c, IsPath (setupWarehouse ⟨[]⟩) 0 7 p c) ∧
    getShortestPath (setupWarehouse ⟨[]⟩) 50 0 7 = some (11, [0, 1, 3, 7]) ∧
    [(0 : Int), 1, 3, 7].head? = some 0 ∧ [(0 : Int), 1, 3, 7].getLast? = some 7 ∧
    IsPath (setupWarehouse ⟨[]⟩) 0 7 [0, 1, 3, 7] 11 := by
  refine ⟨nonneg_seeded, noOverflow_seeded_depot, ⟨_, _, path_seeded_0_7⟩, by decide, ?_⟩
  obtain ⟨N, hN⟩ := returned_path_is_valid (setupWarehouse ⟨[]⟩) 0 7 nonneg_seeded
    noOverflow_seeded_depot ⟨_, _, path_seeded_0_7⟩
  obtain ⟨cost, path, hrun, h1, h2, h3⟩ := hN (N + 8) (by omega)
  rw [route_seeded_0_7 N] at hrun
  simp only [Option.some.injEq, Prod.mk.injEq] at hrun
  rw [hrun.1, hrun.2]
  exact ⟨h1, h2, h3⟩

/-- C2 fails as stated: with the edges 0-1 of weight 1 and 1-2 of weight 2147483646
node 2 is reachable from node 0, and the node sequence `getShortestPath(0, 2)`
returns is empty, so it does not begin with the start node. -/
theorem returned_path_empty_at_intmax :
    NonNegWeights (buildGraph [(0, 1, 1), (1, 2, 2147483646)]) ∧
    IsPath (buildGraph [(0, 1, 1), (1, 2, 2147483646)]) 0 2 [0, 1, 2] 2147483647 ∧
    (∀ fuel, getShortestPath (buildGraph [(0, 1, 1), (1, 2, 2147483646)]) (fuel + 3) 0 2
      = some (-1, [])) := by
  refine ⟨nonneg_buildGraph _ (by decide), ?_, fun fuel => rfl⟩
  have h1 := IsPath.snoc (IsPath.nil (g := buildGraph [(0, 1, 1), (1, 2, 2147483646)]) (s := 0))
    (show ((1 : Int), (1 : Int)) ∈ edgesOf (buildGraph [(0, 1, 1), (1, 2, 2147483646)]) 0
      by decide)
  have h2 := IsPath.snoc h1
    (show ((2 : Int), (2147483646 : Int)) ∈
      edgesOf (buildGraph [(0, 1, 1), (1, 2, 2147483646)]) 1 by decide)
  simpa using h2

/-- C3 (as the code has it): in every graph with non-negative weights in which no
sum the search forms reaches `INT_MAX`, for start different from end, with enough
fuel `getShortestPath` returns the unreachable result `(-1, [])` exactly when no
path from start to end exists; it is the result when start is no key of the
adjacency map, and when end is no key of a map that stores every edge in both
directions. -/
theorem unreachable_iff_no_path (g : WarehouseGraph) (s e : Int)
    (hg : NonNegWeights g) (hno : NoOverflow g s) (hne : s ≠ e) :
    ∃ N, ∀ fuel, N ≤ fuel → ∃ r, getShortestPath g fuel s e = some r ∧
      (r = (-1, []) ↔ ¬ ∃ p c, IsPath g s e p c) ∧
      (mapFind g.adj s = none → r = (-1, [])) ∧
      (SymmetricAdj g → mapFind g.adj e = none → r = (-1, [])) := by
  obtain ⟨N, hN⟩ := getShortestPath_spec g s e hg hno
  refine ⟨N, fun fuel hf => ?_⟩
  rcases hN fuel hf with ⟨hnone, hrun⟩ | ⟨cost, path, hrun, hpath, _, h0, _⟩
  · exact ⟨_, hrun, ⟨fun _ => hnone, fun _ => rfl⟩, fun _ => rfl, fun _ _ => rfl⟩
  · refine ⟨_, hrun, ⟨?_, ?_⟩, ?_, ?_⟩
    · intro hr
      simp only [Prod.mk.injEq] at hr
      omega
    · intro hnone
      exact absurd ⟨path, cost, hpath⟩ hnone
    · intro hs
      rcases isPath_leaves_start g s e path cost hpath with h1 | h1
      · exact absurd h1.symm hne
      · exact absurd (by unfold edgesOf; rw [hs]; rfl) h1
    · intro hsym he
      rcases isPath_enters_end g s e path cost hpath with h1 | ⟨v, w, h1⟩
      · exact absurd h1.symm hne
      · have h2 := hsym v e w h1
        have h3 : edgesOf g e = [] := by unfold edgesOf; rw [he]; rfl
        rw [h3] at h2
        exact absurd h2 (List.not_mem_nil _)

/-- Witness of C3 on the seeded warehouse graph, from node 0 to node 42, which is
no node of the graph: the preconditions hold there, and with enough fuel the
result is the unreachable one. -/
theorem unreachable_iff_no_path_witness :
    NonNegWeights (setupWarehouse ⟨[]⟩) ∧ NoOverflow (setupWarehouse ⟨[]⟩) 0 ∧
    (0 : Int) ≠ 42 ∧
    ∃ N, ∀ fuel, N ≤ fuel →
      getShortestPath (setupWarehouse ⟨[]⟩) fuel 0 42 = some (-1, []) ∧
      ¬ ∃ p c, IsPath (setupWarehouse ⟨[]⟩) 0 42 p c := by
  refine ⟨nonneg_seeded, noOverflow_seeded_depot, by decide, ?_⟩
  obtain ⟨N, hN⟩ := unreachable_iff_no_path (setupWarehouse ⟨[]⟩) 0 42 nonneg_seeded
    noOverflow_seeded_depot (by decide)
  refine ⟨N, fun fuel hf => ?_⟩
  obtain ⟨r, hrun, hiff, _, hend⟩ := hN fuel hf
  have hr : r = (-1, []) :=
    hend (symmetric_buildGraph
      [(0, 1, 5), (0, 2, 7), (1, 3, 4), (1, 4, 3), (2, 5, 2), (2, 6, 5), (4, 7, 6),
       (5, 8, 4), (6, 9, 3), (3, 7, 2), (8, 9, 1)]) (by decide)
  exact ⟨by rw [hrun, hr], hiff.mp hr⟩

/-- C3 fails as stated: with the single edge 3-4 of weight 2147483647 a path from
node 3 to node 4 exists, and `getShortestPath(3, 4)` returns the unreachable
result `(-1, [])`. -/
theorem unreachable_despite_path :
    NonNegWeights (buildGraph [(3, 4, 2147483647)]) ∧
    (3 : Int) ≠ 4 ∧
    (∃ p c, IsPath (buildGraph [(3, 4, 2147483647)]) 3 4 p c) ∧
    (∀ fuel, getShortestPath (buildGraph [(3, 4, 2147483647)]) (fuel + 2) 3 4
      = some (-1, [])) :=
  ⟨nonneg_buildGraph _ (by decide), by decide, ⟨_, _, path_oneEdge 3 4 2147483647⟩,
    fun _ => rfl⟩

/-- C4 (as the code has it): in every graph built by `addEdge` calls with
non-negative weights in which no sum the search forms from `a` or from `b`
reaches `INT_MAX`, with enough fuel `getShortestPath(a, b)` and
`getShortestPath(b, a)` return the same cost, the unreachable cost included. -/
theorem cost_symmetric (es : List (Int × Int × Int)) (a b : Int)
    (hg : NonNegWeights (buildGraph es))
    (hna : NoOverflow (buildGraph es) a) (hnb : NoOverflow (buildGraph es) b) :
    ∃ N, ∀ fuel, N ≤ fuel → ∃ ra rb,
      getShortestPath (buildGraph es) fuel a b = some ra ∧
      getShortestPath (buildGraph es) fuel b a = some rb ∧ ra.1 = rb.1 := by
  have hsym := symmetric_buildGraph es
  obtain ⟨Na, hNa⟩ := getShortestPath_spec (buildGraph es) a b hg hna
  obtain ⟨Nb, hNb⟩ := getShortestPath_spec (buildGraph es) b a hg hnb
  refine ⟨Na + Nb, fun fuel hf => ?_⟩
  rcases hNa fuel (by omega) with ⟨hnone, hrun⟩ | ⟨cost, path, hrun, hpath, hmin, _, _⟩
  · rcases hNb fuel (by omega) with ⟨_, hrun2⟩ | ⟨cost2, path2, _, hpath2, _, _, _⟩
    · exact ⟨_, _, hrun, hrun2, rfl⟩
    · exact absurd ⟨_, _, isPath_reverse _ hsym b a path2 cost2 hpath2⟩ hnone
  · rcases hNb fuel (by omega) with ⟨hnone2, _⟩ | ⟨cost2, path2, hrun2, hpath2, hmin2, _, _⟩
    · exact absurd ⟨_, _, isPath_reverse _ hsym a b path cost hpath⟩ hnone2
    · refine ⟨_, _, hrun, hrun2, ?_⟩
      have h1 := hmin _ _ (isPath_reverse _ hsym b a path2 cost2 hpath2)
      have h2 := hmin2 _ _ (isPath_reverse _ hsym a b path cost hpath)
      simp only
      omega

/-- Witness of C4 on the seeded warehouse graph, between node 0 and node 7: the
preconditions hold there, and both directions cost 11. -/
theorem cost_symmetric_witness :
    NonNegWeights (setupWarehouse ⟨[]⟩) ∧ NoOverflow (setupWarehouse ⟨[]⟩) 0 ∧
    NoOverflow (setupWarehouse ⟨[]⟩) 7 ∧
    getShortestPath (setupWarehouse ⟨[]⟩) 50 0 7 = some (11, [0, 1, 3, 7]) ∧
    getShortestPath (setupWarehouse ⟨[]⟩) 50 7 0 = some (11, [7, 3, 1, 0]) ∧
    ∃ N, ∀ fuel, N ≤ fuel → ∃ ra rb,
      getShortestPath (setupWarehouse ⟨[]⟩) fuel 0 7 = some ra ∧
      getShortestPath (setupWarehouse ⟨[]⟩) fuel 7 0 = some rb ∧ ra.1 = rb.1 :=
  ⟨nonneg_seeded, noOverflow_seeded_depot, noOverflow_seeded_node7, by decide, by decide,
    cost_symmetric
      [(0, 1, 5), (0, 2, 7), (1, 3, 4), (1, 4, 3), (2, 5, 2), (2, 6, 5), (4, 7, 6),
       (5, 8, 4), (6, 9, 3), (3, 7, 2), (8, 9, 1)] 0 7 nonneg_seeded noOverflow_seeded_depot
      noOverflow_seeded_node7⟩

/-- C4 fails as stated: with the edges 0-2 of weight 1 and 2-4 of weight 2147483647
the sum `1 + 2147483647` leaves the range of `int`; `getShortestPath(0, 4)` returns
cost -2147483648 and `getShortestPath(4, 0)` returns cost -1. -/
theorem cost_asymmetric_on_overflow :
    NonNegWeights (buildGraph [(0, 2, 1), (2, 4, 2147483647)]) ∧
    (∀ fuel, getShortestPath (buildGraph [(0, 2, 1), (2, 4, 2147483647)]) (fuel + 4) 0 4
      = some (-2147483648, [0, 2, 4])) ∧
    (∀ fuel, getShortestPath (buildGraph [(0, 2, 1), (2, 4, 2147483647)]) (fuel + 4) 4 0
      = some (-1, [])) :=
  ⟨nonneg_buildGraph _ (by decide), fun _ => rfl, fun _ => rfl⟩

/-- C5: for every graph and every node `s`, also one without any edge, and any
positive fuel, `getShortestPath(s, s)` returns cost 0 and the path `[s]`. -/
theorem same_node_cost_zero (g : WarehouseGraph) (s : Int) (fuel : Nat) :
    getShortestPath g (fuel + 1) s s = some (0, [s]) := by
  have hpres := (present_initDist g s s).1
  have hget : mapGet (initDist g s s) s = 0 := by
    rw [mapGet_eq_dOf _ _ hpres, dOf_initDist, if_pos rfl]
  have htop : pqTop [((0 : Int), s)] = some (0, s) := rfl
  have hloop : dijkstraLoop g s (fuel + 1) ⟨initDist g s s, [], [(0, s)]⟩
      = some ⟨initDist g s s, [], [((0 : Int), s)].erase (0, s)⟩ := by
    simp only [dijkstraLoop, htop, hget]
    simp
  simp only [getShortestPath, hloop, hget, walkParents]
  simp [INT_MAX]

/-! ## Facts about vectors -/

theorem nth_eq_getElem (l : List Order) (i : Nat) (h : i < l.length) : nth l i = l[i] := by
  unfold nth
  exact List.getD_eq_getElem l default h

theorem nth_set_eq (l : List Order) (i : Nat) (x : Order) (h : i < l.length) :
    nth (l.set i x) i = x := by
  rw [nth_eq_getElem _ _ (by simpa using h)]
  simp

theorem nth_set_ne (l : List Order) (i j : Nat) (x : Order) (h : i ≠ j) :
    nth (l.set i x) j = nth l j := by
  unfold nth
  rw [List.getD_eq_getElem?_getD, List.getD_eq_getElem?_getD, List.getElem?_set_ne h]

theorem set_nth_self (l : List Order) (i : Nat) : l.set i (nth l i) = l := by
  by_cases h : i < l.length
  · rw [nth_eq_getElem _ _ h]
    apply List.ext_getElem?
    intro j
    rw [List.getElem?_set]
    split
    · rename_i hij
      subst hij
      simp [h]
    · rfl
  · exact List.set_eq_of_length_le (by omega)

theorem count_set_add (l : List Order) (i : Nat) (a b : Order) (h : i < l.length) :
    List.count b (l.set i a) + (if l[i] = b then 1 else 0)
      = List.count b l + (if a = b then 1 else 0) := by
  rw [List.count_set a b l i h]
  have hpos : l[i] = b → 0 < List.count b l := by
    intro hb
    exact List.count_pos_iff.mpr (hb ▸ List.getElem_mem h)
  by_cases h1 : l[i] = b <;> by_cases h2 : a = b
  · have := hpos h1
    simp only [h1, h2, beq_self_eq_true, if_true]
    omega
  · have := hpos h1
    simp only [h1, beq_self_eq_true, if_true, beq_iff_eq, h2, if_false]
    omega
  · simp [h1, h2]
  · simp [h1, h2]

theorem set_set_perm (l : List Order) (h c : Nat) (x : Order)
    (hh : h < l.length) (hc : c < l.length) (hne : h ≠ c) :
    ((l.set h (nth l c)).set c x).Perm (l.set h x) := by
  rw [List.perm_iff_count]
  intro z
  have hc2 : c < (l.set h (nth l c)).length := by simpa using hc
  have e1 := count_set_add (l.set h (nth l c)) c x z hc2
  have e2 := count_set_add l h (nth l c) z hh
  have e3 := count_set_add l h x z hh
  have hget : (l.set h (nth l c))[c] = l[c] := List.getElem_set_ne hne hc2
  rw [hget] at e1
  rw [nth_eq_getElem _ _ hc] at e2 e1 ⊢
  omega

theorem desc_zero : ∀ h, Desc 0 h := by
  intro h
  induction h using Nat.strong_induction_on with
  | _ h ih =>
    by_cases h0 : h = 0
    · subst h0; exact Desc.refl
    · by_cases hodd : h % 2 = 1
      · have := Desc.left (ih ((h - 1) / 2) (by omega))
        rwa [show 2 * ((h - 1) / 2) + 1 = h by omega] at this
      · have := Desc.right (ih ((h - 2) / 2) (by omega))
        rwa [show 2 * ((h - 2) / 2) + 2 = h by omega] at this

theorem desc_ge (k h : Nat) (d : Desc k h) : k ≤ h := by
  induction d with
  | refl => exact le_refl _
  | left _ ih => omega
  | right _ ih => omega

theorem desc_parent (k h : Nat) (d : Desc k h) (hne : k < h) : Desc k ((h - 1) / 2) := by
  cases d with
  | refl => omega
  | @left h0 d0 => rwa [show (2 * h0 + 1 - 1) / 2 = h0 by omega]
  | @right h0 d0 => rwa [show (2 * h0 + 2 - 1) / 2 = h0 by omega]

theorem Moved.refl (len : Nat) (l : List Order) (h : Nat) : Moved len l h l h :=
  { len_eq := rfl, frame := fun _ _ => rfl, perm := fun _ => List.Perm.refl _,
    elems := fun _ hq => hq }

theorem Moved.trans {len : Nat} {l l2 l3 : List Order} {h h2 h3 : Nat}
    (m1 : Moved len l h l2 h2) (m2 : Moved len l2 h2 l3 h3) : Moved len l h l3 h3 :=
  { len_eq := m2.len_eq.trans m1.len_eq
    frame := fun j hj => (m2.frame j hj).trans (m1.frame j hj)
    perm := fun x => (m2.perm x).trans (m1.perm x)
    elems := fun Q hq => m2.elems Q (m1.elems Q hq) }

theorem Moved.step (len : Nat) (l : List Order) (h c : Nat)
    (hlen : len ≤ l.length) (hh : h < len) (hc : c < len) (hne : h ≠ c) :
    Moved len l h (l.set h (nth l c)) c :=
  { len_eq := by simp
    frame := fun j hj => nth_set_ne _ _ _ _ (by omega)
    perm := fun x => set_set_perm l h c x (by omega) (by omega) hne
    elems := fun Q hq j hj => by
      by_cases hjh : j = h
      · subst hjh
        rw [nth_set_eq _ _ _ (by omega)]
        exact hq c hc
      · rw [nth_set_ne _ _ _ _ (fun e => hjh e.symm)]
        exact hq j hj }

theorem prioAt_set (l : List Order) (h j : Nat) (x : Order) (hh : h < l.length) :
    prioAt (l.set h x) j = if j = h then x.priority else prioAt l j := by
  unfold prioAt
  split
  · rename_i hj
    subst hj
    rw [nth_set_eq _ _ _ hh]
  · rename_i hj
    rw [nth_set_ne _ _ _ _ (fun e => hj e.symm)]

/-! ## The sift loops of the heap algorithms -/

theorem holeInv_sink (k len h c : Nat) (l : List Order) (hlen : len ≤ l.length)
    (hi : HoleInv k len h l) (hc0 : 0 < c) (hc : c < len) (hpar : (c - 1) / 2 = h)
    (hbig : ∀ c2, 0 < c2 → c2 < len → (c2 - 1) / 2 = h → prioAt l c2 ≤ prioAt l c) :
    HoleInv k len c (l.set h (nth l c)) := by
  have hh : h < l.length := by have := hi.lt_len; omega
  have hP : ∀ j, prioAt (l.set h (nth l c)) j = if j = h then prioAt l c else prioAt l j :=
    fun j => prioAt_set l h j _ hh
  refine { desc := ?_, lt_len := hc, others := ?_, below := ?_ }
  · rcases (show c = 2 * h + 1 ∨ c = 2 * h + 2 by omega) with e | e
    · rw [e]; exact Desc.left hi.desc
    · rw [e]; exact Desc.right hi.desc
  · intro i hi0 hil hik hic hipc
    rw [hP i, hP ((i - 1) / 2)]
    by_cases hih : i = h
    · subst hih
      rw [if_pos rfl, if_neg (by omega)]
      exact hi.below (by omega) c hc0 hc hpar
    · rw [if_neg hih]
      by_cases hiph : (i - 1) / 2 = h
      · rw [if_pos hiph]
        exact hbig i hi0 hil hiph
      · rw [if_neg hiph]
        exact hi.others i hi0 hil hik hih hiph
  · intro hkc c2 hc20 hc2l hc2p
    rw [hP c2, hP ((c - 1) / 2), if_neg (by omega), if_pos hpar]
    have := hi.others c2 hc20 hc2l (by omega) (by omega) (by omega)
    rwa [hc2p] at this

theorem holeInv_rise (k len h : Nat) (l : List Order) (x : Order) (hlen : len ≤ l.length)
    (hi : HoleInv k len h l) (hk : k < h)
    (hlt : prioAt l ((h - 1) / 2) < x.priority) :
    HoleInv k len ((h - 1) / 2) (l.set h (nth l ((h - 1) / 2))) ∧
    (∀ c, 0 < c → c < len → (c - 1) / 2 = (h - 1) / 2 →
      prioAt (l.set h (nth l ((h - 1) / 2))) c ≤ x.priority) := by
  have hh : h < l.length := by have := hi.lt_len; omega
  have hhl := hi.lt_len
  have hP : ∀ j, prioAt (l.set h (nth l ((h - 1) / 2))) j
      = if j = h then prioAt l ((h - 1) / 2) else prioAt l j :=
    fun j => prioAt_set l h j _ hh
  have hdp : Desc k ((h - 1) / 2) := desc_parent k h hi.desc hk
  have hkp : k ≤ (h - 1) / 2 := desc_ge _ _ hdp
  have hsib : ∀ c, 0 < c → c < len → (c - 1) / 2 = (h - 1) / 2 → c ≠ h →
      prioAt l c ≤ prioAt l ((h - 1) / 2) := by
    intro c hc0 hcl hcp hch
    have := hi.others c hc0 hcl (by omega) hch (by omega)
    rwa [hcp] at this
  refine ⟨{ desc := hdp, lt_len := by omega, others := ?_, below := ?_ }, ?_⟩
  · intro i hi0 hil hik hip hipp
    rw [hP i, hP ((i - 1) / 2)]
    by_cases hih : i = h
    · exact absurd (by rw [hih]) hipp
    · rw [if_neg hih]
      by_cases hiph : (i - 1) / 2 = h
      · rw [if_pos hiph]
        exact hi.below hk i hi0 hil hiph
      · rw [if_neg hiph]
        exact hi.others i hi0 hil hik hih hiph
  · intro hkp2 c hc0 hcl hcp
    have hgp : k ≤ ((h - 1) / 2 - 1) / 2 := desc_ge _ _ (desc_parent k _ hdp hkp2)
    have hp := hi.others ((h - 1) / 2) (by omega) (by omega) hgp (by omega) (by omega)
    rw [hP c, hP (((h - 1) / 2 - 1) / 2),
      if_neg (show ¬ ((h - 1) / 2 - 1) / 2 = h by omega)]
    by_cases hch : c = h
    · rw [if_pos hch]
      exact hp
    · rw [if_neg hch]
      have := hsib c hc0 hcl hcp hch
      omega
  · intro c hc0 hcl hcp
    rw [hP c]
    by_cases hch : c = h
    · rw [if_pos hch]
      omega
    · rw [if_neg hch]
      have := hsib c hc0 hcl hcp hch
      omega

theorem holeInv_fill (k len h : Nat) (l : List Order) (x : Order) (hlen : len ≤ l.length)
    (hi : HoleInv k len h l)
    (hch : ∀ c, 0 < c → c < len → (c - 1) / 2 = h → prioAt l c ≤ x.priority)
    (hup : k < h → x.priority ≤ prioAt l ((h - 1) / 2)) :
    HeapFrom k len (l.set h x) := by
  have hh : h < l.length := by have := hi.lt_len; omega
  intro i hi0 hil hik
  rw [prioAt_set l h i x hh, prioAt_set l h ((i - 1) / 2) x hh]
  by_cases hih : i = h
  · subst hih
    rw [if_pos rfl, if_neg (by omega)]
    exact hup (by omega)
  · rw [if_neg hih]
    by_cases hiph : (i - 1) / 2 = h
    · rw [if_pos hiph]
      exact hch i hi0 hil hiph
    · rw [if_neg hiph]
      exact hi.others i hi0 hil hik hih hiph

theorem adjustHeapLoop_spec (k len : Nat) :
    ∀ (fuel : Nat) (l : List Order) (h : Nat), len ≤ l.length → HoleInv k len h l →
      len ≤ fuel + h →
      HoleInv k len (adjustHeapLoop len fuel l h).2 (adjustHeapLoop len fuel l h).1 ∧
      Moved len l h (adjustHeapLoop len fuel l h).1 (adjustHeapLoop len fuel l h).2 ∧
      ¬ (adjustHeapLoop len fuel l h).2 < (len - 1) / 2 := by
  intro fuel
  induction fuel with
  | zero =>
    intro l h _ hi hf
    have := hi.lt_len
    omega
  | succ fuel ih =>
    intro l h hlen hi hf
    have hhl := hi.lt_len
    by_cases hlt : h < (len - 1) / 2
    · have key : ∀ c, (c = 2 * (h + 1) ∨ c = 2 * (h + 1) - 1) →
          (∀ c2, 0 < c2 → c2 < len → (c2 - 1) / 2 = h → prioAt l c2 ≤ prioAt l c) →
          HoleInv k len (adjustHeapLoop len fuel (l.set h (nth l c)) c).2
            (adjustHeapLoop len fuel (l.set h (nth l c)) c).1 ∧
          Moved len l h (adjustHeapLoop len fuel (l.set h (nth l c)) c).1
            (adjustHeapLoop len fuel (l.set h (nth l c)) c).2 ∧
          ¬ (adjustHeapLoop len fuel (l.set h (nth l c)) c).2 < (len - 1) / 2 := by
        intro c hc hbig
        have hi2 := holeInv_sink k len h c l hlen hi (by omega) (by omega) (by omega) hbig
        obtain ⟨a1, a2, a3⟩ := ih (l.set h (nth l c)) c (by simpa using hlen) hi2 (by omega)
        exact ⟨a1, (Moved.step len l h c hlen hhl (by omega) (by omega)).trans a2, a3⟩
      simp only [adjustHeapLoop, if_pos hlt]
      by_cases hcmp : (nth l (2 * (h + 1))).lt (nth l (2 * (h + 1) - 1)) = true
      · rw [if_pos hcmp]
        refine key _ (Or.inr rfl) ?_
        intro c2 hc20 hc2l hc2p
        have hlt2 : prioAt l (2 * (h + 1)) < prioAt l (2 * (h + 1) - 1) := by
          simpa [Order.lt, prioAt] using hcmp
        rcases (show c2 = 2 * (h + 1) ∨ c2 = 2 * (h + 1) - 1 by omega) with e | e
        · rw [e]; omega
        · rw [e]
      · rw [if_neg hcmp]
        refine key _ (Or.inl rfl) ?_
        intro c2 hc20 hc2l hc2p
        have hlt2 : ¬ prioAt l (2 * (h + 1)) < prioAt l (2 * (h + 1) - 1) := by
          simpa [Order.lt, prioAt] using hcmp
        rcases (show c2 = 2 * (h + 1) ∨ c2 = 2 * (h + 1) - 1 by omega) with e | e
        · rw [e]
        · rw [e]; omega
    · simp only [adjustHeapLoop, if_neg hlt]
      exact ⟨hi, Moved.refl _ _ _, hlt⟩

theorem pushHeapLoop_spec (k len : Nat) (x : Order) :
    ∀ (fuel : Nat) (l : List Order) (h : Nat), len ≤ l.length → HoleInv k len h l →
      (∀ c, 0 < c → c < len → (c - 1) / 2 = h → prioAt l c ≤ x.priority) → h ≤ fuel →
      (pushHeapLoop x k fuel l h).length = l.length ∧
      HeapFrom k len (pushHeapLoop x k fuel l h) ∧
      (pushHeapLoop x k fuel l h).Perm (l.set h x) ∧
      (∀ j, len ≤ j → nth (pushHeapLoop x k fuel l h) j = nth l j) ∧
      (∀ Q : Order → Prop, (∀ j, j < len → Q (nth l j)) → Q x →
        ∀ j, j < len → Q (nth (pushHeapLoop x k fuel l h) j)) := by
  have hfill : ∀ (l : List Order) (h : Nat), len ≤ l.length → HoleInv k len h l →
      (∀ c, 0 < c → c < len → (c - 1) / 2 = h → prioAt l c ≤ x.priority) →
      (k < h → x.priority ≤ prioAt l ((h - 1) / 2)) →
      (l.set h x).length = l.length ∧ HeapFrom k len (l.set h x) ∧
      (l.set h x).Perm (l.set h x) ∧
      (∀ j, len ≤ j → nth (l.set h x) j = nth l j) ∧
      (∀ Q : Order → Prop, (∀ j, j < len → Q (nth l j)) → Q x →
        ∀ j, j < len → Q (nth (l.set h x) j)) := by
    intro l h hlen hi hch hup
    have hhl := hi.lt_len
    refine ⟨by simp, holeInv_fill k len h l x hlen hi hch hup, List.Perm.refl _, ?_, ?_⟩
    · intro j hj
      exact nth_set_ne _ _ _ _ (by omega)
    · intro Q hq hx j hj
      by_cases hjh : j = h
      · subst hjh
        rw [nth_set_eq _ _ _ (by omega)]
        exact hx
      · rw [nth_set_ne _ _ _ _ (fun e => hjh e.symm)]
        exact hq j hj
  intro fuel
  induction fuel with
  | zero =>
    intro l h hlen hi hch hf
    simp only [pushHeapLoop]
    exact hfill l h hlen hi hch (fun hk => by omega)
  | succ fuel ih =>
    intro l h hlen hi hch hf
    have hhl := hi.lt_len
    by_cases hcond : h > k ∧ (nth l ((h - 1) / 2)).lt x = true
    · simp only [pushHeapLoop, if_pos hcond]
      obtain ⟨hk, hcmp⟩ := hcond
      have hlt : prioAt l ((h - 1) / 2) < x.priority := by
        simpa [Order.lt, prioAt] using hcmp
      obtain ⟨hi2, hch2⟩ := holeInv_rise k len h l x hlen hi hk hlt
      have hm := Moved.step len l h ((h - 1) / 2) hlen hhl (by omega) (by omega)
      obtain ⟨b1, b2, b3, b4, b5⟩ := ih (l.set h (nth l ((h - 1) / 2))) ((h - 1) / 2)
        (by simpa using hlen) hi2 hch2 (by omega)
      refine ⟨b1.trans hm.len_eq, b2, b3.trans (hm.perm x), ?_, ?_⟩
      · intro j hj
        exact (b4 j hj).trans (hm.frame j hj)
      · intro Q hq hx
        exact b5 Q (hm.elems Q hq) hx
    · simp only [pushHeapLoop, if_neg hcond]
      refine hfill l h hlen hi hch ?_
      intro hk
      have hcmp : ¬ (nth l ((h - 1) / 2)).lt x = true := fun hc => hcond ⟨hk, hc⟩
      have : ¬ prioAt l ((h - 1) / 2) < x.priority := by
        simpa [Order.lt, prioAt] using hcmp
      omega

theorem adjust_heap_spec (k len : Nat) (l : List Order) (x : Order)
    (hlen : len ≤ l.length) (hk : k < len) (hpre : HeapFrom (k + 1) len l) :
    (adjust_heap l k len x).length = l.length ∧
    HeapFrom k len (adjust_heap l k len x) ∧
    (adjust_heap l k len x).Perm (l.set k x) ∧
    (∀ j, len ≤ j → nth (adjust_heap l k len x) j = nth l j) ∧
    (∀ Q : Order → Prop, (∀ j, j < len → Q (nth l j)) → Q x →
      ∀ j, j < len → Q (nth (adjust_heap l k len x) j)) := by
  have hi0 : HoleInv k len k l :=
    { desc := Desc.refl, lt_len := hk,
      others := fun i h1 h2 h3 _ h5 => hpre i h1 h2 (by omega),
      below := fun h => absurd h (lt_irrefl _) }
  obtain ⟨a1, a2, a3⟩ := adjustHeapLoop_spec k len len l k hlen hi0 (by omega)
  unfold adjust_heap push_heap_aux
  simp only []
  generalize adjustHeapLoop len len l k = r at a1 a2 a3 ⊢
  obtain ⟨l1, h1⟩ := r
  simp only at a1 a2 a3 ⊢
  have hl1 : len ≤ l1.length := by rw [a2.len_eq]; exact hlen
  have hh1 := a1.lt_len
  have finish : ∀ (l2 : List Order) (h2 : Nat), HoleInv k len h2 l2 → Moved len l k l2 h2 →
      len ≤ 2 * h2 + 1 →
      (pushHeapLoop x k h2 l2 h2).length = l.length ∧
      HeapFrom k len (pushHeapLoop x k h2 l2 h2) ∧
      (pushHeapLoop x k h2 l2 h2).Perm (l.set k x) ∧
      (∀ j, len ≤ j → nth (pushHeapLoop x k h2 l2 h2) j = nth l j) ∧
      (∀ Q : Order → Prop, (∀ j, j < len → Q (nth l j)) → Q x →
        ∀ j, j < len → Q (nth (pushHeapLoop x k h2 l2 h2) j)) := by
    intro l2 h2 hi2 hm hleaf
    obtain ⟨b1, b2, b3, b4, b5⟩ := pushHeapLoop_spec k len x h2 l2 h2
      (by rw [hm.len_eq]; exact hlen) hi2 (fun c hc0 hcl hcp => by omega) (le_refl _)
    refine ⟨b1.trans hm.len_eq, b2, b3.trans (hm.perm x), ?_, ?_⟩
    · intro j hj
      exact (b4 j hj).trans (hm.frame j hj)
    · intro Q hq hx
      exact b5 Q (hm.elems Q hq) hx
  by_cases hc : len % 2 = 0 ∧ 2 ≤ len ∧ h1 = (len - 2) / 2
  · rw [if_pos hc]
    simp only
    have hi2 := holeInv_sink k len h1 (2 * (h1 + 1) - 1) l1 hl1 a1 (by omega) (by omega)
      (by omega) (fun c2 hc20 hc2l hc2p => by
        rw [show c2 = 2 * (h1 + 1) - 1 by omega])
    exact finish _ _ hi2
      (a2.trans (Moved.step len l1 h1 _ hl1 hh1 (by omega) (by omega))) (by omega)
  · rw [if_neg hc]
    exact finish _ _ a1 a2 (by omega)

theorem heap_root_max (n : Nat) (l : List Order) (h : HeapFrom 0 n l) :
    ∀ i, i < n → prioAt l i ≤ prioAt l 0 := by
  intro i
  induction i using Nat.strong_induction_on with
  | _ i ih =>
    intro hi
    by_cases h0 : i = 0
    · subst h0; exact le_refl _
    · have h1 := h i (by omega) hi (by omega)
      have h2 := ih ((i - 1) / 2) (by omega) (by omega)
      omega

theorem popHeapN_spec (n : Nat) (l : List Order) (hlen : n ≤ l.length) (hn : 0 < n)
    (hheap : HeapFrom 0 n l) :
    (popHeapN l n).length = l.length ∧
    HeapFrom 0 (n - 1) (popHeapN l n) ∧
    nth (popHeapN l n) (n - 1) = nth l 0 ∧
    (popHeapN l n).Perm l ∧
    (∀ j, n ≤ j → nth (popHeapN l n) j = nth l j) ∧
    (∀ Q : Order → Prop, (∀ j, j < n → Q (nth l j)) →
      ∀ j, j < n - 1 → Q (nth (popHeapN l n) j)) := by
  unfold popHeapN
  by_cases h1 : n > 1
  · rw [if_pos h1]
    simp only
    have hP : ∀ j, j ≠ n - 1 → prioAt (l.set (n - 1) (nth l 0)) j = prioAt l j := by
      intro j hj
      rw [prioAt_set _ _ _ _ (by omega), if_neg hj]
    obtain ⟨b1, b2, b3, b4, b5⟩ := adjust_heap_spec 0 (n - 1) (l.set (n - 1) (nth l 0))
      (nth l (n - 1)) (by simp; omega) (by omega) (by
        intro i hi0 hil hik
        rw [hP i (by omega), hP _ (by omega)]
        exact hheap i hi0 (by omega) (by omega))
    refine ⟨by simpa using b1, b2, ?_, ?_, ?_, ?_⟩
    · rw [b4 (n - 1) (le_refl _), nth_set_eq _ _ _ (by omega)]
    · refine b3.trans ?_
      have := set_set_perm l (n - 1) 0 (nth l (n - 1)) (by omega) (by omega) (by omega)
      rwa [set_nth_self] at this
    · intro j hj
      rw [b4 j (by omega), nth_set_ne _ _ _ _ (by omega)]
    · intro Q hq j hj
      refine b5 Q ?_ (hq (n - 1) (by omega)) j hj
      intro j2 hj2
      rw [nth_set_ne _ _ _ _ (by omega)]
      exact hq j2 (by omega)
  · rw [if_neg h1]
    have hn1 : n = 1 := by omega
    subst hn1
    refine ⟨rfl, ?_, rfl, List.Perm.refl _, fun _ _ => rfl, ?_⟩
    · intro i hi0 hil
      omega
    · intro Q _ j hj
      omega

theorem push_heap_spec (l : List Order) (hn : 0 < l.length)
    (hpre : HeapFrom 0 (l.length - 1) l) :
    (push_heap l).length = l.length ∧ HeapFrom 0 l.length (push_heap l) ∧
    (push_heap l).Perm l := by
  have hi : HoleInv 0 l.length (l.length - 1) l :=
    { desc := desc_zero _, lt_len := by omega,
      others := fun i h1 h2 h3 h4 _ => hpre i h1 (by omega) h3,
      below := fun _ c _ h2 h3 => by omega }
  obtain ⟨b1, b2, b3, _, _⟩ := pushHeapLoop_spec 0 l.length (nth l (l.length - 1))
    (l.length - 1) l (l.length - 1) (le_refl _) hi (fun c _ h2 h3 => by omega) (le_refl _)
  unfold push_heap push_heap_aux
  refine ⟨b1, b2, ?_⟩
  rwa [set_nth_self] at b3

theorem makeHeapLoop_spec (len : Nat) :
    ∀ (parent : Nat) (l : List Order), len = l.length → parent < len →
      HeapFrom (parent + 1) len l →
      (makeHeapLoop len parent l).length = l.length ∧
      HeapFrom 0 len (makeHeapLoop len parent l) ∧ (makeHeapLoop len parent l).Perm l := by
  intro parent
  induction parent with
  | zero =>
    intro l hlen hp hpre
    obtain ⟨b1, b2, b3, _, _⟩ := adjust_heap_spec 0 len l (nth l 0) (by omega) hp hpre
    simp only [makeHeapLoop]
    refine ⟨b1, b2, ?_⟩
    rwa [set_nth_self] at b3
  | succ parent ih =>
    intro l hlen hp hpre
    obtain ⟨b1, b2, b3, _, _⟩ :=
      adjust_heap_spec (parent + 1) len l (nth l (parent + 1)) (by omega) hp hpre
    rw [set_nth_self] at b3
    obtain ⟨c1, c2, c3⟩ := ih _ (by rw [b1]; exact hlen) (by omega) b2
    simp only [makeHeapLoop]
    exact ⟨c1.trans b1, c2, c3.trans b3⟩

theorem make_heap_spec (l : List Order) :
    (make_heap l).length = l.length ∧ HeapFrom 0 l.length (make_heap l) ∧
    (make_heap l).Perm l := by
  unfold make_heap
  by_cases h : l.length < 2
  · rw [if_pos h]
    refine ⟨rfl, ?_, List.Perm.refl _⟩
    intro i hi0 hil
    omega
  · rw [if_neg h]
    refine makeHeapLoop_spec l.length _ l rfl (by omega) ?_
    intro i hi0 hil hik
    omega

theorem sortHeapLoop_spec :
    ∀ (n : Nat) (l : List Order), n ≤ l.length → HeapFrom 0 n l →
      (∀ i j, i < n → n ≤ j → j < l.length → prioAt l i ≤ prioAt l j) →
      (∀ i j, n ≤ i → i ≤ j → j < l.length → prioAt l i ≤ prioAt l j) →
      (sortHeapLoop n l).length = l.length ∧ (sortHeapLoop n l).Perm l ∧
      ∀ i j, i ≤ j → j < l.length → prioAt (sortHeapLoop n l) i ≤ prioAt (sortHeapLoop n l) j := by
  intro n
  induction n with
  | zero =>
    intro l _ _ _ hsuf
    simp only [sortHeapLoop]
    exact ⟨trivial, List.Perm.refl _, fun i j hij hj => hsuf i j (by omega) hij hj⟩
  | succ n ih =>
    intro l hlen hheap hcross hsuf
    by_cases h1 : n + 1 > 1
    · simp only [sortHeapLoop, if_pos h1]
      obtain ⟨b1, b2, b3, b4, b5, b6⟩ := popHeapN_spec (n + 1) l hlen (by omega) hheap
      simp only [Nat.add_sub_cancel] at b2 b3 b6
      have hroot := heap_root_max (n + 1) l hheap
      have hpre : ∀ i, i < n → prioAt (popHeapN l (n + 1)) i ≤ prioAt l 0 := by
        intro i hi
        exact b6 (fun o => o.priority ≤ prioAt l 0) (fun j hj => hroot j hj) i hi
      have hlast : prioAt (popHeapN l (n + 1)) n = prioAt l 0 := by
        unfold prioAt; rw [b3]
      have hfr : ∀ j, n + 1 ≤ j → prioAt (popHeapN l (n + 1)) j = prioAt l j := by
        intro j hj
        unfold prioAt; rw [b5 j hj]
      obtain ⟨c1, c2, c3⟩ := ih (popHeapN l (n + 1)) (by omega) b2
        (by
          intro i j hi hj hjl
          by_cases hjn : j = n
          · rw [hjn, hlast]
            exact hpre i hi
          · rw [hfr j (by omega)]
            exact b6 (fun o => o.priority ≤ prioAt l j)
              (fun j2 hj2 => hcross j2 j hj2 (by omega) (by omega)) i hi)
        (by
          intro i j hi hij hjl
          by_cases hin : i = n
          · by_cases hjn : j = n
            · rw [hin, hjn]
            · rw [hin, hlast, hfr j (by omega)]
              exact hcross 0 j (by omega) (by omega) (by omega)
          · rw [hfr i (by omega), hfr j (by omega)]
            exact hsuf i j (by omega) hij (by omega))
      refine ⟨c1.trans b1, c2.trans b4, ?_⟩
      intro i j hij hj
      exact c3 i j hij (by omega)
    · simp only [sortHeapLoop, if_neg h1]
      refine ⟨trivial, List.Perm.refl _, ?_⟩
      intro i j hij hj
      by_cases hi0 : i = 0
      · by_cases hj0 : j = 0
        · rw [hi0, hj0]
        · rw [hi0]
          exact hcross 0 j (by omega) (by omega) hj
      · exact hsuf i j (by omega) hij hj

theorem sort_heap_spec (l : List Order) (hheap : HeapFrom 0 l.length l) :
    (sort_heap l).length = l.length ∧ (sort_heap l).Perm l ∧
    ∀ i j, i ≤ j → j < l.length → prioAt (sort_heap l) i ≤ prioAt (sort_heap l) j := by
  unfold sort_heap
  exact sortHeapLoop_spec l.length l (le_refl _) hheap
    (fun i j _ h2 h3 => by omega) (fun i j h1 h2 h3 => by omega)

/-! ## The order manager on its heap -/

theorem isMaxHeap_iff (l : List Order) : IsMaxHeap l ↔ HeapFrom 0 l.length l := by
  constructor
  · intro h i hi0 hil _
    exact h i hi0 hil
  · intro h i hi0 hil
    exact h i hi0 hil (Nat.zero_le _)

theorem nth_append_left (l : List Order) (o : Order) (i : Nat) (h : i < l.length) :
    nth (l ++ [o]) i = nth l i := by
  rw [nth_eq_getElem _ _ (by simp; omega), nth_eq_getElem _ _ h]
  exact List.getElem_append_left h

theorem nth_dropLast (l : List Order) (i : Nat) (h : i < l.length - 1) :
    nth l.dropLast i = nth l i := by
  rw [nth_eq_getElem _ _ (by simp; omega), nth_eq_getElem _ _ (by omega)]
  exact List.getElem_dropLast l i (by simp; omega)

theorem dropLast_append_nth (l : List Order) (h : l ≠ []) :
    l.dropLast ++ [nth l (l.length - 1)] = l := by
  have hpos : 0 < l.length := List.length_pos.mpr h
  rw [nth_eq_getElem _ _ (by omega), ← List.getLast_eq_getElem l h]
  exact List.dropLast_append_getLast h

theorem heap_after_push (l : List Order) (o : Order) (h : IsMaxHeap l) :
    IsMaxHeap (push_heap (l ++ [o])) ∧ (push_heap (l ++ [o])).Perm (o :: l) := by
  obtain ⟨b1, b2, b3⟩ := push_heap_spec (l ++ [o]) (by simp) (by
    intro i hi0 hil _
    simp only [List.length_append, List.length_singleton, Nat.add_sub_cancel] at hil
    unfold prioAt
    rw [nth_append_left _ _ _ hil, nth_append_left _ _ _ (by omega)]
    exact h i hi0 hil)
  refine ⟨(isMaxHeap_iff _).mpr ?_, b3.trans (List.perm_append_singleton o l)⟩
  rw [b1]
  exact b2

theorem heap_after_pop (l : List Order) (h : IsMaxHeap l) (hne : l ≠ []) :
    IsMaxHeap (pop_heap l).dropLast ∧
    (nth (pop_heap l) ((pop_heap l).length - 1) :: (pop_heap l).dropLast).Perm l ∧
    nth (pop_heap l) ((pop_heap l).length - 1) = nth l 0 ∧
    (∀ p ∈ l, p.priority ≤ (nth l 0).priority) := by
  have hpos : 0 < l.length := List.length_pos.mpr hne
  have hh := (isMaxHeap_iff l).mp h
  obtain ⟨b1, b2, b3, b4, _, _⟩ := popHeapN_spec l.length l (le_refl _) hpos hh
  have hne2 : pop_heap l ≠ [] := by
    intro he
    have : (pop_heap l).length = 0 := by rw [he]; rfl
    unfold pop_heap at this
    omega
  refine ⟨?_, ?_, ?_, ?_⟩
  · intro i hi0 hil
    have hil2 : i < l.length - 1 := by
      simp only [List.length_dropLast] at hil
      unfold pop_heap at hil
      omega
    rw [nth_dropLast _ _ (by unfold pop_heap; omega),
      nth_dropLast _ _ (by unfold pop_heap; omega)]
    exact b2 i hi0 hil2 (Nat.zero_le _)
  · have e := dropLast_append_nth (pop_heap l) hne2
    have p1 := List.perm_append_singleton (nth (pop_heap l) ((pop_heap l).length - 1))
      (pop_heap l).dropLast
    rw [e] at p1
    exact p1.symm.trans b4
  · unfold pop_heap
    rw [b1]
    exact b3
  · intro p hp
    obtain ⟨i, hi, rfl⟩ := List.getElem_of_mem hp
    have := heap_root_max l.length l hh i hi
    unfold prioAt at this
    rwa [nth_eq_getElem _ _ hi] at this

theorem findOrderIdx_some (x : Int) :
    ∀ (l : List Order) (i : Nat), findOrderIdx l x = some i →
      ∃ o, o ∈ l ∧ o.id = x ∧ (o :: l.eraseIdx i).Perm l := by
  intro l
  induction l with
  | nil => intro i h; simp [findOrderIdx] at h
  | cons o rest ih =>
    intro i h
    by_cases ho : o.id = x
    · simp only [findOrderIdx, if_pos ho, Option.some.injEq] at h
      subst h
      exact ⟨o, List.mem_cons_self _ _, ho, by simp⟩
    · simp only [findOrderIdx, if_neg ho, Option.map_eq_some'] at h
      obtain ⟨j, hj, rfl⟩ := h
      obtain ⟨o2, hm, hid, hperm⟩ := ih j hj
      refine ⟨o2, List.mem_cons_of_mem _ hm, hid, ?_⟩
      rw [List.eraseIdx_cons_succ]
      exact (List.Perm.swap o o2 _).trans (List.Perm.cons o hperm)

theorem findOrderIdx_none (x : Int) :
    ∀ (l : List Order), findOrderIdx l x = none → ∀ o ∈ l, o.id ≠ x := by
  intro l
  induction l with
  | nil => intro _ o ho; simp at ho
  | cons o rest ih =>
    intro h o2 ho2
    by_cases ho : o.id = x
    · simp [findOrderIdx, ho] at h
    · simp only [findOrderIdx, if_neg ho, Option.map_eq_none'] at h
      rcases List.mem_cons.mp ho2 with rfl | hm
      · exact ho
      · exact ih h o2 hm

theorem getPendingOrders_perm_sorted (om : OrderManager) (h : IsMaxHeap om.orderHeap) :
    (getPendingOrders om).1.Perm om.orderHeap ∧
    List.Pairwise (fun a b => b.priority ≤ a.priority) (getPendingOrders om).1 := by
  obtain ⟨b1, b2, b3⟩ := sort_heap_spec om.orderHeap ((isMaxHeap_iff _).mp h)
  unfold getPendingOrders
  simp only
  refine ⟨(List.reverse_perm _).trans b2, ?_⟩
  rw [List.pairwise_reverse, List.pairwise_iff_getElem]
  intro i j hi hj hij
  have := b3 i j (by omega) (by omega)
  unfold prioAt at this
  rwa [nth_eq_getElem _ _ hi, nth_eq_getElem _ _ hj] at this

theorem reachable_isMaxHeap (graph : WarehouseGraph) (om : OrderManager)
    (h : OmReachable graph om) : IsMaxHeap om.orderHeap := by
  induction h with
  | init =>
    intro i _ hil
    simp at hil
  | add hist order _ ih =>
    exact (heap_after_push _ order ih).1
  | @remove om orderId _ ih =>
    unfold removeOrder
    cases hf : findOrderIdx om.orderHeap orderId with
    | none => exact ih
    | some i =>
      simp only
      obtain ⟨b1, b2, _⟩ := make_heap_spec (om.orderHeap.eraseIdx i)
      refine (isMaxHeap_iff _).mpr ?_
      rw [b1]
      exact b2
  | @process om om2 fuel _ hp ih =>
    unfold processNextOrder at hp
    by_cases he : om.orderHeap.isEmpty = true
    · rw [if_pos he] at hp
      simp only [Option.some.injEq] at hp
      subst hp
      exact ih
    · rw [if_neg he] at hp
      have hne : om.orderHeap ≠ [] := fun h0 => he (List.isEmpty_iff.mpr h0)
      obtain ⟨c1, _, _, _⟩ := heap_after_pop om.orderHeap ih hne
      simp only at hp
      cases hr : getShortestPath graph fuel 0 (currentOrder om).itemLocationNode with
      | none => rw [hr] at hp; cases hp
      | some result =>
        rw [hr] at hp
        simp only at hp
        by_cases hc : result.1 ≠ -1
        · rw [if_pos hc, Option.some.injEq] at hp
          subst hp
          exact c1
        · rw [if_neg hc, Option.some.injEq] at hp
          subst hp
          exact (heap_after_push _ _ c1).1
  | @revert om _ ih =>
    unfold revertProcess
    by_cases he : om.dispatchQueue.isEmpty = true
    · rw [if_pos he]
      exact ih
    · rw [if_neg he]
      exact (heap_after_push _ _ ih).1
  | @dispatch om _ ih =>
    unfold dispatchNextOrder
    cases om.dispatchQueue with
    | nil => exact ih
    | cons _ _ => exact ih

/-! ## The order queues: claims C6 to C10 -/

theorem process_route_found (graph : WarehouseGraph) (om : OrderManager) (fuel : Nat)
    (hne : om.orderHeap ≠ []) (result : Int × List Int)
    (hres : getShortestPath graph fuel 0 (currentOrder om).itemLocationNode = some result)
    (hc : result.1 ≠ -1) :
    processNextOrder om graph fuel
      = some { orderHeap := (pop_heap om.orderHeap).dropLast,
               dispatchQueue := om.dispatchQueue ++ [currentOrder om] } := by
  have he : ¬ om.orderHeap.isEmpty = true := fun h0 => hne (List.isEmpty_iff.mp h0)
  unfold processNextOrder
  rw [if_neg he]
  simp only [hres]
  rw [if_pos hc]

/-- C6 as stated fails on the code: with the single edge 0 - 7 of weight
2147483647 node 7 is reachable from node 0, yet the route search returns -1,
and `processNextOrder` pushes the pending order stored at node 7 back onto the
pending queue and leaves the dispatch queue empty. -/
theorem process_pushes_back_reachable_order :
    OmReachable (buildGraph [(0, 7, 2147483647)]) (addOrder ⟨[], []⟩ ⟨[]⟩ orderPrio3).1 ∧
    (addOrder ⟨[], []⟩ ⟨[]⟩ orderPrio3).1 = ⟨[orderPrio3], []⟩ ∧
    currentOrder (addOrder ⟨[], []⟩ ⟨[]⟩ orderPrio3).1 = orderPrio3 ∧
    orderPrio3.itemLocationNode = 7 ∧
    IsPath (buildGraph [(0, 7, 2147483647)]) 0 7 [0, 7] 2147483647 ∧
    (∀ fuel, getShortestPath (buildGraph [(0, 7, 2147483647)]) (fuel + 2) 0 7
      = some (-1, [])) ∧
    (∀ fuel, processNextOrder (addOrder ⟨[], []⟩ ⟨[]⟩ orderPrio3).1
        (buildGraph [(0, 7, 2147483647)]) (fuel + 2)
      = some ⟨[orderPrio3], []⟩) :=
  ⟨OmReachable.add _ _ OmReachable.init, by decide, by decide, rfl,
    path_oneEdge 0 7 2147483647, fun _ => rfl, fun _ => rfl⟩

/-- C6, amended: for every state reached through `addOrder`, `removeOrder`,
`processNextOrder`, `revertProcess` (and `dispatchNextOrder`) whose pending queue
is not empty, the order `processNextOrder` takes out is a pending order whose
priority is at least the priority of every pending order. When the route search
returns a cost other than -1, that order is appended to the dispatch queue and
the other pending orders are the same multiset; on a graph with non-negative
weights in which no sum the search forms reaches `INT_MAX` this happens, with
enough fuel, whenever the location of the order is reachable from node 0. With
pending priorities 3 and 9, admitted in either order, the priority-9 order is
taken. -/
theorem process_takes_highest_priority :
    (∀ (graph : WarehouseGraph) (om : OrderManager),
      OmReachable graph om → om.orderHeap ≠ [] →
      currentOrder om ∈ om.orderHeap ∧
      (∀ p ∈ om.orderHeap, p.priority ≤ (currentOrder om).priority) ∧
      (∀ fuel result,
        getShortestPath graph fuel 0 (currentOrder om).itemLocationNode = some result →
        result.1 ≠ -1 →
        ∃ om2, processNextOrder om graph fuel = some om2 ∧
          om2.dispatchQueue = om.dispatchQueue ++ [currentOrder om] ∧
          (currentOrder om :: om2.orderHeap).Perm om.orderHeap) ∧
      (NonNegWeights graph → NoOverflow graph 0 →
        (∃ p c, IsPath graph 0 (currentOrder om).itemLocationNode p c) →
        ∃ N, ∀ fuel, N ≤ fuel →
          ∃ om2, processNextOrder om graph fuel = some om2 ∧
            om2.dispatchQueue = om.dispatchQueue ++ [currentOrder om] ∧
            (currentOrder om :: om2.orderHeap).Perm om.orderHeap)) ∧
    processNextOrder pendingPrio3Then9 (setupWarehouse ⟨[]⟩) 50
      = some ⟨[orderPrio3], [orderPrio9]⟩ ∧
    processNextOrder pendingPrio9Then3 (setupWarehouse ⟨[]⟩) 50
      = some ⟨[orderPrio3], [orderPrio9]⟩ := by
  refine ⟨?_, by decide, by decide⟩
  intro graph om hr hne
  have hheap := reachable_isMaxHeap graph om hr
  obtain ⟨c1, c2, c3, c4⟩ := heap_after_pop om.orderHeap hheap hne
  have hcur : currentOrder om = nth om.orderHeap 0 := c3
  have hpos : 0 < om.orderHeap.length := List.length_pos.mpr hne
  refine ⟨?_, ?_, ?_, ?_⟩
  · rw [hcur, nth_eq_getElem _ _ hpos]
    exact List.getElem_mem hpos
  · intro p hp
    rw [hcur]
    exact c4 p hp
  · intro fuel result hres hc
    exact ⟨_, process_route_found graph om fuel hne result hres hc, rfl, c2⟩
  · intro hg hno hreach
    obtain ⟨N, hN⟩ := getShortestPath_spec graph 0 (currentOrder om).itemLocationNode hg hno
    refine ⟨N, fun fuel hf => ?_⟩
    rcases hN fuel hf with ⟨hnone, _⟩ | ⟨cost, path, hrun, _, _, h0, _⟩
    · exact absurd hreach hnone
    · exact ⟨_, process_route_found graph om fuel hne (cost, path) hrun
        (by simp only; omega), rfl, c2⟩

/-- Witness of C6: the state reached by admitting a priority-3 and then a
priority-9 order, on the seeded warehouse graph. -/
theorem process_takes_highest_priority_witness :
    OmReachable (setupWarehouse ⟨[]⟩) pendingPrio3Then9 ∧
    pendingPrio3Then9.orderHeap ≠ [] ∧
    ∀ p ∈ pendingPrio3Then9.orderHeap,
      p.priority ≤ (currentOrder pendingPrio3Then9).priority :=
  ⟨OmReachable.add _ _ (OmReachable.add _ _ OmReachable.init), by decide,
    (process_takes_highest_priority.1 (setupWarehouse ⟨[]⟩) pendingPrio3Then9
      (OmReachable.add _ _ (OmReachable.add _ _ OmReachable.init)) (by decide)).2.1⟩

/-- C7: for every pending queue and every id `x`, `removeOrder(x)` returns true
exactly when some pending order has id `x`; when it returns true the pending
orders are the previous ones minus one order with id `x`, and with unique ids no
pending order, no entry of `getPendingOrders` and not the order `processNextOrder`
would take next has id `x`; when it returns false the object is unchanged; the
dispatch queue is unchanged in both cases. -/
theorem removeOrder_removes_one (om : OrderManager) (x : Int) :
    ((removeOrder om x).1 = true ↔ ∃ o ∈ om.orderHeap, o.id = x) ∧
    ((removeOrder om x).1 = true →
      ∃ o ∈ om.orderHeap, o.id = x ∧
        (o :: (removeOrder om x).2.orderHeap).Perm om.orderHeap) ∧
    ((removeOrder om x).1 = true → (om.orderHeap.map (fun o => o.id)).Nodup →
      (∀ o ∈ (removeOrder om x).2.orderHeap, o.id ≠ x) ∧
      (∀ o ∈ (getPendingOrders (removeOrder om x).2).1, o.id ≠ x) ∧
      ((removeOrder om x).2.orderHeap ≠ [] → (currentOrder (removeOrder om x).2).id ≠ x)) ∧
    ((removeOrder om x).1 = false → (removeOrder om x).2 = om) ∧
    (removeOrder om x).2.dispatchQueue = om.dispatchQueue := by
  unfold removeOrder
  cases hf : findOrderIdx om.orderHeap x with
  | none =>
    have hno := findOrderIdx_none x om.orderHeap hf
    dsimp only
    refine ⟨⟨fun h => absurd h Bool.false_ne_true,
        fun ⟨o, ho, hid⟩ => absurd hid (hno o ho)⟩,
      fun h => absurd h Bool.false_ne_true, fun h => absurd h Bool.false_ne_true,
      fun _ => rfl, rfl⟩
  | some i =>
    obtain ⟨o, ho, hid, hperm⟩ := findOrderIdx_some x om.orderHeap i hf
    obtain ⟨b1, b2, b3⟩ := make_heap_spec (om.orderHeap.eraseIdx i)
    have hheap : IsMaxHeap (make_heap (om.orderHeap.eraseIdx i)) := by
      refine (isMaxHeap_iff _).mpr ?_
      rw [b1]
      exact b2
    have hperm2 : (o :: make_heap (om.orderHeap.eraseIdx i)).Perm om.orderHeap :=
      (List.Perm.cons o b3).trans hperm
    dsimp only
    refine ⟨⟨fun _ => ⟨o, ho, hid⟩, fun _ => rfl⟩, fun _ => ⟨o, ho, hid, hperm2⟩, ?_,
      fun h => absurd h (by decide), rfl⟩
    intro _ hnd
    have hnd2 : ((o :: make_heap (om.orderHeap.eraseIdx i)).map (fun o => o.id)).Nodup :=
      ((hperm2.map (fun o => o.id)).nodup_iff).mpr hnd
    rw [List.map_cons, List.nodup_cons, hid] at hnd2
    have hnone : ∀ p ∈ make_heap (om.orderHeap.eraseIdx i), p.id ≠ x := by
      intro p hp hpx
      exact hnd2.1 (List.mem_map.mpr ⟨p, hp, hpx⟩)
    refine ⟨hnone, ?_, ?_⟩
    · intro p hp
      exact hnone p ((getPendingOrders_perm_sorted
        { om with orderHeap := make_heap (om.orderHeap.eraseIdx i) } hheap).1.mem_iff.mp hp)
    · intro hne
      obtain ⟨_, _, c3, _⟩ := heap_after_pop _ hheap hne
      have hpos : 0 < (make_heap (om.orderHeap.eraseIdx i)).length := List.length_pos.mpr hne
      refine hnone _ ?_
      show currentOrder { om with orderHeap := make_heap (om.orderHeap.eraseIdx i) }
        ∈ make_heap (om.orderHeap.eraseIdx i)
      unfold currentOrder
      rw [c3, nth_eq_getElem _ _ hpos]
      exact List.getElem_mem hpos

/-- Witness of C7: removing id 1 from the pending orders with ids 2 and 1. -/
theorem removeOrder_removes_one_witness :
    (removeOrder ⟨[orderPrio9, orderPrio3], []⟩ 1).1 = true ∧
    ∃ o ∈ [orderPrio9, orderPrio3], o.id = 1 ∧
      (o :: (removeOrder ⟨[orderPrio9, orderPrio3], []⟩ 1).2.orderHeap).Perm
        [orderPrio9, orderPrio3] :=
  ⟨by decide,
    (removeOrder_removes_one ⟨[orderPrio9, orderPrio3], []⟩ 1).2.1
      (by decide)⟩

/-- C8: starting from an empty `OrderManager`, after every finite interleaving of
`addOrder`, `removeOrder`, `processNextOrder` (both branches), `revertProcess`
(and `dispatchNextOrder`), the vector `orderHeap` is a binary max-heap on
priority: every element's priority is at most that of its parent at index
`(i - 1) / 2`. -/
theorem heap_property_invariant (graph : WarehouseGraph) (om : OrderManager)
    (h : OmReachable graph om) :
    ∀ i, 0 < i → i < om.orderHeap.length →
      (nth om.orderHeap i).priority ≤ (nth om.orderHeap ((i - 1) / 2)).priority :=
  reachable_isMaxHeap graph om h

/-- Witness of C8: three admissions followed by the removal of order 2. -/
theorem heap_property_invariant_witness :
    OmReachable (setupWarehouse ⟨[]⟩) pendingAfterRemoval ∧
    ∀ i, 0 < i → i < pendingAfterRemoval.orderHeap.length →
      (nth pendingAfterRemoval.orderHeap i).priority
        ≤ (nth pendingAfterRemoval.orderHeap ((i - 1) / 2)).priority :=
  ⟨OmReachable.remove 2 (OmReachable.add _ _ (OmReachable.add _ _
      (OmReachable.add _ _ OmReachable.init))),
    heap_property_invariant (setupWarehouse ⟨[]⟩) pendingAfterRemoval
      (OmReachable.remove 2 (OmReachable.add _ _ (OmReachable.add _ _
        (OmReachable.add _ _ OmReachable.init))))⟩

/-- C9: for every pending queue that is a max-heap, `getPendingOrders` returns a
permutation of the pending orders whose priorities do not increase from first to
last, and it leaves the object (pending queue and dispatch queue) unchanged, so a
second call returns the same sequence. -/
theorem getPendingOrders_sorted_snapshot (om : OrderManager) (h : IsMaxHeap om.orderHeap) :
    (getPendingOrders om).1.Perm om.orderHeap ∧
    List.Pairwise (fun a b => b.priority ≤ a.priority) (getPendingOrders om).1 ∧
    (getPendingOrders om).2 = om ∧
    (getPendingOrders (getPendingOrders om).2).1 = (getPendingOrders om).1 :=
  ⟨(getPendingOrders_perm_sorted om h).1, (getPendingOrders_perm_sorted om h).2, rfl, rfl⟩

/-- Witness of C9: the heap holding priorities 9, 3, 5. -/
theorem getPendingOrders_sorted_snapshot_witness :
    IsMaxHeap [orderPrio9, orderPrio3, orderPrio5] ∧
    (getPendingOrders
      ⟨[orderPrio9, orderPrio3, orderPrio5], []⟩).1
      = [orderPrio9, orderPrio5, orderPrio3] ∧
    List.Pairwise (fun a b => b.priority ≤ a.priority)
      (getPendingOrders
        ⟨[orderPrio9, orderPrio3, orderPrio5], []⟩).1 := by
  have hheap : IsMaxHeap
      [orderPrio9, orderPrio3, orderPrio5] := by
    intro i hi0 hil
    simp only [List.length_cons, List.length_nil] at hil
    rcases (show i = 1 ∨ i = 2 by omega) with rfl | rfl <;> decide
  exact ⟨hheap, by decide,
    (getPendingOrders_sorted_snapshot
      ⟨[orderPrio9, orderPrio3, orderPrio5], []⟩ hheap).2.1⟩

/-- C10 on the code: in the seeded state item 101 has stock 50 at location 7;
`ADD_ORDER 101 10 5` succeeds, leaves stock 40, one pending order and two ledger
records, the top one with item id 0; the `UNDO` that follows reports success,
empties the pending queue and leaves the stock at 40. -/
theorem undo_after_admit_leaves_stock_reserved :
    (getItem initialState.inv 101).map (fun it => (it.quantity, it.locationNode))
      = some (50, 7) ∧
    (apiAddOrder initialState 101 10 5).2 = ⟨"success", "Order placed"⟩ ∧
    (getItem (apiAddOrder initialState 101 10 5).1.inv 101).map (fun it => it.quantity)
      = some 40 ∧
    (apiAddOrder initialState 101 10 5).1.om.orderHeap = [⟨1, 5, "Laptop", 10, 7⟩] ∧
    (apiAddOrder initialState 101 10 5).1.hist.history
      = [⟨ActionType.ADD_ORDER, 1, 0, 10, 5⟩, ⟨ActionType.ADD_ORDER, 1, 101, 10, 5⟩] ∧
    (apiUndo (apiAddOrder initialState 101 10 5).1).2 = ⟨"success", "Undid ADD Order"⟩ ∧
    (getItem (apiUndo (apiAddOrder initialState 101 10 5).1).1.inv 101).map
      (fun it => it.quantity) = some 40 ∧
    (apiUndo (apiAddOrder initialState 101 10 5).1).1.om.orderHeap = [] ∧
    (apiUndo (apiAddOrder initialState 101 10 5).1).1.om.dispatchQueue = [] := by
  decide

/-! ## The search on an arbitrary graph -/

theorem wrapInt_range (x : Int) : -2147483648 ≤ wrapInt x ∧ wrapInt x ≤ 2147483647 := by
  unfold wrapInt
  omega

theorem relaxEdge_effect (u : Int) (st : DState) (e : Int × Int) :
    (∃ nd, nd < dOf st.dist e.1 ∧ -2147483648 ≤ nd ∧
        mapGet (distTouch st.dist e.1) u ≠ INT_MAX ∧
        (relaxEdge u st e).pq = (nd, e.1) :: st.pq ∧
        (mapFind (relaxEdge u st e).dist e.1).isSome = true ∧
        (∀ x, dOf (relaxEdge u st e).dist x = if e.1 = x then nd else dOf st.dist x)) ∨
    ((relaxEdge u st e).pq = st.pq ∧ ∀ x, dOf (relaxEdge u st e).dist x = dOf st.dist x) := by
  have hv1 : mapGet (distTouch st.dist e.1) e.1 = dOf st.dist e.1 := by
    rw [mapGet_eq_dOf _ _ (present_distTouch_self _ _), dOf_distTouch]
  by_cases hfire : mapGet (distTouch st.dist e.1) u ≠ INT_MAX ∧
      wrapInt (mapGet (distTouch st.dist e.1) u + e.2) < mapGet (distTouch st.dist e.1) e.1
  · have hdef : relaxEdge u st e =
        { dist := mapSet (distTouch st.dist e.1) e.1
            (wrapInt (mapGet (distTouch st.dist e.1) u + e.2))
          parent := mapSet st.parent e.1 u
          pq := (wrapInt (mapGet (distTouch st.dist e.1) u + e.2), e.1) :: st.pq } := by
      unfold relaxEdge
      simp only
      rw [if_pos hfire]
    left
    refine ⟨wrapInt (mapGet (distTouch st.dist e.1) u + e.2), ?_, (wrapInt_range _).1, hfire.1,
      ?_, ?_, ?_⟩
    · rw [← hv1]; exact hfire.2
    · rw [hdef]
    · rw [hdef]
      exact present_mapSet _ _ _ _ (present_distTouch_self _ _)
    · intro x
      rw [hdef]
      simp only [dOf_mapSet, dOf_distTouch]
  · have hdef : relaxEdge u st e = { st with dist := distTouch st.dist e.1 } := by
      unfold relaxEdge
      simp only
      rw [if_neg hfire]
    right
    refine ⟨?_, ?_⟩
    · rw [hdef]
    · intro x
      rw [hdef]
      simp only [dOf_distTouch]

theorem slack_le (m m2 : List (Int × Int)) (V : List Int)
    (h : ∀ x, dOf m2 x ≤ dOf m x) : slack m2 V ≤ slack m V := by
  unfold slack
  induction V with
  | nil => simp
  | cons a t ih =>
    simp only [List.map_cons, List.sum_cons]
    have := h a
    omega

theorem slack_lt (m m2 : List (Int × Int)) (V : List Int) (v : Int) (hv : v ∈ V)
    (h : ∀ x, dOf m2 x ≤ dOf m x) (hlt : dOf m2 v < dOf m v) :
    slack m2 V + 1 ≤ slack m V := by
  induction V with
  | nil => cases hv
  | cons a t ih =>
    have hle := slack_le m m2 t h
    have ha := h a
    unfold slack at hle ih ⊢
    simp only [List.map_cons, List.sum_cons]
    rcases List.mem_cons.mp hv with rfl | hv
    · omega
    · have := ih hv
      omega

theorem slack_nonneg (m : List (Int × Int)) (V : List Int)
    (h : ∀ x, -2147483648 ≤ dOf m x) : 0 ≤ slack m V := by
  unfold slack
  induction V with
  | nil => simp
  | cons a t ih =>
    simp only [List.map_cons, List.sum_cons]
    have := h a
    omega

theorem mem_allTargets (g : WarehouseGraph) (u : Int) (edges : List (Int × Int))
    (h : mapFind g.adj u = some edges) (e : Int × Int) (he : e ∈ edges) :
    e.1 ∈ allTargets g := by
  unfold allTargets
  rw [List.mem_flatten]
  refine ⟨edges.map Prod.fst, ?_, List.mem_map.mpr ⟨e, he, rfl⟩⟩
  exact List.mem_map.mpr ⟨(u, edges), mapFind_some_pair _ _ _ h, rfl⟩

theorem relaxEdge_potential (g : WarehouseGraph) (u : Int) (st : DState) (e : Int × Int)
    (he : e.1 ∈ allTargets g) (hlo : ∀ x, -2147483648 ≤ dOf st.dist x) :
    (∀ x, -2147483648 ≤ dOf (relaxEdge u st e).dist x) ∧
    ((relaxEdge u st e).pq.length : Int) + 2 * slack (relaxEdge u st e).dist (allTargets g)
      ≤ (st.pq.length : Int) + 2 * slack st.dist (allTargets g) := by
  rcases relaxEdge_effect u st e with ⟨nd, hlt, hnd, _, hpq, _, hD⟩ | ⟨hpq, hD⟩
  · have hle : ∀ x, dOf (relaxEdge u st e).dist x ≤ dOf st.dist x := by
      intro x
      rw [hD x]
      split
      · rename_i hx
        subst hx
        omega
      · exact le_refl _
    have hlt2 : dOf (relaxEdge u st e).dist e.1 < dOf st.dist e.1 := by
      rw [hD e.1, if_pos rfl]
      exact hlt
    have hs := slack_lt st.dist (relaxEdge u st e).dist (allTargets g) e.1 he hle hlt2
    refine ⟨?_, ?_⟩
    · intro x
      rw [hD x]
      split
      · exact hnd
      · exact hlo x
    · rw [hpq]
      simp only [List.length_cons, Nat.cast_add, Nat.cast_one]
      omega
  · have hs := slack_le st.dist (relaxEdge u st e).dist (allTargets g)
      (fun x => le_of_eq (hD x))
    refine ⟨?_, ?_⟩
    · intro x
      rw [hD x]
      exact hlo x
    · rw [hpq]
      omega

theorem relaxFold_potential (g : WarehouseGraph) (u : Int) :
    ∀ (edges : List (Int × Int)) (st : DState), (∀ e ∈ edges, e.1 ∈ allTargets g) →
      (∀ x, -2147483648 ≤ dOf st.dist x) →
      (∀ x, -2147483648 ≤ dOf (edges.foldl (relaxEdge u) st).dist x) ∧
      ((edges.foldl (relaxEdge u) st).pq.length : Int)
          + 2 * slack (edges.foldl (relaxEdge u) st).dist (allTargets g)
        ≤ (st.pq.length : Int) + 2 * slack st.dist (allTargets g) := by
  intro edges
  induction edges with
  | nil => intro st _ hlo; exact ⟨hlo, le_refl _⟩
  | cons e rest ih =>
    intro st hmem hlo
    obtain ⟨h1, h2⟩ := relaxEdge_potential g u st e (hmem e (List.mem_cons_self _ _)) hlo
    obtain ⟨h3, h4⟩ := ih (relaxEdge u st e) (fun x hx => hmem x (List.mem_cons_of_mem _ hx)) h1
    exact ⟨h3, le_trans h4 h2⟩

theorem dijkstraLoop_terminates (g : WarehouseGraph) (e : Int) :
    ∀ (fuel : Nat) (st : DState), (∀ x, -2147483648 ≤ dOf st.dist x) →
      (st.pq.length : Int) + 2 * slack st.dist (allTargets g) < fuel →
      ∃ st2, dijkstraLoop g e fuel st = some st2 := by
  intro fuel
  induction fuel with
  | zero =>
    intro st hlo hf
    have := slack_nonneg st.dist (allTargets g) hlo
    simp only [Nat.cast_zero] at hf
    omega
  | succ fuel ih =>
    intro st hlo hf
    simp only [dijkstraLoop]
    cases hpq : pqTop st.pq with
    | none => exact ⟨st, rfl⟩
    | some top =>
      obtain ⟨d, u⟩ := top
      have hmem := (pqTop_spec _ _ hpq).1
      have hlen : (st.pq.erase (d, u)).length = st.pq.length - 1 :=
        List.length_erase_of_mem hmem
      have hpos : 0 < st.pq.length := List.length_pos_of_mem hmem
      have hf1 : ((st.pq.erase (d, u)).length : Int) + 2 * slack st.dist (allTargets g)
          < fuel := by
        rw [hlen]
        push_cast at hf ⊢
        omega
      simp only
      split
      · exact ih { st with pq := st.pq.erase (d, u) } hlo hf1
      · split
        · exact ⟨_, rfl⟩
        · cases hadj : mapFind g.adj u with
          | none => exact ih { st with pq := st.pq.erase (d, u) } hlo hf1
          | some edges =>
            obtain ⟨h1, h2⟩ := relaxFold_potential g u edges
              { st with pq := st.pq.erase (d, u) }
              (fun x hx => mem_allTargets g u edges hadj x hx) hlo
            exact ih _ h1 (lt_of_le_of_lt h2 hf1)

theorem relaxEdge_reach (g : WarehouseGraph) (s u : Int) (st : DState) (e : Int × Int)
    (h : ReachInv g s st) (hu : (mapFind st.dist u).isSome = true) (he : e ∈ edgesOf g u) :
    ReachInv g s (relaxEdge u st e) := by
  have hu1 : mapGet (distTouch st.dist e.1) u = dOf st.dist u := by
    rw [mapGet_eq_dOf _ _ (present_distTouch _ _ _ hu), dOf_distTouch]
  rcases relaxEdge_effect u st e with ⟨nd, hlt, _, hne, hpq, hpres, hD⟩ | ⟨hpq, hD⟩
  · refine { reach := ?_, le := ?_, queued := ?_ }
    · intro x hx
      rw [hD x] at hx
      by_cases hex : e.1 = x
      · rw [hu1] at hne
        obtain ⟨p, c, hp⟩ := h.reach u hne
        have hedge : (x, e.2) ∈ edgesOf g u := by
          rw [← hex]
          exact he
        exact ⟨_, _, IsPath.snoc hp hedge⟩
      · rw [if_neg hex] at hx
        exact h.reach x hx
    · intro x
      rw [hD x]
      have := h.le e.1
      split
      · omega
      · exact h.le x
    · intro q hq
      rw [hpq] at hq
      rcases List.mem_cons.mp hq with rfl | hq
      · exact hpres
      · exact relaxEdge_present u st e _ (h.queued q hq)
  · refine { reach := ?_, le := ?_, queued := ?_ }
    · intro x hx
      rw [hD x] at hx
      exact h.reach x hx
    · intro x
      rw [hD x]
      exact h.le x
    · intro q hq
      rw [hpq] at hq
      exact relaxEdge_present u st e _ (h.queued q hq)

theorem relaxFold_reach (g : WarehouseGraph) (s u : Int) :
    ∀ (edges : List (Int × Int)) (st : DState), (∀ e ∈ edges, e ∈ edgesOf g u) →
      ReachInv g s st → (mapFind st.dist u).isSome = true →
      ReachInv g s (edges.foldl (relaxEdge u) st) := by
  intro edges
  induction edges with
  | nil => intro st _ h _; exact h
  | cons e rest ih =>
    intro st hmem h hu
    exact ih _ (fun x hx => hmem x (List.mem_cons_of_mem _ hx))
      (relaxEdge_reach g s u st e h hu (hmem e (List.mem_cons_self _ _)))
      (relaxEdge_present u st e u hu)

theorem dijkstraLoop_reach (g : WarehouseGraph) (s e : Int) :
    ∀ (fuel : Nat) (st st2 : DState), dijkstraLoop g e fuel st = some st2 →
      ReachInv g s st → ReachInv g s st2 := by
  intro fuel
  induction fuel with
  | zero => intro st st2 h; simp [dijkstraLoop] at h
  | succ fuel ih =>
    intro st st2 h hinv
    simp only [dijkstraLoop] at h
    cases hpq : pqTop st.pq with
    | none =>
      rw [hpq] at h
      simp only [Option.some.injEq] at h
      subst h
      exact hinv
    | some top =>
      obtain ⟨d, u⟩ := top
      rw [hpq] at h
      simp only at h
      have hmem := (pqTop_spec _ _ hpq).1
      have hu : (mapFind st.dist u).isSome = true := hinv.queued _ hmem
      have hinv1 : ReachInv g s { st with pq := st.pq.erase (d, u) } :=
        { reach := hinv.reach, le := hinv.le,
          queued := fun q hq => hinv.queued q (List.mem_of_mem_erase hq) }
      split at h
      · exact ih _ _ h hinv1
      · split at h
        · simp only [Option.some.injEq] at h
          subst h
          exact hinv1
        · cases hadj : mapFind g.adj u with
          | none => rw [hadj] at h; exact ih _ _ h hinv1
          | some edges =>
            rw [hadj] at h
            refine ih _ _ h (relaxFold_reach g s u edges _ ?_ hinv1 hu)
            intro x hx
            unfold edgesOf
            rw [hadj]
            exact hx

theorem getShortestPath_unreachable (g : WarehouseGraph) (s e : Int)
    (h : ¬ ∃ p c, IsPath g s e p c) :
    ∃ N, ∀ fuel, N ≤ fuel → getShortestPath g fuel s e = some (-1, []) := by
  have hD := dOf_initDist g s e
  have hlo : ∀ x, -2147483648 ≤ dOf (initDist g s e) x := by
    intro x
    rw [hD x]
    unfold INT_MAX
    split <;> omega
  have hnn := slack_nonneg (initDist g s e) (allTargets g) hlo
  refine ⟨(1 + 2 * slack (initDist g s e) (allTargets g)).toNat + 1, ?_⟩
  intro fuel hfuel
  obtain ⟨st2, hrun⟩ := dijkstraLoop_terminates g e
    ((1 + 2 * slack (initDist g s e) (allTargets g)).toNat + 1)
    ⟨initDist g s e, [], [(0, s)]⟩ hlo (by
      simp only [List.length_singleton, Nat.cast_one, Nat.cast_add]
      rw [Int.toNat_of_nonneg (by omega)]
      omega)
  obtain ⟨k, rfl⟩ := Nat.exists_eq_add_of_le hfuel
  have hrun2 := dijkstraLoop_mono g e _ _ _ hrun k
  have hinit : ReachInv g s ⟨initDist g s e, [], [(0, s)]⟩ := by
    refine { reach := ?_, le := ?_, queued := ?_ }
    · intro x hx
      simp only [hD x] at hx
      by_cases hsx : s = x
      · subst hsx
        exact ⟨_, _, IsPath.nil⟩
      · rw [if_neg hsx] at hx
        exact absurd rfl hx
    · intro x
      simp only [hD x]
      unfold INT_MAX
      split <;> omega
    · intro q hq
      simp only [List.mem_singleton] at hq
      subst hq
      exact (present_initDist g s e).1
  have hinv := dijkstraLoop_reach g s e _ _ _ hrun hinit
  have hpres := dijkstraLoop_present g e e _ _ _ hrun (present_initDist g s e).2
  have hend : mapGet st2.dist e = INT_MAX := by
    rw [mapGet_eq_dOf _ _ hpres]
    by_contra hne
    exact h (hinv.reach e hne)
  unfold getShortestPath
  rw [hrun2]
  simp only
  rw [if_pos hend]

/-! ## What each operation does to the orders held -/

theorem sorted_prios_eq (l1 l2 : List Order) (hp : l1.Perm l2)
    (h1 : List.Pairwise (fun a b => b.priority ≤ a.priority) l1)
    (h2 : List.Pairwise (fun a b => b.priority ≤ a.priority) l2) :
    l1.map (fun o => o.priority) = l2.map (fun o => o.priority) := by
  have s1 : List.Sorted (fun x y : Int => x ≥ y) (l1.map (fun o => o.priority)) :=
    List.pairwise_map.mpr h1
  have s2 : List.Sorted (fun x y : Int => x ≥ y) (l2.map (fun o => o.priority)) :=
    List.pairwise_map.mpr h2
  exact List.eq_of_perm_of_sorted (hp.map _) s1 s2

theorem process_route_missing (graph : WarehouseGraph) (om : OrderManager) (fuel : Nat)
    (hne : om.orderHeap ≠ []) (result : Int × List Int)
    (hres : getShortestPath graph fuel 0 (currentOrder om).itemLocationNode = some result)
    (hc : result.1 = -1) :
    processNextOrder om graph fuel
      = some { orderHeap := push_heap ((pop_heap om.orderHeap).dropLast ++ [currentOrder om]),
               dispatchQueue := om.dispatchQueue } := by
  have he : ¬ om.orderHeap.isEmpty = true := fun h0 => hne (List.isEmpty_iff.mp h0)
  unfold processNextOrder
  rw [if_neg he]
  simp only [hres]
  rw [if_neg (fun h => h hc)]

theorem process_held (graph : WarehouseGraph) (om om2 : OrderManager) (fuel : Nat)
    (hheap : IsMaxHeap om.orderHeap) (h : processNextOrder om graph fuel = some om2) :
    IsMaxHeap om2.orderHeap ∧ (heldOrders om2).Perm (heldOrders om) := by
  by_cases hne : om.orderHeap = []
  · have he : om.orderHeap.isEmpty = true := List.isEmpty_iff.mpr hne
    unfold processNextOrder at h
    rw [if_pos he, Option.some.injEq] at h
    subst h
    exact ⟨hheap, List.Perm.refl _⟩
  · obtain ⟨c1, c2, _, _⟩ := heap_after_pop om.orderHeap hheap hne
    cases hr : getShortestPath graph fuel 0 (currentOrder om).itemLocationNode with
    | none =>
      have he : ¬ om.orderHeap.isEmpty = true := fun h0 => hne (List.isEmpty_iff.mp h0)
      unfold processNextOrder at h
      rw [if_neg he] at h
      simp only [hr] at h
      cases h
    | some result =>
      by_cases hc : result.1 = -1
      · rw [process_route_missing graph om fuel hne result hr hc, Option.some.injEq] at h
        subst h
        obtain ⟨d1, d2⟩ := heap_after_push _ (currentOrder om) c1
        refine ⟨d1, ?_⟩
        unfold heldOrders
        exact List.Perm.append_right _ (d2.trans c2)
      · rw [process_route_found graph om fuel hne result hr hc, Option.some.injEq] at h
        subst h
        refine ⟨c1, ?_⟩
        unfold heldOrders
        simp only
        have e1 : ((pop_heap om.orderHeap).dropLast ++ (om.dispatchQueue ++ [currentOrder om])).Perm
            (currentOrder om :: ((pop_heap om.orderHeap).dropLast ++ om.dispatchQueue)) := by
          rw [← List.append_assoc]
          exact List.perm_append_singleton _ _
        refine e1.trans ?_
        rw [← List.cons_append]
        exact List.Perm.append_right _ c2

theorem nth_concat_last (l : List Order) (o : Order) :
    nth (l ++ [o]) ((l ++ [o]).length - 1) = o := by
  rw [nth_eq_getElem _ _ (by simp)]
  simp

theorem revertProcess_concat (heap dq : List Order) (o : Order) :
    revertProcess ⟨heap, dq ++ [o]⟩ = (true, ⟨push_heap (heap ++ [o]), dq⟩) := by
  have he : ¬ (dq ++ [o]).isEmpty = true := by
    intro h0
    have := List.isEmpty_iff.mp h0
    simp at this
  unfold revertProcess
  simp only
  rw [if_neg he, nth_concat_last, List.dropLast_concat]

theorem revertProcess_empty (om : OrderManager) (h : om.dispatchQueue = []) :
    revertProcess om = (false, om) := by
  unfold revertProcess
  rw [if_pos (List.isEmpty_iff.mpr h)]

theorem revert_held (om : OrderManager) (hheap : IsMaxHeap om.orderHeap) :
    IsMaxHeap (revertProcess om).2.orderHeap ∧
    (heldOrders (revertProcess om).2).Perm (heldOrders om) := by
  obtain ⟨heap, dq⟩ := om
  rcases List.eq_nil_or_concat dq with hd | ⟨init, o, hd⟩
  · subst hd
    rw [revertProcess_empty _ rfl]
    exact ⟨hheap, List.Perm.refl _⟩
  · subst hd
    rw [List.concat_eq_append] at hheap ⊢
    rw [revertProcess_concat]
    obtain ⟨d1, d2⟩ := heap_after_push heap o hheap
    refine ⟨d1, ?_⟩
    unfold heldOrders
    simp only
    have e1 : (heap ++ (init ++ [o])).Perm (o :: (heap ++ init)) := by
      rw [← List.append_assoc]
      exact List.perm_append_singleton _ _
    refine List.Perm.trans ?_ e1.symm
    rw [← List.cons_append]
    exact List.Perm.append_right _ d2

theorem remove_held (om : OrderManager) (orderId : Int) (hheap : IsMaxHeap om.orderHeap) :
    IsMaxHeap (removeOrder om orderId).2.orderHeap ∧
    ((removeOrder om orderId).2 = om ∨
      ∃ o, (o :: heldOrders (removeOrder om orderId).2).Perm (heldOrders om)) := by
  unfold removeOrder
  cases hf : findOrderIdx om.orderHeap orderId with
  | none => exact ⟨hheap, Or.inl rfl⟩
  | some i =>
    simp only
    obtain ⟨b1, b2, b3⟩ := make_heap_spec (om.orderHeap.eraseIdx i)
    obtain ⟨o, _, _, hperm⟩ := findOrderIdx_some orderId om.orderHeap i hf
    refine ⟨?_, Or.inr ⟨o, ?_⟩⟩
    · refine (isMaxHeap_iff _).mpr ?_
      rw [b1]
      exact b2
    · unfold heldOrders
      simp only
      rw [← List.cons_append]
      exact List.Perm.append_right _ ((List.Perm.cons o b3).trans hperm)

theorem dispatch_held (om : OrderManager) :
    (dispatchNextOrder om).orderHeap = om.orderHeap ∧
    (dispatchNextOrder om = om ∨
      ∃ o, (o :: heldOrders (dispatchNextOrder om)).Perm (heldOrders om)) := by
  obtain ⟨heap, dq⟩ := om
  cases dq with
  | nil => exact ⟨rfl, Or.inl rfl⟩
  | cons o rest =>
    refine ⟨rfl, Or.inr ⟨o, ?_⟩⟩
    unfold dispatchNextOrder heldOrders
    simp only
    exact List.perm_middle.symm

theorem add_held (om : OrderManager) (hist : ActionHistory) (order : Order)
    (hheap : IsMaxHeap om.orderHeap) :
    IsMaxHeap (addOrder om hist order).1.orderHeap ∧
    (addOrder om hist order).1.dispatchQueue = om.dispatchQueue ∧
    (heldOrders (addOrder om hist order).1).Perm (order :: heldOrders om) := by
  obtain ⟨d1, d2⟩ := heap_after_push om.orderHeap order hheap
  refine ⟨d1, rfl, ?_⟩
  unfold heldOrders addOrder
  simp only
  rw [← List.cons_append]
  exact List.Perm.append_right _ d2
/-! ## The command layer on its state -/

theorem apiAddOrder_admitted (st : AppState) (id qty prio : Int) (item : Item)
    (hitem : getItem st.inv id = some item) (hstock : hasStock st.inv id qty = true) :
    apiAddOrder st id qty prio =
      ({ st with
          inv := (updateStock st.inv id (wrapInt (-qty))).2
          om := (addOrder st.om
            (logAction st.hist ⟨ActionType.ADD_ORDER, st.orderCounter, id, qty, prio⟩)
            ⟨st.orderCounter, prio, item.name, qty, item.locationNode⟩).1
          hist := (addOrder st.om
            (logAction st.hist ⟨ActionType.ADD_ORDER, st.orderCounter, id, qty, prio⟩)
            ⟨st.orderCounter, prio, item.name, qty, item.locationNode⟩).2
          orderCounter := wrapInt (st.orderCounter + 1) }, ⟨"success", "Order placed"⟩) := by
  unfold apiAddOrder
  simp only [hitem, hstock, if_true]

theorem apiAddOrder_rejected (st : AppState) (id qty prio : Int)
    (h : admits st id qty = false) :
    apiAddOrder st id qty prio = (st, ⟨"error", "Invalid item or stock"⟩) := by
  unfold admits at h
  unfold apiAddOrder
  cases hitem : getItem st.inv id with
  | none => rfl
  | some item =>
    rw [hitem] at h
    simp only [Option.isSome_some, Bool.true_and] at h
    simp only [h]
    rfl

theorem admits_of_item (st : AppState) (id qty : Int) (item : Item)
    (hitem : getItem st.inv id = some item) (hstock : hasStock st.inv id qty = true) :
    admits st id qty = true := by
  unfold admits
  rw [hitem, hstock]
  rfl

theorem admits_item (st : AppState) (id qty : Int) (h : admits st id qty = true) :
    ∃ item, getItem st.inv id = some item ∧ hasStock st.inv id qty = true := by
  unfold admits at h
  cases hitem : getItem st.inv id with
  | none => rw [hitem] at h; cases h
  | some item =>
    rw [hitem] at h
    exact ⟨item, rfl, by simpa using h⟩

theorem performUndo_om (st : AppState) :
    (performUndo st).1.orderCounter = st.orderCounter ∧
    (performUndo st).1.graph = st.graph ∧
    ((performUndo st).1.om = st.om ∨
      (∃ x, (performUndo st).1.om = (removeOrder st.om x).2) ∨
      (performUndo st).1.om = (revertProcess st.om).2) := by
  unfold performUndo
  by_cases h : (!hasActions st.hist) = true
  · rw [if_pos h]
    exact ⟨rfl, rfl, Or.inl rfl⟩
  · rw [if_neg h]
    dsimp only
    split
    · split
      · exact ⟨rfl, rfl, Or.inr (Or.inl ⟨_, rfl⟩)⟩
      · exact ⟨rfl, rfl, Or.inr (Or.inl ⟨_, rfl⟩)⟩
    · split
      · exact ⟨rfl, rfl, Or.inr (Or.inr rfl)⟩
      · exact ⟨rfl, rfl, Or.inr (Or.inr rfl)⟩
    · exact ⟨rfl, rfl, Or.inl rfl⟩

theorem getPendingOrders_ne_nil (om : OrderManager) (hheap : IsMaxHeap om.orderHeap)
    (hne : om.orderHeap ≠ []) : (getPendingOrders om).1 ≠ [] := by
  intro h0
  have hp := (getPendingOrders_perm_sorted om hheap).1
  rw [h0] at hp
  exact hne (List.Perm.nil_eq hp).symm

theorem apiProcess_empty (st : AppState) (fuel : Nat) (h : (getPendingOrders st.om).1 = []) :
    apiProcess st fuel = some (st, ⟨"error", "No orders to process"⟩) := by
  unfold apiProcess
  rw [h]

theorem apiProcess_top (st : AppState) (fuel : Nat) (top : Order) (rest : List Order)
    (h : (getPendingOrders st.om).1 = top :: rest) :
    apiProcess st fuel =
      (processNextOrder st.om st.graph fuel).map (fun om1 =>
        ({ st with
            om := om1
            hist := logAction st.hist ⟨ActionType.PROCESS_ORDER, top.id, 0, 0, 0⟩ },
         ⟨"success", "Processed"⟩)) := by
  unfold apiProcess
  rw [h]
  dsimp only
  cases processNextOrder st.om st.graph fuel <;> rfl

theorem apiProcess_om (st st2 : AppState) (r : Reply) (fuel : Nat)
    (h : apiProcess st fuel = some (st2, r)) :
    st2.orderCounter = st.orderCounter ∧ st2.graph = st.graph ∧
    (st2.om = st.om ∨ processNextOrder st.om st.graph fuel = some st2.om) := by
  cases hp : (getPendingOrders st.om).1 with
  | nil =>
    rw [apiProcess_empty st fuel hp] at h
    simp only [Option.some.injEq, Prod.mk.injEq] at h
    obtain ⟨h1, _⟩ := h
    subst h1
    exact ⟨rfl, rfl, Or.inl rfl⟩
  | cons top rest =>
    rw [apiProcess_top st fuel top rest hp] at h
    cases hq : processNextOrder st.om st.graph fuel with
    | none => rw [hq] at h; cases h
    | some om1 =>
      rw [hq] at h
      simp only [Option.map_some', Option.some.injEq, Prod.mk.injEq] at h
      obtain ⟨h1, _⟩ := h
      subst h1
      exact ⟨rfl, rfl, Or.inr rfl⟩

theorem fresh_perm (l1 l2 : List Order) (c : Int) (hp : l1.Perm l2) (h : FreshIds l2 c) :
    FreshIds l1 c :=
  ⟨(hp.map _).nodup_iff.mpr h.1, fun o ho => h.2 o (hp.subset ho)⟩

theorem fresh_tail (o : Order) (l1 l2 : List Order) (c : Int) (hp : (o :: l1).Perm l2)
    (h : FreshIds l2 c) : FreshIds l1 c := by
  have h2 := fresh_perm _ _ c hp h
  refine ⟨?_, fun x hx => h2.2 x (List.mem_cons_of_mem _ hx)⟩
  have := h2.1
  simp only [List.map_cons, List.nodup_cons] at this
  exact this.2

theorem fresh_cons (o : Order) (l : List Order) (c : Int) (ho : o.id = c) (h : FreshIds l c) :
    FreshIds (o :: l) (c + 1) := by
  refine ⟨?_, ?_⟩
  · simp only [List.map_cons, List.nodup_cons]
    refine ⟨?_, h.1⟩
    intro hm
    obtain ⟨x, hx, hxid⟩ := List.mem_map.mp hm
    have := h.2 x hx
    omega
  · intro x hx
    rcases List.mem_cons.mp hx with rfl | hx
    · omega
    · have := h.2 x hx
      omega

theorem apiReach_inv (st : AppState) (ids : List Int) (h : ApiReach st ids) :
    IsMaxHeap st.om.orderHeap ∧
    (ids.length ≤ 2147483646 →
      st.orderCounter = 1 + (ids.length : Int) ∧
      FreshIds (heldOrders st.om) st.orderCounter ∧
      ∀ k ∈ ids, k < st.orderCounter) := by
  induction h with
  | init inv graph =>
    refine ⟨?_, fun _ => ⟨by simp, ⟨by simp [heldOrders], by simp [heldOrders]⟩, by simp⟩⟩
    intro i _ hil
    simp at hil
  | @add st ids id qty prio _ ih =>
    obtain ⟨i1, i2⟩ := ih
    by_cases ha : admits st id qty = true
    · obtain ⟨item, hitem, hstock⟩ := admits_item st id qty ha
      rw [apiAddOrder_admitted st id qty prio item hitem hstock, if_pos ha]
      dsimp only
      obtain ⟨d1, _, d3⟩ := add_held st.om
        (logAction st.hist ⟨ActionType.ADD_ORDER, st.orderCounter, id, qty, prio⟩)
        ⟨st.orderCounter, prio, item.name, qty, item.locationNode⟩ i1
      refine ⟨d1, ?_⟩
      intro hfew
      simp only [List.length_cons] at hfew
      obtain ⟨j1, j2, j3⟩ := i2 (by omega)
      have hw : wrapInt (st.orderCounter + 1) = st.orderCounter + 1 :=
        wrapInt_eq _ (by omega) (by omega)
      rw [hw]
      refine ⟨?_, fresh_perm _ _ _ d3 (fresh_cons _ _ _ rfl j2), ?_⟩
      · simp only [List.length_cons, Nat.cast_add, Nat.cast_one]
        omega
      · intro k hk
        rcases List.mem_cons.mp hk with rfl | hk
        · omega
        · have := j3 k hk
          omega
    · have ha2 : admits st id qty = false := by simpa using ha
      rw [apiAddOrder_rejected st id qty prio ha2, if_neg ha]
      exact ⟨i1, i2⟩
  | @process st st2 ids r fuel _ hp ih =>
    obtain ⟨i1, i2⟩ := ih
    obtain ⟨e1, _, e3⟩ := apiProcess_om st st2 r fuel hp
    rw [e1]
    rcases e3 with e3 | e3
    · rw [e3]
      exact ⟨i1, i2⟩
    · obtain ⟨d1, d2⟩ := process_held st.graph st.om st2.om fuel i1 e3
      refine ⟨d1, fun hfew => ?_⟩
      obtain ⟨j1, j2, j3⟩ := i2 hfew
      exact ⟨j1, fresh_perm _ _ _ d2 j2, j3⟩
  | @dispatch st ids _ ih =>
    obtain ⟨i1, i2⟩ := ih
    obtain ⟨d1, d2⟩ := dispatch_held st.om
    unfold apiDispatch
    dsimp only
    rw [d1]
    refine ⟨i1, fun hfew => ?_⟩
    obtain ⟨j1, j2, j3⟩ := i2 hfew
    refine ⟨j1, ?_, j3⟩
    rcases d2 with d2 | ⟨o, d2⟩
    · rw [d2]
      exact j2
    · exact fresh_tail o _ _ _ d2 j2
  | @undo st ids _ ih =>
    obtain ⟨i1, i2⟩ := ih
    obtain ⟨e1, _, e3⟩ := performUndo_om st
    unfold apiUndo
    rw [e1]
    rcases e3 with e3 | ⟨x, e3⟩ | e3
    · rw [e3]
      exact ⟨i1, i2⟩
    · rw [e3]
      obtain ⟨d1, d2⟩ := remove_held st.om x i1
      refine ⟨d1, fun hfew => ?_⟩
      obtain ⟨j1, j2, j3⟩ := i2 hfew
      refine ⟨j1, ?_, j3⟩
      rcases d2 with d2 | ⟨o, d2⟩
      · rw [d2]
        exact j2
      · exact fresh_tail o _ _ _ d2 j2
    · rw [e3]
      obtain ⟨d1, d2⟩ := revert_held st.om i1
      refine ⟨d1, fun hfew => ?_⟩
      obtain ⟨j1, j2, j3⟩ := i2 hfew
      exact ⟨j1, fresh_perm _ _ _ d2 j2, j3⟩

theorem singleAisle_reach (x : Int) (p : List Int) (c : Int)
    (h : IsPath singleAisle 0 x p c) : x = 0 ∨ x = 1 := by
  induction h with
  | nil => exact Or.inl rfl
  | @snoc v x w p c _ he ih =>
    rcases ih with rfl | rfl
    · have e : edgesOf singleAisle 0 = [(1, 5)] := by decide
      rw [e] at he
      simp only [List.mem_singleton, Prod.mk.injEq] at he
      exact Or.inr he.1
    · have e : edgesOf singleAisle 1 = [(0, 5)] := by decide
      rw [e] at he
      simp only [List.mem_singleton, Prod.mk.injEq] at he
      exact Or.inl he.1

theorem singleAisle_no_route : ¬ ∃ p c, IsPath singleAisle 0 7 p c := by
  rintro ⟨p, c, h⟩
  rcases singleAisle_reach 7 p c h with h7 | h7 <;> omega

/-! ## The command layer: claims C11 to C20 -/

theorem updateStock_item (inv : InventoryManager) (i change : Int) (item : Item)
    (hitem : getItem inv i = some item) :
    getItem (updateStock inv i change).2 i
      = some { item with quantity := wrapInt (item.quantity + change) } ∧
    ∀ j, j ≠ i → getItem (updateStock inv i change).2 j = getItem inv j := by
  unfold getItem at hitem ⊢
  unfold updateStock
  rw [hitem]
  dsimp only
  refine ⟨?_, ?_⟩
  · rw [mapFind_mapSet, if_pos rfl]
  · intro j hj
    rw [mapFind_mapSet, if_neg (fun h => hj h.symm)]

theorem hasStock_item (inv : InventoryManager) (i qty : Int) (item : Item)
    (hitem : getItem inv i = some item) : hasStock inv i qty = decide (item.quantity ≥ qty) := by
  unfold getItem at hitem
  unfold hasStock
  rw [hitem]

theorem performUndo_process (st : AppState) (top : Int) (hist0 : ActionHistory)
    (heap dq : List Order) (o : Order)
    (hh : st.hist = logAction hist0 ⟨ActionType.PROCESS_ORDER, top, 0, 0, 0⟩)
    (hom : st.om = ⟨heap, dq ++ [o]⟩) :
    performUndo st
      = ({ st with hist := hist0, om := ⟨push_heap (heap ++ [o]), dq⟩ },
         ⟨"success", "Undid PROCESS (Returned to Queue)"⟩) := by
  obtain ⟨inv, om, graph, hist, ctr⟩ := st
  simp only at hh hom
  subst hh hom
  unfold performUndo
  simp only [logAction, hasActions, popLastAction, List.isEmpty_cons, Bool.not_false,
    Bool.not_true, revertProcess_concat]
  rfl

theorem apiProcess_unreachable (st : AppState) (hheap : IsMaxHeap st.om.orderHeap)
    (hne : st.om.orderHeap ≠ [])
    (hun : ¬ ∃ p c, IsPath st.graph 0 (currentOrder st.om).itemLocationNode p c) :
    ∃ N, ∀ fuel, N ≤ fuel →
      ∃ st2 top, apiProcess st fuel = some (st2, ⟨"success", "Processed"⟩) ∧
        st2.hist.history
          = ⟨ActionType.PROCESS_ORDER, top, 0, 0, 0⟩ :: st.hist.history ∧
        st2.om.dispatchQueue = st.om.dispatchQueue ∧
        st2.om.orderHeap.Perm st.om.orderHeap := by
  obtain ⟨N, hN⟩ := getShortestPath_unreachable st.graph 0
    (currentOrder st.om).itemLocationNode hun
  refine ⟨N, fun fuel hf => ?_⟩
  have hres := hN fuel hf
  obtain ⟨c1, c2, _, _⟩ := heap_after_pop st.om.orderHeap hheap hne
  obtain ⟨_, d2⟩ := heap_after_push _ (currentOrder st.om) c1
  cases hp : (getPendingOrders st.om).1 with
  | nil => exact absurd hp (getPendingOrders_ne_nil st.om hheap hne)
  | cons top rest =>
    refine ⟨{ st with
        om := ⟨push_heap ((pop_heap st.om.orderHeap).dropLast ++ [currentOrder st.om]),
          st.om.dispatchQueue⟩
        hist := logAction st.hist ⟨ActionType.PROCESS_ORDER, top.id, 0, 0, 0⟩ },
      top.id, ?_, rfl, rfl, ?_⟩
    · rw [apiProcess_top st fuel top rest hp,
        process_route_missing st.graph st.om fuel hne _ hres rfl]
      rfl
    · exact d2.trans c2

/-- C11 on the code: every admission that passes the stock test pushes two
records onto the ledger, first the one of the `ADD_ORDER` branch with the item
id, then on top of it the one of `OrderManager::addOrder` with item id 0. In the
seeded state, `ADD_ORDER 101 10 5` succeeds and leaves the two records on the
empty ledger; the record on top has item id 0, not 101. -/
theorem admission_pushes_two_records :
    (∀ (st : AppState) (id qty prio : Int), admits st id qty = true →
      (apiAddOrder st id qty prio).1.hist.history
        = ⟨ActionType.ADD_ORDER, st.orderCounter, 0, qty, prio⟩ ::
          ⟨ActionType.ADD_ORDER, st.orderCounter, id, qty, prio⟩ :: st.hist.history) ∧
    initialState.hist.history = [] ∧
    (apiAddOrder initialState 101 10 5).2 = ⟨"success", "Order placed"⟩ ∧
    (apiAddOrder initialState 101 10 5).1.hist.history
      = [⟨ActionType.ADD_ORDER, 1, 0, 10, 5⟩, ⟨ActionType.ADD_ORDER, 1, 101, 10, 5⟩] ∧
    (popLastAction (apiAddOrder initialState 101 10 5).1.hist).1.itemId = 0 := by
  refine ⟨?_, by decide, by decide, by decide, by decide⟩
  intro st id qty prio ha
  obtain ⟨item, hitem, hstock⟩ := admits_item st id qty ha
  rw [apiAddOrder_admitted st id qty prio item hitem hstock]
  rfl

/-- C12: for every state, `ADD_ORDER` for an item id that is not in the
inventory, or for a quantity greater than the stock of the item, replies with the
error and returns the state unchanged: inventory, pending queue, dispatch queue,
ledger and counter. -/
theorem failed_admission_changes_nothing (st : AppState) (id qty prio : Int)
    (h : getItem st.inv id = none ∨
      ∃ item, getItem st.inv id = some item ∧ item.quantity < qty) :
    (apiAddOrder st id qty prio).1 = st ∧
    (apiAddOrder st id qty prio).2 = ⟨"error", "Invalid item or stock"⟩ := by
  have ha : admits st id qty = false := by
    unfold admits
    rcases h with h | ⟨item, hitem, hlt⟩
    · rw [h]
      rfl
    · rw [hasStock_item st.inv id qty item hitem, hitem]
      simp only [Option.isSome_some, Bool.true_and, decide_eq_false_iff_not, ge_iff_le, not_le]
      exact hlt
  rw [apiAddOrder_rejected st id qty prio ha]
  exact ⟨rfl, rfl⟩

/-- Witness of C12: in the seeded state item 101 has stock 50, and
`ADD_ORDER 101 51 5` changes nothing. -/
theorem failed_admission_changes_nothing_witness :
    (∃ item, getItem initialState.inv 101 = some item ∧ item.quantity < 51) ∧
    (apiAddOrder initialState 101 51 5).1 = initialState ∧
    (apiAddOrder initialState 101 51 5).2 = ⟨"error", "Invalid item or stock"⟩ :=
  ⟨⟨⟨101, "Laptop", 50, 7⟩, by decide, by decide⟩,
    failed_admission_changes_nothing initialState 101 51 5
      (Or.inr ⟨⟨101, "Laptop", 50, 7⟩, by decide, by decide⟩)⟩

/-- C13 as stated fails on the code: in the seeded state item 101 has stock 50;
`ADD_ORDER 101 -2147483647 5` passes the stock test and succeeds, and the stock
it leaves is -2147483599, not 50 - (-2147483647), which no `int` holds. -/
theorem admission_stock_wraps :
    (getItem initialState.inv 101).map (fun it => it.quantity) = some 50 ∧
    (apiAddOrder initialState 101 (-2147483647) 5).2 = ⟨"success", "Order placed"⟩ ∧
    (getItem (apiAddOrder initialState 101 (-2147483647) 5).1.inv 101).map
      (fun it => it.quantity) = some (-2147483599) ∧
    (-2147483599 : Int) ≠ 50 - (-2147483647) ∧
    (2147483647 : Int) < 50 - (-2147483647) := by
  decide

/-- C13, amended: in every state reached by API commands with at most
2147483646 admissions so far, an admission of `qty` units of item `i` at
priority `p` that passes the stock test, with the stock of `i` minus `qty` at
most 2147483647 (so for every `qty` from 0 on), succeeds, leaves the stock of
`i` decreased by exactly `qty` and its other fields as they were, leaves every
other item unchanged, makes the pending queue a permutation of its former orders
and one new order with quantity `qty`, priority `p`, the name and location of
item `i` and the counter as id, which is greater than the id of every order
admitted earlier and of every order held; the dispatch queue is unchanged and
the counter becomes the 32-bit successor of its value. -/
theorem admission_reserves_and_enqueues (st : AppState) (ids : List Int) (i qty p : Int)
    (item : Item) (hr : ApiReach st ids) (hfew : ids.length ≤ 2147483646)
    (hitem : getItem st.inv i = some item)
    (hstock : hasStock st.inv i qty = true) (hfit : item.quantity - qty ≤ 2147483647) :
    (apiAddOrder st i qty p).2 = ⟨"success", "Order placed"⟩ ∧
    getItem (apiAddOrder st i qty p).1.inv i
      = some { item with quantity := item.quantity - qty } ∧
    (∀ j, j ≠ i → getItem (apiAddOrder st i qty p).1.inv j = getItem st.inv j) ∧
    (apiAddOrder st i qty p).1.om.orderHeap.Perm
      (⟨st.orderCounter, p, item.name, qty, item.locationNode⟩ :: st.om.orderHeap) ∧
    (∀ k ∈ ids, k < st.orderCounter) ∧
    (∀ o ∈ heldOrders st.om, o.id < st.orderCounter) ∧
    (apiAddOrder st i qty p).1.om.dispatchQueue = st.om.dispatchQueue ∧
    (apiAddOrder st i qty p).1.orderCounter = wrapInt (st.orderCounter + 1) := by
  obtain ⟨i1, i2⟩ := apiReach_inv st ids hr
  obtain ⟨_, j2, j3⟩ := i2 hfew
  rw [apiAddOrder_admitted st i qty p item hitem hstock]
  dsimp only
  obtain ⟨u1, u2⟩ := updateStock_item st.inv i (wrapInt (-qty)) item hitem
  have hge : qty ≤ item.quantity := by
    rw [hasStock_item st.inv i qty item hitem] at hstock
    simpa using hstock
  have hw : wrapInt (item.quantity + wrapInt (-qty)) = item.quantity - qty := by
    unfold wrapInt
    omega
  rw [hw] at u1
  refine ⟨rfl, u1, u2, ?_, j3, j2.2, rfl, rfl⟩
  exact (heap_after_push st.om.orderHeap _ i1).2

/-- Witness of C13: after `ADD_ORDER 101 10 5` in the seeded state, the admission
`ADD_ORDER 102 1 9` takes one mouse from the stock of 100 and enqueues order 2. -/
theorem admission_reserves_and_enqueues_witness :
    ApiReach oneOrderState [1] ∧
    getItem oneOrderState.inv 102 = some ⟨102, "Mouse", 100, 3⟩ ∧
    hasStock oneOrderState.inv 102 1 = true ∧
    getItem (apiAddOrder oneOrderState 102 1 9).1.inv 102 = some ⟨102, "Mouse", 99, 3⟩ ∧
    (apiAddOrder oneOrderState 102 1 9).1.om.orderHeap.Perm
      (⟨2, 9, "Mouse", 1, 3⟩ :: oneOrderState.om.orderHeap) ∧
    (∀ k ∈ [1], k < oneOrderState.orderCounter) :=
  have hreach : ApiReach oneOrderState [1] :=
    ApiReach.add 101 10 5 (ApiReach.init (setupInventory ⟨[]⟩) (setupWarehouse ⟨[]⟩))
  have hthm := admission_reserves_and_enqueues oneOrderState [1] 102 1 9
    ⟨102, "Mouse", 100, 3⟩ hreach (by decide) (by decide) (by decide) (by decide)
  ⟨hreach, by decide, by decide, hthm.2.1, hthm.2.2.2.1, hthm.2.2.2.2.1⟩

/-- C14: for every graph and every non-empty pending queue that is a max-heap
(as it is in every reachable state), when no path joins node 0 to the location
of the order `processNextOrder` pops (a pending order of the highest priority),
the call returns for every sufficient fuel, and it leaves the pending queue a
permutation of what it was, still a max-heap, the dispatch queue unchanged, and
the priorities `getPendingOrders` lists the same in the same order. -/
theorem process_unreachable_keeps_state (graph : WarehouseGraph) (om : OrderManager)
    (hheap : IsMaxHeap om.orderHeap) (hne : om.orderHeap ≠ [])
    (hun : ¬ ∃ p c, IsPath graph 0 (currentOrder om).itemLocationNode p c) :
    currentOrder om ∈ om.orderHeap ∧
    (∀ o ∈ om.orderHeap, o.priority ≤ (currentOrder om).priority) ∧
    ∃ N, ∀ fuel, N ≤ fuel →
      ∃ om2, processNextOrder om graph fuel = some om2 ∧
        om2.orderHeap.Perm om.orderHeap ∧
        IsMaxHeap om2.orderHeap ∧
        om2.dispatchQueue = om.dispatchQueue ∧
        (getPendingOrders om2).1.map (fun o => o.priority)
          = (getPendingOrders om).1.map (fun o => o.priority) := by
  obtain ⟨c1, c2, c3, c4⟩ := heap_after_pop om.orderHeap hheap hne
  have hcur : currentOrder om = nth om.orderHeap 0 := c3
  have hpos : 0 < om.orderHeap.length := List.length_pos.mpr hne
  refine ⟨?_, ?_, ?_⟩
  · rw [hcur, nth_eq_getElem _ _ hpos]
    exact List.getElem_mem hpos
  · intro o ho
    rw [hcur]
    exact c4 o ho
  · obtain ⟨N, hN⟩ := getShortestPath_unreachable graph 0
      (currentOrder om).itemLocationNode hun
    refine ⟨N, fun fuel hf => ?_⟩
    obtain ⟨d1, d2⟩ := heap_after_push _ (currentOrder om) c1
    refine ⟨_, process_route_missing graph om fuel hne _ (hN fuel hf) rfl, d2.trans c2, d1, rfl,
      ?_⟩
    have s1 := getPendingOrders_perm_sorted
      ⟨push_heap ((pop_heap om.orderHeap).dropLast ++ [currentOrder om]), om.dispatchQueue⟩ d1
    have s2 := getPendingOrders_perm_sorted om hheap
    exact sorted_prios_eq _ _ (s1.1.trans ((d2.trans c2).trans s2.1.symm)) s1.2 s2.2

/-- Witness of C14: the single-aisle warehouse with the laptop order, stored at
node 7, as the only pending order. -/
theorem process_unreachable_keeps_state_witness :
    IsMaxHeap strandedState.om.orderHeap ∧
    strandedState.om.orderHeap = [⟨1, 5, "Laptop", 10, 7⟩] ∧
    (¬ ∃ p c, IsPath singleAisle 0 7 p c) ∧
    ∃ N, ∀ fuel, N ≤ fuel →
      ∃ om2, processNextOrder strandedState.om singleAisle fuel = some om2 ∧
        om2.orderHeap.Perm strandedState.om.orderHeap ∧
        IsMaxHeap om2.orderHeap ∧
        om2.dispatchQueue = strandedState.om.dispatchQueue ∧
        (getPendingOrders om2).1.map (fun o => o.priority)
          = (getPendingOrders strandedState.om).1.map (fun o => o.priority) :=
  have hheap : IsMaxHeap strandedState.om.orderHeap := by
    intro i hi0 hil
    have e : strandedState.om.orderHeap.length = 1 := by decide
    omega
  ⟨hheap, by decide, singleAisle_no_route,
    (process_unreachable_keeps_state singleAisle strandedState.om hheap (by decide)
      singleAisle_no_route).2.2⟩

/-- C15 on the code: whenever the pending queue (a max-heap) is not empty and no
path joins node 0 to the location of the order popped, `PROCESS` returns for
every sufficient fuel with the pending orders and the dispatch queue as they
were, and with one more record, of type `PROCESS_ORDER`, on the ledger. In the
single-aisle warehouse with the laptop order pending, `PROCESS` leaves the order
pending, the dispatch queue empty, and the ledger one record longer. -/
theorem failed_process_writes_ledger :
    (∀ (st : AppState), IsMaxHeap st.om.orderHeap → st.om.orderHeap ≠ [] →
      (¬ ∃ p c, IsPath st.graph 0 (currentOrder st.om).itemLocationNode p c) →
      ∃ N, ∀ fuel, N ≤ fuel →
        ∃ st2 top r, apiProcess st fuel = some (st2, r) ∧
          st2.hist.history
            = ⟨ActionType.PROCESS_ORDER, top, 0, 0, 0⟩ :: st.hist.history ∧
          st2.om.dispatchQueue = st.om.dispatchQueue ∧
          st2.om.orderHeap.Perm st.om.orderHeap) ∧
    strandedState.graph = singleAisle ∧
    strandedState.om = ⟨[⟨1, 5, "Laptop", 10, 7⟩], []⟩ ∧
    (¬ ∃ p c, IsPath singleAisle 0 7 p c) ∧
    (apiProcess strandedState 50).map (fun r => r.1.om)
      = some ⟨[⟨1, 5, "Laptop", 10, 7⟩], []⟩ ∧
    (apiProcess strandedState 50).map (fun r => r.1.hist.history)
      = some (⟨ActionType.PROCESS_ORDER, 1, 0, 0, 0⟩ :: strandedState.hist.history) ∧
    (apiProcess strandedState 50).map (fun r => r.1.hist.history.length)
      = some (strandedState.hist.history.length + 1) := by
  refine ⟨?_, by decide, by decide, singleAisle_no_route, by decide, by decide, by decide⟩
  intro st hheap hne hun
  obtain ⟨N, hN⟩ := apiProcess_unreachable st hheap hne hun
  refine ⟨N, fun fuel hf => ?_⟩
  obtain ⟨st2, top, h1, h2, h3, h4⟩ := hN fuel hf
  exact ⟨st2, top, _, h1, h2, h3, h4⟩

/-- C16: for every state whose pending queue is a non-empty max-heap, when the
route search from node 0 to the location of the order popped returns a cost
other than -1, `PROCESS` succeeds and moves that order to the tail of the
dispatch queue, and the `UNDO` that follows succeeds and returns the same order
to the pending queue: the pending queue is a permutation of what it was before
`PROCESS`, and the dispatch queue, the ledger, the inventory, the graph and the
counter are what they were. Under the preconditions of the route search this
happens, with enough fuel, whenever a path joins node 0 to that location. -/
theorem process_then_undo_restores (st : AppState) (hheap : IsMaxHeap st.om.orderHeap)
    (hne : st.om.orderHeap ≠ []) :
    (∀ fuel result,
      getShortestPath st.graph fuel 0 (currentOrder st.om).itemLocationNode = some result →
      result.1 ≠ -1 →
      ∃ st1, apiProcess st fuel = some (st1, ⟨"success", "Processed"⟩) ∧
        st1.om.dispatchQueue = st.om.dispatchQueue ++ [currentOrder st.om] ∧
        (apiUndo st1).2 = ⟨"success", "Undid PROCESS (Returned to Queue)"⟩ ∧
        currentOrder st.om ∈ (apiUndo st1).1.om.orderHeap ∧
        (apiUndo st1).1.om.orderHeap.Perm st.om.orderHeap ∧
        (apiUndo st1).1.om.dispatchQueue = st.om.dispatchQueue ∧
        (apiUndo st1).1.hist = st.hist ∧
        (apiUndo st1).1.inv = st.inv ∧
        (apiUndo st1).1.graph = st.graph ∧
        (apiUndo st1).1.orderCounter = st.orderCounter) ∧
    (NonNegWeights st.graph → NoOverflow st.graph 0 →
      (∃ p c, IsPath st.graph 0 (currentOrder st.om).itemLocationNode p c) →
      ∃ N, ∀ fuel, N ≤ fuel →
        ∃ st1, apiProcess st fuel = some (st1, ⟨"success", "Processed"⟩) ∧
          st1.om.dispatchQueue = st.om.dispatchQueue ++ [currentOrder st.om] ∧
          (apiUndo st1).2 = ⟨"success", "Undid PROCESS (Returned to Queue)"⟩ ∧
          currentOrder st.om ∈ (apiUndo st1).1.om.orderHeap ∧
          (apiUndo st1).1.om.orderHeap.Perm st.om.orderHeap ∧
          (apiUndo st1).1.om.dispatchQueue = st.om.dispatchQueue ∧
          (apiUndo st1).1.hist = st.hist ∧
          (apiUndo st1).1.inv = st.inv ∧
          (apiUndo st1).1.graph = st.graph ∧
          (apiUndo st1).1.orderCounter = st.orderCounter) := by
  have main : ∀ fuel result,
      getShortestPath st.graph fuel 0 (currentOrder st.om).itemLocationNode = some result →
      result.1 ≠ -1 →
      ∃ st1, apiProcess st fuel = some (st1, ⟨"success", "Processed"⟩) ∧
        st1.om.dispatchQueue = st.om.dispatchQueue ++ [currentOrder st.om] ∧
        (apiUndo st1).2 = ⟨"success", "Undid PROCESS (Returned to Queue)"⟩ ∧
        currentOrder st.om ∈ (apiUndo st1).1.om.orderHeap ∧
        (apiUndo st1).1.om.orderHeap.Perm st.om.orderHeap ∧
        (apiUndo st1).1.om.dispatchQueue = st.om.dispatchQueue ∧
        (apiUndo st1).1.hist = st.hist ∧
        (apiUndo st1).1.inv = st.inv ∧
        (apiUndo st1).1.graph = st.graph ∧
        (apiUndo st1).1.orderCounter = st.orderCounter := by
    intro fuel result hres hc
    obtain ⟨c1, c2, _, _⟩ := heap_after_pop st.om.orderHeap hheap hne
    obtain ⟨_, d2⟩ := heap_after_push _ (currentOrder st.om) c1
    cases hp : (getPendingOrders st.om).1 with
    | nil => exact absurd hp (getPendingOrders_ne_nil st.om hheap hne)
    | cons top rest =>
      have hrun : apiProcess st fuel
          = some ({ st with
                      om := ⟨(pop_heap st.om.orderHeap).dropLast,
                        st.om.dispatchQueue ++ [currentOrder st.om]⟩
                      hist := logAction st.hist ⟨ActionType.PROCESS_ORDER, top.id, 0, 0, 0⟩ },
                  ⟨"success", "Processed"⟩) := by
        rw [apiProcess_top st fuel top rest hp,
          process_route_found st.graph st.om fuel hne result hres hc]
        rfl
      have hundo := performUndo_process
        { st with
            om := ⟨(pop_heap st.om.orderHeap).dropLast,
              st.om.dispatchQueue ++ [currentOrder st.om]⟩
            hist := logAction st.hist ⟨ActionType.PROCESS_ORDER, top.id, 0, 0, 0⟩ }
        top.id st.hist (pop_heap st.om.orderHeap).dropLast st.om.dispatchQueue
        (currentOrder st.om) rfl rfl
      refine ⟨_, hrun, rfl, ?_, ?_, ?_, ?_, ?_, ?_, ?_, ?_⟩
      all_goals unfold apiUndo
      all_goals rw [hundo]
      · exact d2.mem_iff.mpr (List.mem_cons_self _ _)
      · exact d2.trans c2
  refine ⟨main, ?_⟩
  intro hg hno hreach
  obtain ⟨N, hN⟩ := getShortestPath_spec st.graph 0 (currentOrder st.om).itemLocationNode hg hno
  refine ⟨N, fun fuel hf => ?_⟩
  rcases hN fuel hf with ⟨hnone, _⟩ | ⟨cost, path, hrun, _, _, h0, _⟩
  · exact absurd hreach hnone
  · exact main fuel (cost, path) hrun (by simp only; omega)

/-- Witness of C16: in the seeded state after `ADD_ORDER 101 10 5`, `PROCESS`
routes the order to node 7 at cost 11, and `UNDO` brings the state back. -/
theorem process_then_undo_restores_witness :
    IsMaxHeap oneOrderState.om.orderHeap ∧
    oneOrderState.om.orderHeap = [⟨1, 5, "Laptop", 10, 7⟩] ∧
    getShortestPath oneOrderState.graph 50 0 (currentOrder oneOrderState.om).itemLocationNode
      = some (11, [0, 1, 3, 7]) ∧
    ∃ st1, apiProcess oneOrderState 50 = some (st1, ⟨"success", "Processed"⟩) ∧
      st1.om.dispatchQueue = oneOrderState.om.dispatchQueue ++ [currentOrder oneOrderState.om] ∧
      (apiUndo st1).2 = ⟨"success", "Undid PROCESS (Returned to Queue)"⟩ ∧
      currentOrder oneOrderState.om ∈ (apiUndo st1).1.om.orderHeap ∧
      (apiUndo st1).1.om.orderHeap.Perm oneOrderState.om.orderHeap ∧
      (apiUndo st1).1.om.dispatchQueue = oneOrderState.om.dispatchQueue ∧
      (apiUndo st1).1.hist = oneOrderState.hist ∧
      (apiUndo st1).1.inv = oneOrderState.inv ∧
      (apiUndo st1).1.graph = oneOrderState.graph ∧
      (apiUndo st1).1.orderCounter = oneOrderState.orderCounter :=
  have hheap : IsMaxHeap oneOrderState.om.orderHeap := by
    intro i hi0 hil
    have e : oneOrderState.om.orderHeap.length = 1 := by decide
    omega
  ⟨hheap, by decide, by decide,
    (process_then_undo_restores oneOrderState hheap (by decide)).1 50 (11, [0, 1, 3, 7])
      (by decide) (by decide)⟩

/-- C17: for every manager, `dispatchNextOrder` on a dispatch queue with head `o`
removes `o`, keeps the rest in order and leaves the pending queue alone, so `n`
calls remove the first `n` orders, in the order in which `processNextOrder`
appended them; `revertProcess` on a dispatch queue with last element `o` returns
true, removes `o`, keeps the orders before it in order, and pushes `o` onto the
pending heap, which on a max-heap gives a permutation of the pending orders and
`o`; on an empty dispatch queue `revertProcess` returns false and changes
nothing. -/
theorem dispatch_head_revert_tail (om : OrderManager) :
    (∀ o rest, om.dispatchQueue = o :: rest →
      dispatchNextOrder om = ⟨om.orderHeap, rest⟩) ∧
    (∀ n, (dispatchNextOrder^[n] om).dispatchQueue = om.dispatchQueue.drop n ∧
      (dispatchNextOrder^[n] om).orderHeap = om.orderHeap) ∧
    (∀ front o, om.dispatchQueue = front ++ [o] →
      revertProcess om = (true, ⟨push_heap (om.orderHeap ++ [o]), front⟩) ∧
      (IsMaxHeap om.orderHeap →
        (revertProcess om).2.orderHeap.Perm (o :: om.orderHeap) ∧
        IsMaxHeap (revertProcess om).2.orderHeap)) ∧
    (om.dispatchQueue = [] → revertProcess om = (false, om)) ∧
    dispatchNextOrder ⟨[orderPrio3], [orderPrio9, orderPrio5]⟩
      = ⟨[orderPrio3], [orderPrio5]⟩ ∧
    revertProcess ⟨[orderPrio3], [orderPrio9, orderPrio5]⟩
      = (true, ⟨[orderPrio5, orderPrio3], [orderPrio9]⟩) := by
  have hdisp : ∀ (m : OrderManager) o rest, m.dispatchQueue = o :: rest →
      dispatchNextOrder m = ⟨m.orderHeap, rest⟩ := by
    intro m o rest h
    obtain ⟨heap, dq⟩ := m
    simp only at h
    subst h
    rfl
  have hempty : ∀ (m : OrderManager), m.dispatchQueue = [] → dispatchNextOrder m = m := by
    intro m h
    obtain ⟨heap, dq⟩ := m
    simp only at h
    subst h
    rfl
  refine ⟨hdisp om, ?_, ?_, revertProcess_empty om, by decide, by decide⟩
  · intro n
    induction n with
    | zero => exact ⟨rfl, rfl⟩
    | succ n ih =>
      rw [Function.iterate_succ_apply']
      obtain ⟨ih1, ih2⟩ := ih
      cases hq : (dispatchNextOrder^[n] om).dispatchQueue with
      | nil =>
        have e : dispatchNextOrder (dispatchNextOrder^[n] om) = dispatchNextOrder^[n] om :=
          hempty _ hq
        rw [e, ih2, hq]
        refine ⟨?_, rfl⟩
        rw [hq] at ih1
        have hlen : om.dispatchQueue.length ≤ n := List.drop_eq_nil_iff.mp ih1.symm
        exact (List.drop_eq_nil_iff.mpr (by omega)).symm
      | cons o rest =>
        rw [hdisp _ o rest hq]
        refine ⟨?_, ih2⟩
        simp only
        rw [hq] at ih1
        have : List.drop (n + 1) om.dispatchQueue = List.drop 1 (List.drop n om.dispatchQueue) := by
          rw [List.drop_drop]
        rw [this, ← ih1]
        rfl
  · intro front o h
    obtain ⟨heap, dq⟩ := om
    simp only at h
    subst h
    refine ⟨revertProcess_concat heap front o, ?_⟩
    intro hheap
    rw [revertProcess_concat]
    obtain ⟨d1, d2⟩ := heap_after_push heap o hheap
    exact ⟨d2, d1⟩

theorem add_undo_undo (c : Int) :
    (apiUndo (apiUndo (apiAddOrder (counterState c) 101 0 5).1).1).1
      = counterState (wrapInt (c + 1)) := by
  have hitem : getItem (counterState c).inv 101 = some ⟨101, "Laptop", 50, 7⟩ := rfl
  have hstock : hasStock (counterState c).inv 101 0 = true := rfl
  rw [apiAddOrder_admitted (counterState c) 101 0 5 ⟨101, "Laptop", 50, 7⟩ hitem hstock]
  have hinv : (updateStock (counterState c).inv 101 (wrapInt (-0))).2 = (counterState c).inv :=
    (by decide : (updateStock initialState.inv 101 (wrapInt (-0))).2 = initialState.inv)
  have hheap : (addOrder (counterState c).om
      (logAction (counterState c).hist ⟨ActionType.ADD_ORDER, c, 101, 0, 5⟩)
      ⟨c, 5, "Laptop", 0, 7⟩).1 = ⟨[⟨c, 5, "Laptop", 0, 7⟩], []⟩ := rfl
  have hhist : (addOrder (counterState c).om
      (logAction (counterState c).hist ⟨ActionType.ADD_ORDER, c, 101, 0, 5⟩)
      ⟨c, 5, "Laptop", 0, 7⟩).2
        = ⟨[⟨ActionType.ADD_ORDER, c, 0, 0, 5⟩, ⟨ActionType.ADD_ORDER, c, 101, 0, 5⟩]⟩ := rfl
  have hc : (counterState c).orderCounter = c := rfl
  simp only [hc, hinv, hheap, hhist]
  have hfind : findOrderIdx [(⟨c, 5, "Laptop", 0, 7⟩ : Order)] c = some 0 := by
    simp [findOrderIdx]
  have hrem : removeOrder ⟨[⟨c, 5, "Laptop", 0, 7⟩], []⟩ c = (true, ⟨[], []⟩) := by
    unfold removeOrder
    rw [hfind]
    rfl
  have hrem2 : removeOrder ⟨[], []⟩ c = (false, ⟨[], []⟩) := rfl
  have hup : (updateStock (counterState c).inv 0 0).2 = (counterState c).inv :=
    (by decide : (updateStock initialState.inv 0 0).2 = initialState.inv)
  have h1 : apiUndo
      { counterState c with
          inv := (counterState c).inv
          om := ⟨[⟨c, 5, "Laptop", 0, 7⟩], []⟩
          hist := ⟨[⟨ActionType.ADD_ORDER, c, 0, 0, 5⟩, ⟨ActionType.ADD_ORDER, c, 101, 0, 5⟩]⟩
          orderCounter := wrapInt (c + 1) }
      = ({ counterState c with
            hist := ⟨[⟨ActionType.ADD_ORDER, c, 101, 0, 5⟩]⟩
            orderCounter := wrapInt (c + 1) }, ⟨"success", "Undid ADD Order"⟩) := by
    unfold apiUndo performUndo
    simp only [hasActions, popLastAction, List.isEmpty_cons, Bool.not_false, Bool.not_true,
      hrem, hup]
    rfl
  have h2 : apiUndo
      { counterState c with
          hist := ⟨[⟨ActionType.ADD_ORDER, c, 101, 0, 5⟩]⟩
          orderCounter := wrapInt (c + 1) }
      = (counterState (wrapInt (c + 1)), ⟨"error", "Order not found (already processed?)"⟩) := by
    unfold apiUndo performUndo
    have hom : (counterState c).om = ⟨[], []⟩ := rfl
    simp only [hasActions, popLastAction, List.isEmpty_cons, Bool.not_false, Bool.not_true,
      hom, hrem2]
    rfl
  rw [h1]
  dsimp only
  rw [h2]

theorem counter_reach (n : Nat) (hn : n ≤ 2147483646) :
    ∃ ids, ApiReach (counterState (1 + (n : Int))) ids := by
  induction n with
  | zero => exact ⟨[], ApiReach.init (setupInventory ⟨[]⟩) (setupWarehouse ⟨[]⟩)⟩
  | succ n ih =>
    obtain ⟨ids, hr⟩ := ih (by omega)
    have hstep := ApiReach.undo (ApiReach.undo (ApiReach.add 101 0 5 hr))
    rw [add_undo_undo] at hstep
    have hw : wrapInt (1 + (n : Int) + 1) = 1 + ((n + 1 : Nat) : Int) := by
      rw [wrapInt_eq _ (by omega) (by omega)]
      push_cast
      omega
    rw [hw] at hstep
    exact ⟨_, hstep⟩

/-- C18 as stated fails on the code: the commands `ADD_ORDER 101 0 5`, `UNDO`,
`UNDO`, given 2147483646 times to the seeded state, leave it as it was but with
the counter at 2147483647; one more `ADD_ORDER 101 0 5` succeeds, the pending
order it adds has id 2147483647, and `orderCounter++` takes the counter to
-2147483648 in 32-bit arithmetic: the id of a held order is not below the
counter. -/
theorem held_id_above_wrapped_counter :
    (∀ c, (apiUndo (apiUndo (apiAddOrder (counterState c) 101 0 5).1).1).1
      = counterState (wrapInt (c + 1))) ∧
    counterState 1 = initialState ∧
    (∃ ids, ApiReach (counterState 2147483647) ids) ∧
    (∃ ids, ApiReach (apiAddOrder (counterState 2147483647) 101 0 5).1 ids) ∧
    (apiAddOrder (counterState 2147483647) 101 0 5).2 = ⟨"success", "Order placed"⟩ ∧
    (apiAddOrder (counterState 2147483647) 101 0 5).1.om.orderHeap
      = [⟨2147483647, 5, "Laptop", 0, 7⟩] ∧
    (apiAddOrder (counterState 2147483647) 101 0 5).1.orderCounter = -2147483648 := by
  obtain ⟨ids, hr⟩ := counter_reach 2147483646 (le_refl _)
  have e : (1 : Int) + ((2147483646 : Nat) : Int) = 2147483647 := by norm_num
  rw [e] at hr
  exact ⟨add_undo_undo, rfl, ⟨ids, hr⟩, ⟨_, ApiReach.add 101 0 5 hr⟩, by decide, by decide,
    by decide⟩

/-- C18, amended: in every state reached by API commands (`ADD_ORDER`, `PROCESS`,
`DISPATCH`, `UNDO`) with at most 2147483646 admissions, from a start state with
empty queues, empty ledger and counter 1, the ids of the orders in the pending
queue and the dispatch queue are pairwise distinct, within each queue and across
the two, and each is smaller than the counter, which is one more than the number
of admissions. -/
theorem held_ids_distinct_below_counter (st : AppState) (ids : List Int)
    (h : ApiReach st ids) (hfew : ids.length ≤ 2147483646) :
    ((st.om.orderHeap ++ st.om.dispatchQueue).map (fun o => o.id)).Nodup ∧
    (∀ a ∈ st.om.orderHeap, ∀ b ∈ st.om.dispatchQueue, a.id ≠ b.id) ∧
    (∀ o ∈ st.om.orderHeap ++ st.om.dispatchQueue, o.id < st.orderCounter) ∧
    st.orderCounter = 1 + (ids.length : Int) := by
  obtain ⟨_, hinv⟩ := apiReach_inv st ids h
  obtain ⟨j1, ⟨i1, i2⟩, _⟩ := hinv hfew
  unfold heldOrders at i1 i2
  refine ⟨i1, ?_, i2, j1⟩
  intro a ha b hb hab
  rw [List.map_append] at i1
  exact (List.nodup_append.mp i1).2.2 (List.mem_map_of_mem _ ha)
    (hab ▸ List.mem_map_of_mem _ hb)

/-- Witness of C18: the seeded state after `ADD_ORDER 101 10 5`,
`ADD_ORDER 102 1 9` and `PROCESS` holds order 1 pending and order 2 ready for
dispatch, with counter 3. -/
theorem held_ids_distinct_below_counter_witness :
    ApiReach processedState [2, 1] ∧
    processedState.om = ⟨[⟨1, 5, "Laptop", 10, 7⟩], [⟨2, 9, "Mouse", 1, 3⟩]⟩ ∧
    processedState.orderCounter = 3 ∧
    ((processedState.om.orderHeap ++ processedState.om.dispatchQueue).map
      (fun o => o.id)).Nodup ∧
    (∀ o ∈ processedState.om.orderHeap ++ processedState.om.dispatchQueue,
      o.id < processedState.orderCounter) :=
  have hreach : ApiReach processedState [2, 1] :=
    ApiReach.process 50
      (ApiReach.add 102 1 9
        (ApiReach.add 101 10 5 (ApiReach.init (setupInventory ⟨[]⟩) (setupWarehouse ⟨[]⟩))))
      (by decide : apiProcess twoOrdersState 50
        = some (processedState, ⟨"success", "Processed"⟩))
  ⟨hreach, by decide, by decide,
    (held_ids_distinct_below_counter processedState [2, 1] hreach (by decide)).1,
    (held_ids_distinct_below_counter processedState [2, 1] hreach (by decide)).2.2.1⟩

/-- C19: for every state whose dispatch queue is empty, `dispatchNextOrder`
returns the manager unchanged, and the `DISPATCH` command that calls it returns
the state unchanged: pending queue, dispatch queue, ledger, inventory, graph and
counter. -/
theorem dispatch_on_empty_changes_nothing (st : AppState) (h : st.om.dispatchQueue = []) :
    dispatchNextOrder st.om = st.om ∧ (apiDispatch st).1 = st := by
  have e : dispatchNextOrder st.om = st.om := by
    unfold dispatchNextOrder
    rw [h]
  refine ⟨e, ?_⟩
  unfold apiDispatch
  rw [e]

/-- Witness of C19: the seeded state, whose dispatch queue is empty. -/
theorem dispatch_on_empty_changes_nothing_witness :
    initialState.om.dispatchQueue = [] ∧
    dispatchNextOrder initialState.om = initialState.om ∧
    (apiDispatch initialState).1 = initialState :=
  ⟨rfl, dispatch_on_empty_changes_nothing initialState rfl⟩

/-- C20 on the code: `DISPATCH` replies success in every state; in the seeded
state, whose dispatch queue is empty, it replies success and changes nothing.
`PROCESS` replies success whenever the pending queue (a max-heap) is not empty,
also when no path joins node 0 to the location of the order popped and no order
moves; in the single-aisle warehouse with the laptop order pending it replies
success and the dispatch queue stays empty. -/
theorem reply_success_without_transition :
    (∀ st : AppState, (apiDispatch st).2 = ⟨"success", "Dispatched"⟩) ∧
    initialState.om.dispatchQueue = [] ∧
    apiDispatch initialState = (initialState, ⟨"success", "Dispatched"⟩) ∧
    (∀ (st : AppState), IsMaxHeap st.om.orderHeap → st.om.orderHeap ≠ [] →
      (¬ ∃ p c, IsPath st.graph 0 (currentOrder st.om).itemLocationNode p c) →
      ∃ N, ∀ fuel, N ≤ fuel →
        ∃ st2, apiProcess st fuel = some (st2, ⟨"success", "Processed"⟩) ∧
          st2.om.dispatchQueue = st.om.dispatchQueue) ∧
    (¬ ∃ p c, IsPath strandedState.graph 0 7 p c) ∧
    (apiProcess strandedState 50).map (fun r => (r.2, r.1.om.dispatchQueue))
      = some (⟨"success", "Processed"⟩, []) := by
  refine ⟨fun st => rfl, rfl, by decide, ?_, singleAisle_no_route, by decide⟩
  intro st hheap hne hun
  obtain ⟨N, hN⟩ := apiProcess_unreachable st hheap hne hun
  refine ⟨N, fun fuel hf => ?_⟩
  obtain ⟨st2, top, h1, _, h3, _⟩ := hN fuel hf
  exact ⟨st2, h1, h3⟩

/-! ## Undo and the ledger: claims C21, C22 and C26 -/

theorem popLastAction_rest (h : ActionHistory) :
    (popLastAction h).2.history = h.history.tail := by
  obtain ⟨history⟩ := h
  cases history <;> rfl

theorem performUndo_hist (st : AppState) :
    (performUndo st).1.hist.history = st.hist.history.tail := by
  have hp := popLastAction_rest st.hist
  unfold performUndo
  by_cases h : (!hasActions st.hist) = true
  · rw [if_pos h]
    have he : st.hist.history = [] := by
      unfold hasActions at h
      simpa using h
    show st.hist.history = st.hist.history.tail
    rw [he]
    rfl
  · rw [if_neg h]
    dsimp only
    split
    · split <;> exact hp
    · split <;> exact hp
    · exact hp

theorem performUndo_inv (st : AppState) :
    (performUndo st).1.inv = st.inv ∨
    ∃ k c, (performUndo st).1.inv = (updateStock st.inv k c).2 := by
  unfold performUndo
  by_cases h : (!hasActions st.hist) = true
  · rw [if_pos h]
    exact Or.inl rfl
  · rw [if_neg h]
    dsimp only
    split
    · split
      · exact Or.inr ⟨_, _, rfl⟩
      · exact Or.inl rfl
    · split
      · exact Or.inl rfl
      · exact Or.inl rfl
    · exact Or.inl rfl

theorem findOrderIdx_absent (x : Int) (l : List Order) (h : ∀ o ∈ l, o.id ≠ x) :
    findOrderIdx l x = none := by
  cases hf : findOrderIdx l x with
  | none => rfl
  | some i =>
    obtain ⟨o, ho, hid, _⟩ := findOrderIdx_some x l i hf
    exact absurd hid (h o ho)

theorem apiProcess_frame (st st2 : AppState) (r : Reply) (fuel : Nat)
    (hheap : IsMaxHeap st.om.orderHeap) (h : apiProcess st fuel = some (st2, r)) :
    st2.inv = st.inv ∧
    (st2.hist = st.hist ∨
      ∃ top, top ∈ st.om.orderHeap ∧
        st2.hist = logAction st.hist ⟨ActionType.PROCESS_ORDER, top.id, 0, 0, 0⟩) := by
  cases hp : (getPendingOrders st.om).1 with
  | nil =>
    rw [apiProcess_empty st fuel hp] at h
    simp only [Option.some.injEq, Prod.mk.injEq] at h
    obtain ⟨h1, _⟩ := h
    subst h1
    exact ⟨rfl, Or.inl rfl⟩
  | cons top rest =>
    rw [apiProcess_top st fuel top rest hp] at h
    cases hq : processNextOrder st.om st.graph fuel with
    | none => rw [hq] at h; cases h
    | some om1 =>
      rw [hq] at h
      simp only [Option.map_some', Option.some.injEq, Prod.mk.injEq] at h
      obtain ⟨h1, _⟩ := h
      subst h1
      refine ⟨rfl, Or.inr ⟨top, ?_, rfl⟩⟩
      have hm : top ∈ (getPendingOrders st.om).1 := by
        rw [hp]
        exact List.mem_cons_self _ _
      exact (getPendingOrders_perm_sorted st.om hheap).1.subset hm

theorem updateStock_keys (inv : InventoryManager) (k c j : Int) :
    getItem (updateStock inv k c).2 j = none ↔ getItem inv j = none := by
  cases hk : getItem inv k with
  | none =>
    have e : (updateStock inv k c).2 = inv := by
      unfold getItem at hk
      unfold updateStock
      rw [hk]
    rw [e]
  | some item =>
    obtain ⟨u1, u2⟩ := updateStock_item inv k c item hk
    by_cases hjk : j = k
    · subst hjk
      rw [u1, hk]
      simp
    · rw [u2 j hjk]

theorem apiReach_no_dummy (st : AppState) (ids : List Int) (h : ApiReach st ids) :
    getItem st.inv (-1) = none →
      ∀ r ∈ st.hist.history, r ≠ ⟨ActionType.ADD_ORDER, -1, -1, 0, 0⟩ := by
  induction h with
  | init inv graph =>
    intro _ r hr
    simp at hr
  | @add st ids id qty prio hprev ih =>
    by_cases ha : admits st id qty = true
    · obtain ⟨item, hitem, hstock⟩ := admits_item st id qty ha
      rw [apiAddOrder_admitted st id qty prio item hitem hstock]
      dsimp only
      intro hnone r hr
      have hnone0 : getItem st.inv (-1) = none := (updateStock_keys _ _ _ _).mp hnone
      unfold addOrder logAction at hr
      simp only [List.mem_cons] at hr
      rcases hr with rfl | rfl | hr
      · intro heq
        have := congrArg ActionRecord.itemId heq
        simp at this
      · intro heq
        have hid : id = -1 := congrArg ActionRecord.itemId heq
        rw [hid, hnone0] at hitem
        cases hitem
      · exact ih hnone0 r hr
    · have ha2 : admits st id qty = false := by simpa using ha
      rw [apiAddOrder_rejected st id qty prio ha2]
      exact ih
  | @process st st2 ids r fuel hprev hp ih =>
    obtain ⟨hheap, _⟩ := apiReach_inv st ids hprev
    obtain ⟨f1, f2⟩ := apiProcess_frame st st2 r fuel hheap hp
    rw [f1]
    intro hnone
    rcases f2 with f2 | ⟨top, _, f2⟩
    · rw [f2]
      exact ih hnone
    · rw [f2]
      intro r hr
      unfold logAction at hr
      simp only [List.mem_cons] at hr
      rcases hr with rfl | hr
      · intro heq
        have := congrArg ActionRecord.type heq
        cases this
      · exact ih hnone r hr
  | @dispatch st ids _ ih =>
    unfold apiDispatch
    exact ih
  | @undo st ids _ ih =>
    have e4 := performUndo_hist st
    unfold apiUndo
    intro hnone r hr
    rw [e4] at hr
    refine ih ?_ r (List.mem_of_mem_tail hr)
    rcases performUndo_inv st with e | ⟨k, c, e⟩
    · rw [e] at hnone
      exact hnone
    · rw [e] at hnone
      exact (updateStock_keys _ _ _ _).mp hnone

/-- C21: for every state whose ledger is empty, `performUndo` replies
"Nothing to undo" and returns the whole state unchanged (ledger, pending queue,
dispatch queue, inventory); on the empty ledger `hasActions` is false and
`popLastAction` returns the dummy record with order id -1 and item id -1 and
leaves the ledger empty. The dummy record tells the empty ledger apart: in
every state reached by API commands whose inventory has no item with id -1, as
the seeded inventory has none, no record on the ledger equals it, since an
`ADD_ORDER` record carries item id 0 or the id of an inventory item, and
`popLastAction` returns the dummy record exactly when the ledger is empty. -/
theorem undo_on_empty_ledger (st : AppState) (h : st.hist.history = []) :
    performUndo st = (st, ⟨"error", "Nothing to undo"⟩) ∧
    hasActions st.hist = false ∧
    popLastAction st.hist = (⟨ActionType.ADD_ORDER, -1, -1, 0, 0⟩, st.hist) ∧
    (popLastAction st.hist).2.history = [] ∧
    getItem initialState.inv (-1) = none ∧
    (∀ st2 ids, ApiReach st2 ids → getItem st2.inv (-1) = none →
      (∀ r ∈ st2.hist.history, r ≠ ⟨ActionType.ADD_ORDER, -1, -1, 0, 0⟩) ∧
      ((popLastAction st2.hist).1 = ⟨ActionType.ADD_ORDER, -1, -1, 0, 0⟩ ↔
        st2.hist.history = [])) := by
  obtain ⟨inv, om, graph, ⟨history⟩, ctr⟩ := st
  simp only at h
  subst h
  refine ⟨rfl, rfl, rfl, rfl, by decide, ?_⟩
  intro st2 ids hr hnone
  have hno := apiReach_no_dummy st2 ids hr hnone
  refine ⟨hno, ?_⟩
  obtain ⟨inv2, om2, graph2, ⟨history2⟩, ctr2⟩ := st2
  cases history2 with
  | nil => exact ⟨fun _ => rfl, fun _ => rfl⟩
  | cons r rest =>
    constructor
    · intro heq
      exact absurd heq (hno r (List.mem_cons_self _ _))
    · intro heq
      cases heq

/-- Witness of C21: the seeded state, whose ledger is empty. -/
theorem undo_on_empty_ledger_witness :
    initialState.hist.history = [] ∧
    performUndo initialState = (initialState, ⟨"error", "Nothing to undo"⟩) ∧
    popLastAction initialState.hist = (⟨ActionType.ADD_ORDER, -1, -1, 0, 0⟩, ⟨[]⟩) :=
  ⟨rfl, (undo_on_empty_ledger initialState rfl).1,
    (undo_on_empty_ledger initialState rfl).2.2.1⟩

/-- C22: for every state whose top ledger record is an `ADD_ORDER` record for an
order id that no pending order has, `performUndo` replies "Order not found
(already processed?)", removes that one record from the ledger and changes
nothing else: inventory, pending queue, dispatch queue, graph and counter are
what they were. -/
theorem undo_add_not_pending (st : AppState) (r : ActionRecord) (rest : List ActionRecord)
    (hh : st.hist.history = r :: rest) (ht : r.type = ActionType.ADD_ORDER)
    (hn : ∀ o ∈ st.om.orderHeap, o.id ≠ r.orderId) :
    performUndo st
      = ({ st with hist := ⟨rest⟩ }, ⟨"error", "Order not found (already processed?)"⟩) ∧
    (performUndo st).1.inv = st.inv ∧
    (performUndo st).1.om = st.om ∧
    (performUndo st).1.hist.history = rest := by
  have hf := findOrderIdx_absent r.orderId st.om.orderHeap hn
  have key : performUndo st
      = ({ st with hist := ⟨rest⟩ }, ⟨"error", "Order not found (already processed?)"⟩) := by
    obtain ⟨inv, om, graph, ⟨history⟩, ctr⟩ := st
    simp only at hh hf
    subst hh
    unfold performUndo
    simp only [hasActions, popLastAction, List.isEmpty_cons, Bool.not_false, Bool.not_true, ht,
      removeOrder, hf]
    rfl
  rw [key]
  exact ⟨rfl, rfl, rfl, rfl⟩

/-- Witness of C22: after `ADD_ORDER 101 10 5` and `UNDO` in the seeded state
the ledger still holds the record of the `ADD_ORDER` branch while order 1 is no
longer pending; the next `UNDO` consumes the record and leaves the stock at 40. -/
theorem undo_add_not_pending_witness :
    undoneState.hist.history = [⟨ActionType.ADD_ORDER, 1, 101, 10, 5⟩] ∧
    undoneState.om.orderHeap = [] ∧
    (performUndo undoneState).2 = ⟨"error", "Order not found (already processed?)"⟩ ∧
    (performUndo undoneState).1.inv = undoneState.inv ∧
    (performUndo undoneState).1.om = undoneState.om ∧
    (performUndo undoneState).1.hist.history = [] ∧
    (getItem (performUndo undoneState).1.inv 101).map (fun it => it.quantity) = some 40 :=
  have hthm := undo_add_not_pending undoneState ⟨ActionType.ADD_ORDER, 1, 101, 10, 5⟩ []
    (by decide) rfl (by decide)
  ⟨by decide, by decide, by rw [hthm.1], hthm.2.1, hthm.2.2.1, hthm.2.2.2, by decide⟩

theorem popN_logAll (rs : List ActionRecord) :
    ∀ (h : ActionHistory), popN rs.length (logAll h rs) = (rs.reverse, h) := by
  induction rs using List.reverseRecOn with
  | nil => intro h; rfl
  | append_singleton rs r ih =>
    intro h
    have e : logAll h (rs ++ [r]) = logAction (logAll h rs) r := by
      unfold logAll
      rw [List.foldl_append]
      rfl
    rw [e, List.length_append, List.length_singleton, List.reverse_append]
    simp only [popN]
    have e2 : popLastAction (logAction (logAll h rs) r) = (r, logAll h rs) := rfl
    rw [e2]
    simp only [ih h]
    rfl

/-- C26: for every ledger `L` and every sequence of records, logging the records
with `logAction`, the first one first, and then calling `popLastAction` as many
times returns the records in reverse order and leaves the ledger equal to `L`;
`logAction` followed by `popLastAction` returns the record itself, with its five
fields, and the former ledger. -/
theorem ledger_is_lifo (L : ActionHistory) (rs : List ActionRecord) :
    popN rs.length (logAll L rs) = (rs.reverse, L) ∧
    (∀ r, popLastAction (logAction L r) = (r, L)) ∧
    (∀ t o i q p, (popLastAction (logAction L ⟨t, o, i, q, p⟩)).1 = ⟨t, o, i, q, p⟩) ∧
    popN 3 (logAll ⟨[⟨ActionType.DISPATCH_ORDER, 9, 0, 0, 0⟩]⟩
        [⟨ActionType.ADD_ORDER, 1, 101, 10, 5⟩, ⟨ActionType.ADD_ORDER, 2, 102, 1, 9⟩,
          ⟨ActionType.PROCESS_ORDER, 2, 0, 0, 0⟩])
      = ([⟨ActionType.PROCESS_ORDER, 2, 0, 0, 0⟩, ⟨ActionType.ADD_ORDER, 2, 102, 1, 9⟩,
          ⟨ActionType.ADD_ORDER, 1, 101, 10, 5⟩],
        ⟨[⟨ActionType.DISPATCH_ORDER, 9, 0, 0, 0⟩]⟩) :=
  ⟨popN_logAll rs L, fun _ => rfl, fun _ _ _ _ _ => rfl, by decide⟩

/-! ## The route resolver and its graph object: claim C25 -/

theorem dijkstraLoopAdj_eq (g : WarehouseGraph) (e : Int) :
    ∀ (fuel : Nat) (st : DState),
      dijkstraLoopAdj e fuel g.adj st
        = (dijkstraLoop g e fuel st).map (fun st2 => (g.adj, st2)) := by
  intro fuel
  induction fuel with
  | zero => intro st; rfl
  | succ fuel ih =>
    intro st
    simp only [dijkstraLoopAdj, dijkstraLoop]
    cases hpq : pqTop st.pq with
    | none => rfl
    | some top =>
      obtain ⟨d, u⟩ := top
      simp only
      split
      · exact ih _
      · split
        · rfl
        · cases hadj : mapFind g.adj u with
          | none =>
            simp only [Option.isSome_none, Bool.false_eq_true, if_false]
            exact ih _
          | some edges =>
            have ha : adjAt g.adj u = (edges, g.adj) := by
              unfold adjAt
              rw [hadj]
            simp only [Option.isSome_some, if_true, ha]
            exact ih _

theorem getShortestPathAdj_eq (g : WarehouseGraph) (fuel : Nat) (s e : Int) :
    getShortestPathAdj g fuel s e = (getShortestPath g fuel s e).map (fun r => (r, g)) := by
  unfold getShortestPathAdj getShortestPath
  rw [dijkstraLoopAdj_eq]
  cases dijkstraLoop g e fuel ⟨initDist g s e, [], [(0, s)]⟩ with
  | none => rfl
  | some st =>
    simp only [Option.map_some']
    split
    · rfl
    · cases walkParents st.parent s fuel e [] <;> rfl

theorem walkParents_mono (parent : List (Int × Int)) (s : Int) :
    ∀ (fuel : Nat) (curr : Int) (path res : List Int),
      walkParents parent s fuel curr path = some res →
      ∀ k, walkParents parent s (fuel + k) curr path = some res := by
  intro fuel
  induction fuel with
  | zero => intro curr path res h; simp [walkParents] at h
  | succ fuel ih =>
    intro curr path res h k
    have hk : fuel + 1 + k = (fuel + k) + 1 := by omega
    rw [hk]
    simp only [walkParents] at h ⊢
    split
    · rename_i hc
      rw [if_pos hc] at h
      exact h
    · rename_i hc
      rw [if_neg hc] at h
      cases hp : mapFind parent curr with
      | none => rw [hp] at h; exact h
      | some p => rw [hp] at h; exact ih _ _ _ h k

theorem getShortestPath_mono (g : WarehouseGraph) (s e : Int) (fuel : Nat)
    (r : Int × List Int) (h : getShortestPath g fuel s e = some r) :
    ∀ k, getShortestPath g (fuel + k) s e = some r := by
  intro k
  unfold getShortestPath at h ⊢
  cases hd : dijkstraLoop g e fuel ⟨initDist g s e, [], [(0, s)]⟩ with
  | none => rw [hd] at h; cases h
  | some st =>
    rw [hd] at h
    rw [dijkstraLoop_mono g e _ _ _ hd k]
    simp only at h ⊢
    split
    · rename_i hc
      rw [if_pos hc] at h
      exact h
    · rename_i hc
      rw [if_neg hc] at h
      cases hw : walkParents st.parent s fuel e [] with
      | none => rw [hw] at h; cases h
      | some path =>
        rw [hw] at h
        rw [walkParents_mono _ _ _ _ _ _ hw k]
        exact h

theorem negLoop_walk (fuel : Nat) :
    ∀ path, walkParents [(2, 3), (3, 2), (1, 3)] 0 fuel 3 path = none ∧
      walkParents [(2, 3), (3, 2), (1, 3)] 0 fuel 2 path = none := by
  induction fuel with
  | zero => intro path; exact ⟨rfl, rfl⟩
  | succ fuel ih =>
    intro path
    refine ⟨?_, ?_⟩
    · have e : walkParents [(2, 3), (3, 2), (1, 3)] 0 (fuel + 1) 3 path
          = walkParents [(2, 3), (3, 2), (1, 3)] 0 fuel 2 (path ++ [3]) := rfl
      rw [e]
      exact (ih _).2
    · have e : walkParents [(2, 3), (3, 2), (1, 3)] 0 (fuel + 1) 2 path
          = walkParents [(2, 3), (3, 2), (1, 3)] 0 fuel 3 (path ++ [2]) := rfl
      rw [e]
      exact (ih _).1

theorem negLoop_search (k : Nat) :
    dijkstraLoop negLoopGraph 1 (4 + k) ⟨initDist negLoopGraph 0 1, [], [(0, 0)]⟩
      = some ⟨[(0, 0), (2, -1), (3, 0), (1, -1)], [(2, 3), (3, 2), (1, 3)], [(-1, 2)]⟩ :=
  dijkstraLoop_mono negLoopGraph 1 4 _ _ (by decide) k

theorem negLoop_never_returns (fuel : Nat) : getShortestPath negLoopGraph fuel 0 1 = none := by
  by_cases hf : fuel < 4
  · rcases (show fuel = 0 ∨ fuel = 1 ∨ fuel = 2 ∨ fuel = 3 by omega) with rfl | rfl | rfl | rfl
      <;> decide
  · obtain ⟨k, rfl⟩ := Nat.exists_eq_add_of_le (show 4 ≤ fuel by omega)
    unfold getShortestPath
    rw [negLoop_search k]
    have hne : ¬ mapGet [(0, 0), (2, -1), (3, 0), (1, -1)] 1 = INT_MAX := by decide
    simp only [if_neg hne]
    have e : walkParents [(2, 3), (3, 2), (1, 3)] 0 (4 + k) 1 []
        = walkParents [(2, 3), (3, 2), (1, 3)] 0 (3 + k) 3 ([] ++ [1]) := by
      have h4 : 4 + k = (3 + k) + 1 := by omega
      rw [h4]
      rfl
    rw [e, (negLoop_walk (3 + k) _).1]

/-- C25 as stated fails on the code: in the graph built by `addEdge(0, 2, 1)`,
`addEdge(2, 3, -1)`, `addEdge(3, 1, -1)` the search from 0 to 1 ends with
parent[1] = 3, parent[3] = 2 and parent[2] = 3, and the path reconstruction
walks 1, 3, 2, 3, 2, ... without reaching node 0: whatever the fuel, the call
returns nothing, neither a cost nor a path. -/
theorem route_search_never_returns :
    negLoopGraph.adj = [(0, [(2, 1)]), (2, [(0, 1), (3, -1)]), (3, [(2, -1), (1, -1)]),
      (1, [(3, -1)])] ∧
    dijkstraLoop negLoopGraph 1 4 ⟨initDist negLoopGraph 0 1, [], [(0, 0)]⟩
      = some ⟨[(0, 0), (2, -1), (3, 0), (1, -1)], [(2, 3), (3, 2), (1, 3)], [(-1, 2)]⟩ ∧
    (∀ fuel, getShortestPath negLoopGraph fuel 0 1 = none) ∧
    (∀ fuel, getShortestPathAdj negLoopGraph fuel 0 1 = none) := by
  refine ⟨by decide, by decide, negLoop_never_returns, ?_⟩
  intro fuel
  rw [getShortestPathAdj_eq, negLoop_never_returns]
  rfl

/-- C25, amended: for every graph with non-negative weights in which no sum the
search forms reaches `INT_MAX`, and every start and end, also nodes absent from
the graph, `getShortestPath` returns for every sufficient fuel, the graph object
after the call is the graph before it, and a second call on that object, with
the same or more fuel, returns the same cost and path. On every graph whatsoever
a call that returns leaves the graph object as it was, and a second call returns
the same result. -/
theorem route_search_leaves_graph (g : WarehouseGraph) (s e : Int)
    (hg : NonNegWeights g) (hno : NoOverflow g s) :
    (∃ N, ∀ fuel, N ≤ fuel →
      ∃ r, getShortestPathAdj g fuel s e = some (r, g) ∧
        ∀ k, getShortestPathAdj g (fuel + k) s e = some (r, g)) ∧
    (∀ (g2 : WarehouseGraph) (fuel : Nat) (s2 e2 : Int) (r : Int × List Int)
      (g3 : WarehouseGraph),
      getShortestPathAdj g2 fuel s2 e2 = some (r, g3) →
      g3 = g2 ∧ ∀ k, getShortestPathAdj g3 (fuel + k) s2 e2 = some (r, g3)) := by
  have frame : ∀ (g2 : WarehouseGraph) (fuel : Nat) (s2 e2 : Int) (r : Int × List Int)
      (g3 : WarehouseGraph),
      getShortestPathAdj g2 fuel s2 e2 = some (r, g3) →
      g3 = g2 ∧ ∀ k, getShortestPathAdj g3 (fuel + k) s2 e2 = some (r, g3) := by
    intro g2 fuel s2 e2 r g3 h
    rw [getShortestPathAdj_eq] at h
    cases hr : getShortestPath g2 fuel s2 e2 with
    | none => rw [hr] at h; cases h
    | some r2 =>
      rw [hr] at h
      simp only [Option.map_some', Option.some.injEq, Prod.mk.injEq] at h
      obtain ⟨h1, h2⟩ := h
      subst h1 h2
      refine ⟨rfl, fun k => ?_⟩
      rw [getShortestPathAdj_eq, getShortestPath_mono g2 s2 e2 fuel r2 hr k]
      rfl
  refine ⟨?_, frame⟩
  obtain ⟨N, hN⟩ := getShortestPath_spec g s e hg hno
  refine ⟨N, fun fuel hf => ?_⟩
  have hret : ∃ r, getShortestPath g fuel s e = some r := by
    rcases hN fuel hf with ⟨_, h⟩ | ⟨cost, path, h, _⟩
    · exact ⟨_, h⟩
    · exact ⟨_, h⟩
  obtain ⟨r, hr⟩ := hret
  have h1 : getShortestPathAdj g fuel s e = some (r, g) := by
    rw [getShortestPathAdj_eq, hr]
    rfl
  exact ⟨r, h1, (frame g fuel s e r g h1).2⟩

/-- Witness of C25: on the seeded warehouse the search from node 0 to node 7,
and to node 42, which is not in the graph, returns and leaves the graph as it
was. -/
theorem route_search_leaves_graph_witness :
    NonNegWeights (setupWarehouse ⟨[]⟩) ∧ NoOverflow (setupWarehouse ⟨[]⟩) 0 ∧
    getShortestPathAdj (setupWarehouse ⟨[]⟩) 50 0 7
      = some ((11, [0, 1, 3, 7]), setupWarehouse ⟨[]⟩) ∧
    getShortestPathAdj (setupWarehouse ⟨[]⟩) 50 0 42 = some ((-1, []), setupWarehouse ⟨[]⟩) ∧
    ∃ N, ∀ fuel, N ≤ fuel →
      ∃ r, getShortestPathAdj (setupWarehouse ⟨[]⟩) fuel 0 42 = some (r, setupWarehouse ⟨[]⟩) ∧
        ∀ k, getShortestPathAdj (setupWarehouse ⟨[]⟩) (fuel + k) 0 42
          = some (r, setupWarehouse ⟨[]⟩) :=
  ⟨nonneg_seeded, noOverflow_seeded_depot, by decide, by decide,
    (route_search_leaves_graph (setupWarehouse ⟨[]⟩) 0 42 nonneg_seeded
      noOverflow_seeded_depot).1⟩

/-! ## The order processed and the quantities admitted: claims C23 and C24 -/

theorem sortHeapLoop_frame :
    ∀ (n : Nat) (l : List Order), n ≤ l.length → HeapFrom 0 n l →
      ∀ j, n ≤ j → nth (sortHeapLoop n l) j = nth l j := by
  intro n
  induction n with
  | zero => intro l _ _ j _; rfl
  | succ n ih =>
    intro l hlen hheap j hj
    by_cases h1 : n + 1 > 1
    · simp only [sortHeapLoop, if_pos h1]
      obtain ⟨b1, b2, _, _, b5, _⟩ := popHeapN_spec (n + 1) l hlen (by omega) hheap
      simp only [Nat.add_sub_cancel] at b2
      rw [ih (popHeapN l (n + 1)) (by omega) b2 j (by omega)]
      exact b5 j hj
    · simp only [sortHeapLoop, if_neg h1]

theorem sort_heap_last (l : List Order) (hheap : HeapFrom 0 l.length l) (hne : l ≠ []) :
    nth (sort_heap l) (l.length - 1) = nth l 0 := by
  have hpos : 0 < l.length := List.length_pos.mpr hne
  unfold sort_heap
  obtain ⟨n, hn⟩ : ∃ n, l.length = n + 1 := ⟨l.length - 1, by omega⟩
  rw [hn] at hheap ⊢
  simp only [Nat.add_sub_cancel]
  by_cases h1 : n + 1 > 1
  · simp only [sortHeapLoop, if_pos h1]
    obtain ⟨b1, b2, b3, _⟩ := popHeapN_spec (n + 1) l (by omega) (by omega) hheap
    simp only [Nat.add_sub_cancel] at b2 b3
    rw [sortHeapLoop_frame n _ (by omega) b2 n (le_refl _)]
    exact b3
  · have h0 : n = 0 := by omega
    subst h0
    simp only [sortHeapLoop, if_neg h1]

theorem getPendingOrders_head (om : OrderManager) (hheap : IsMaxHeap om.orderHeap)
    (hne : om.orderHeap ≠ []) :
    ∃ rest, (getPendingOrders om).1 = currentOrder om :: rest := by
  have hh := (isMaxHeap_iff _).mp hheap
  obtain ⟨s1, _, _⟩ := sort_heap_spec om.orderHeap hh
  have hlast := sort_heap_last om.orderHeap hh hne
  obtain ⟨_, _, c3, _⟩ := heap_after_pop om.orderHeap hheap hne
  have hcur : currentOrder om = nth om.orderHeap 0 := c3
  have hsne : sort_heap om.orderHeap ≠ [] := by
    intro h0
    rw [h0] at s1
    exact hne (List.length_eq_zero.mp s1.symm)
  have e := dropLast_append_nth (sort_heap om.orderHeap) hsne
  rw [s1, hlast, ← hcur] at e
  refine ⟨(sort_heap om.orderHeap).dropLast.reverse, ?_⟩
  have e2 : (getPendingOrders om).1 = (sort_heap om.orderHeap).reverse := rfl
  rw [e2]
  have e3 : (sort_heap om.orderHeap).reverse
      = ((sort_heap om.orderHeap).dropLast ++ [currentOrder om]).reverse := by
    rw [e]
  rw [e3, List.reverse_append]
  rfl

/-- C24: for every state whose pending queue is a non-empty max-heap, the first
element of `getPendingOrders` is the order `processNextOrder` pops, also when
several pending orders share the highest priority; so when the route search
from node 0 to its location returns a cost other than -1, `PROCESS` succeeds,
appends that order to the dispatch queue and pushes onto the ledger a
`PROCESS_ORDER` record with the id of that order. Under the preconditions of the
route search this happens, with enough fuel, whenever a path joins node 0 to the
location. -/
theorem process_logs_processed_id (st : AppState) (hheap : IsMaxHeap st.om.orderHeap)
    (hne : st.om.orderHeap ≠ []) :
    (∃ rest, (getPendingOrders st.om).1 = currentOrder st.om :: rest) ∧
    (∀ fuel result,
      getShortestPath st.graph fuel 0 (currentOrder st.om).itemLocationNode = some result →
      result.1 ≠ -1 →
      ∃ st1, apiProcess st fuel = some (st1, ⟨"success", "Processed"⟩) ∧
        st1.om.dispatchQueue = st.om.dispatchQueue ++ [currentOrder st.om] ∧
        st1.hist.history
          = ⟨ActionType.PROCESS_ORDER, (currentOrder st.om).id, 0, 0, 0⟩ :: st.hist.history) ∧
    (NonNegWeights st.graph → NoOverflow st.graph 0 →
      (∃ p c, IsPath st.graph 0 (currentOrder st.om).itemLocationNode p c) →
      ∃ N, ∀ fuel, N ≤ fuel →
        ∃ st1, apiProcess st fuel = some (st1, ⟨"success", "Processed"⟩) ∧
          st1.om.dispatchQueue = st.om.dispatchQueue ++ [currentOrder st.om] ∧
          st1.hist.history
            = ⟨ActionType.PROCESS_ORDER, (currentOrder st.om).id, 0, 0, 0⟩ ::
              st.hist.history) := by
  obtain ⟨rest, hp⟩ := getPendingOrders_head st.om hheap hne
  have main : ∀ fuel result,
      getShortestPath st.graph fuel 0 (currentOrder st.om).itemLocationNode = some result →
      result.1 ≠ -1 →
      ∃ st1, apiProcess st fuel = some (st1, ⟨"success", "Processed"⟩) ∧
        st1.om.dispatchQueue = st.om.dispatchQueue ++ [currentOrder st.om] ∧
        st1.hist.history
          = ⟨ActionType.PROCESS_ORDER, (currentOrder st.om).id, 0, 0, 0⟩ ::
            st.hist.history := by
    intro fuel result hres hc
    refine ⟨{ st with
        om := ⟨(pop_heap st.om.orderHeap).dropLast, st.om.dispatchQueue ++ [currentOrder st.om]⟩
        hist := logAction st.hist
          ⟨ActionType.PROCESS_ORDER, (currentOrder st.om).id, 0, 0, 0⟩ }, ?_, rfl, rfl⟩
    rw [apiProcess_top st fuel (currentOrder st.om) rest hp,
      process_route_found st.graph st.om fuel hne result hres hc]
    rfl
  refine ⟨⟨rest, hp⟩, main, ?_⟩
  intro hg hno hreach
  obtain ⟨N, hN⟩ := getShortestPath_spec st.graph 0 (currentOrder st.om).itemLocationNode hg hno
  refine ⟨N, fun fuel hf => ?_⟩
  rcases hN fuel hf with ⟨hnone, _⟩ | ⟨cost, path, hrun, _, _, h0, _⟩
  · exact absurd hreach hnone
  · exact main fuel (cost, path) hrun (by simp only; omega)

/-- Witness of C24: with orders 1 and 2 pending at the same priority 5, `PROCESS`
moves order 1 to the dispatch queue and logs order id 1. -/
theorem process_logs_processed_id_witness :
    IsMaxHeap tiedState.om.orderHeap ∧
    tiedState.om.orderHeap = [⟨1, 5, "Laptop", 10, 7⟩, ⟨2, 5, "Mouse", 1, 3⟩] ∧
    currentOrder tiedState.om = ⟨1, 5, "Laptop", 10, 7⟩ ∧
    (∃ rest, (getPendingOrders tiedState.om).1 = currentOrder tiedState.om :: rest) ∧
    ∃ st1, apiProcess tiedState 50 = some (st1, ⟨"success", "Processed"⟩) ∧
      st1.om.dispatchQueue = tiedState.om.dispatchQueue ++ [currentOrder tiedState.om] ∧
      st1.hist.history
        = ⟨ActionType.PROCESS_ORDER, (currentOrder tiedState.om).id, 0, 0, 0⟩ ::
          tiedState.hist.history :=
  have hheap : IsMaxHeap tiedState.om.orderHeap := by
    intro i hi0 hil
    have e : tiedState.om.orderHeap.length = 2 := by decide
    have hi : i = 1 := by omega
    subst hi
    decide
  ⟨hheap, by decide, by decide,
    (process_logs_processed_id tiedState hheap (by decide)).1,
    (process_logs_processed_id tiedState hheap (by decide)).2.1 50 (11, [0, 1, 3, 7])
      (by decide) (by decide)⟩

theorem updateStock_range (inv : InventoryManager) (k c : Int) (h : StockInRange inv) :
    StockInRange (updateStock inv k c).2 := by
  intro j it hj
  cases hk : getItem inv k with
  | none =>
    have e : (updateStock inv k c).2 = inv := by
      unfold getItem at hk
      unfold updateStock
      rw [hk]
    rw [e] at hj
    exact h j it hj
  | some item =>
    obtain ⟨u1, u2⟩ := updateStock_item inv k c item hk
    by_cases hjk : j = k
    · subst hjk
      rw [u1] at hj
      simp only [Option.some.injEq] at hj
      subst hj
      exact wrapInt_range _
    · rw [u2 j hjk] at hj
      exact h j it hj

theorem seeded_stock_range : StockInRange (setupInventory ⟨[]⟩) := by
  intro i item h
  unfold getItem at h
  have hm := mapFind_some_pair _ _ _ h
  have e : (setupInventory ⟨[]⟩).inventory
      = [(101, ⟨101, "Laptop", 50, 7⟩), (102, ⟨102, "Mouse", 100, 3⟩),
         (103, ⟨103, "Keyboard", 80, 4⟩), (104, ⟨104, "Monitor", 30, 8⟩),
         (105, ⟨105, "Headphones", 60, 9⟩)] := by decide
  rw [e] at hm
  simp only [List.mem_cons, Prod.mk.injEq, List.mem_nil_iff, or_false] at hm
  rcases hm with ⟨_, rfl⟩ | ⟨_, rfl⟩ | ⟨_, rfl⟩ | ⟨_, rfl⟩ | ⟨_, rfl⟩ <;>
    exact ⟨by decide, by decide⟩

theorem apiReachPos_reach (st : AppState) (h : ApiReachPos st) : ∃ ids, ApiReach st ids := by
  induction h with
  | init inv graph _ => exact ⟨[], ApiReach.init inv graph⟩
  | add id qty prio _ _ ih =>
    obtain ⟨ids, hr⟩ := ih
    exact ⟨_, ApiReach.add id qty prio hr⟩
  | process fuel _ hp ih =>
    obtain ⟨ids, hr⟩ := ih
    exact ⟨ids, ApiReach.process fuel hr hp⟩
  | dispatch _ ih =>
    obtain ⟨ids, hr⟩ := ih
    exact ⟨ids, ApiReach.dispatch hr⟩
  | undo _ ih =>
    obtain ⟨ids, hr⟩ := ih
    exact ⟨ids, ApiReach.undo hr⟩

theorem apiReachPos_inv (st : AppState) (h : ApiReachPos st) :
    StockInRange st.inv ∧ ∀ o ∈ heldOrders st.om, 1 ≤ o.quantity := by
  induction h with
  | init inv graph hinv =>
    refine ⟨hinv, ?_⟩
    intro o ho
    simp [heldOrders] at ho
  | @add st id qty prio hq hprev ih =>
    obtain ⟨i1, i2⟩ := ih
    obtain ⟨ids, hr⟩ := apiReachPos_reach st hprev
    obtain ⟨hheap, _⟩ := apiReach_inv st ids hr
    by_cases ha : admits st id qty = true
    · obtain ⟨item, hitem, hstock⟩ := admits_item st id qty ha
      rw [apiAddOrder_admitted st id qty prio item hitem hstock]
      dsimp only
      obtain ⟨_, _, d3⟩ := add_held st.om
        (logAction st.hist ⟨ActionType.ADD_ORDER, st.orderCounter, id, qty, prio⟩)
        ⟨st.orderCounter, prio, item.name, qty, item.locationNode⟩ hheap
      refine ⟨updateStock_range _ _ _ i1, ?_⟩
      intro o ho
      rcases List.mem_cons.mp (d3.subset ho) with rfl | ho
      · exact hq
      · exact i2 o ho
    · have ha2 : admits st id qty = false := by simpa using ha
      rw [apiAddOrder_rejected st id qty prio ha2]
      exact ⟨i1, i2⟩
  | @process st st2 r fuel hprev hp ih =>
    obtain ⟨i1, i2⟩ := ih
    obtain ⟨ids, hr⟩ := apiReachPos_reach st hprev
    obtain ⟨hheap, _⟩ := apiReach_inv st ids hr
    obtain ⟨_, _, e3⟩ := apiProcess_om st st2 r fuel hp
    obtain ⟨f1, _⟩ := apiProcess_frame st st2 r fuel hheap hp
    rw [f1]
    refine ⟨i1, ?_⟩
    rcases e3 with e3 | e3
    · rw [e3]
      exact i2
    · obtain ⟨_, d2⟩ := process_held st.graph st.om st2.om fuel hheap e3
      intro o ho
      exact i2 o (d2.subset ho)
  | @dispatch st _ ih =>
    obtain ⟨i1, i2⟩ := ih
    obtain ⟨_, d2⟩ := dispatch_held st.om
    unfold apiDispatch
    dsimp only
    refine ⟨i1, ?_⟩
    rcases d2 with d2 | ⟨o, d2⟩
    · rw [d2]
      exact i2
    · intro x hx
      exact i2 x (d2.subset (List.mem_cons_of_mem _ hx))
  | @undo st hprev ih =>
    obtain ⟨i1, i2⟩ := ih
    obtain ⟨ids, hr⟩ := apiReachPos_reach st hprev
    obtain ⟨hheap, _⟩ := apiReach_inv st ids hr
    obtain ⟨_, _, e3⟩ := performUndo_om st
    unfold apiUndo
    refine ⟨?_, ?_⟩
    · rcases performUndo_inv st with e | ⟨k, c, e⟩
      · rw [e]
        exact i1
      · rw [e]
        exact updateStock_range _ _ _ i1
    · rcases e3 with e3 | ⟨x, e3⟩ | e3
      · rw [e3]
        exact i2
      · rw [e3]
        obtain ⟨_, d2⟩ := remove_held st.om x hheap
        rcases d2 with d2 | ⟨o, d2⟩
        · rw [d2]
          exact i2
        · intro y hy
          exact i2 y (d2.subset (List.mem_cons_of_mem _ hy))
      · rw [e3]
        obtain ⟨_, d2⟩ := revert_held st.om hheap
        intro y hy
        exact i2 y (d2.subset hy)

/-- C23 as stated fails on the code: in the seeded state `ADD_ORDER 101 -5 5`
passes the stock test (50 >= -5) and succeeds; the state it leaves, reached by
one API command, holds a pending order of quantity -5, and the stock of item
101 has gone up from 50 to 55. -/
theorem admission_of_negative_quantity :
    ApiReach (apiAddOrder initialState 101 (-5) 5).1 [1] ∧
    (getItem initialState.inv 101).map (fun it => it.quantity) = some 50 ∧
    (apiAddOrder initialState 101 (-5) 5).2 = ⟨"success", "Order placed"⟩ ∧
    (apiAddOrder initialState 101 (-5) 5).1.om.orderHeap = [⟨1, 5, "Laptop", -5, 7⟩] ∧
    (getItem (apiAddOrder initialState 101 (-5) 5).1.inv 101).map (fun it => it.quantity)
      = some 55 :=
  ⟨ApiReach.add 101 (-5) 5 (ApiReach.init (setupInventory ⟨[]⟩) (setupWarehouse ⟨[]⟩)),
    by decide, by decide, by decide, by decide⟩

/-- C23, amended: in every state reached from a start state with `int` stock
quantities (the seeded state is one) by API commands in which every `ADD_ORDER`
asks for a quantity of at least 1, every order in the pending queue or the
dispatch queue has a quantity of at least 1, and an admission of a quantity of
at least 1 leaves the stock of its item lower than before, by exactly that
quantity. -/
theorem admitted_quantities_positive (st : AppState) (h : ApiReachPos st) :
    (∀ o ∈ st.om.orderHeap ++ st.om.dispatchQueue, 1 ≤ o.quantity) ∧
    (∀ i qty p item, 1 ≤ qty → getItem st.inv i = some item →
      hasStock st.inv i qty = true →
      (apiAddOrder st i qty p).2 = ⟨"success", "Order placed"⟩ ∧
      getItem (apiAddOrder st i qty p).1.inv i
        = some { item with quantity := item.quantity - qty } ∧
      item.quantity - qty < item.quantity) := by
  obtain ⟨i1, i2⟩ := apiReachPos_inv st h
  refine ⟨i2, ?_⟩
  intro i qty p item hq hitem hstock
  have hrange := i1 i item hitem
  have hge : qty ≤ item.quantity := by
    rw [hasStock_item st.inv i qty item hitem] at hstock
    simpa using hstock
  rw [apiAddOrder_admitted st i qty p item hitem hstock]
  dsimp only
  obtain ⟨u1, _⟩ := updateStock_item st.inv i (wrapInt (-qty)) item hitem
  have hw : wrapInt (item.quantity + wrapInt (-qty)) = item.quantity - qty := by
    unfold wrapInt
    omega
  rw [hw] at u1
  exact ⟨rfl, u1, by omega⟩

/-- Witness of C23: the seeded state after `ADD_ORDER 101 10 5` holds one order,
of quantity 10, and `ADD_ORDER 102 1 9` then lowers the stock of item 102 from
100 to 99. -/
theorem admitted_quantities_positive_witness :
    ApiReachPos oneOrderState ∧
    oneOrderState.om.orderHeap = [⟨1, 5, "Laptop", 10, 7⟩] ∧
    (∀ o ∈ oneOrderState.om.orderHeap ++ oneOrderState.om.dispatchQueue, 1 ≤ o.quantity) ∧
    getItem (apiAddOrder oneOrderState 102 1 9).1.inv 102 = some ⟨102, "Mouse", 99, 3⟩ :=
  have hreach : ApiReachPos oneOrderState :=
    ApiReachPos.add 101 10 5 (by decide)
      (ApiReachPos.init (setupInventory ⟨[]⟩) (setupWarehouse ⟨[]⟩) seeded_stock_range)
  ⟨hreach, by decide, (admitted_quantities_positive oneOrderState hreach).1,
    ((admitted_quantities_positive oneOrderState hreach).2 102 1 9 ⟨102, "Mouse", 100, 3⟩
      (by decide) (by decide) (by decide)).2.1⟩

end Warehouse
